import Mathlib

/-!
# A header-tagged free-list allocator (`mem.c`)

Shallow embedding of `Mem_Init`, `Mem_Alloc`, `Mem_Free` and their helpers.

* Memory is modelled per header field: `State.next a` and `State.size_status a`
  are the values a `block_header *` equal to `a` reads through `->next` and
  `->size_status`.  Addresses are integers, `0` is `NULL`; address arithmetic is
  exact (pointers never wrap).
* `int` results are reduced to 32 bits two's complement (`toInt`); comparisons
  that C performs in `size_t` go through `toSizeT`.
* `sizeof(block_header)` and `sizeof(block_header *)` depend on the target; both
  common data models are covered by `Layout`.
* Signed overflow is modelled as wrap-around.  The operator `%` of C is modelled
  by `%` on `Int`: the program only applies it to non-negative operands or tests
  the remainder against zero, where the two agree.
* Every `while` loop walks the list stored in memory and is given fuel; `none`
  is "the loop was still running when the fuel ran out".
* Dereferencing `NULL` (a call before `Mem_Init`) is not modelled as a fault: a
  read at address `0` returns what the field maps hold there.
-/

namespace MemAlloc

/-! ## Target data model -/

/-- The two data models the program is compiled for: 32-bit pointers (ILP32) and
64-bit pointers (LP64).  `int` is 32 bits in both. -/
inductive Layout where
  | ilp32
  | lp64
  deriving DecidableEq, Repr

/-- The value of `sizeof(list_head)`, the size of a `block_header *`. -/
def Layout.sizeofPtr : Layout → Int
  | .ilp32 => 4
  | .lp64 => 8

/-- The value of `sizeof(block_header)`: a pointer, an `int`, and padding up to
the pointer alignment. -/
def Layout.sizeofHeader : Layout → Int
  | .ilp32 => 8
  | .lp64 => 16

/-- The number of values of `size_t`. -/
def Layout.sizeMod : Layout → Int
  | .ilp32 => 4294967296
  | .lp64 => 18446744073709551616

/-- Largest `int`. -/
def INT_MAX : Int := 2147483647

/-- Conversion of an exact integer to `int` (32 bits, two's complement). -/
def toInt (x : Int) : Int := (x + 2147483648) % 4294967296 - 2147483648

/-- Conversion of an exact integer to `size_t`. -/
def toSizeT (L : Layout) (x : Int) : Int := x % L.sizeMod

/-! ## Allocator state -/

/-- Globals of `mem.c` together with the header fields stored in memory. -/
structure State where
  /-- Contents of `p->next` for a header at address `p`; `0` is `NULL`. -/
  next : Int → Int
  /-- Contents of `p->size_status` for a header at address `p`. -/
  size_status : Int → Int
  /-- Global `list_head`. -/
  list_head : Int
  /-- Global `fit`. -/
  fit : Int
  /-- The `static int allocated_once` of `Mem_Init`. -/
  allocated_once : Int

/-- Program start: `list_head = NULL`, globals zero-initialised, memory zero. -/
def State.initial : State :=
  { next := fun _ => 0, size_status := fun _ => 0, list_head := 0, fit := 0,
    allocated_once := 0 }

/-- The store `p->next = v`. -/
def State.setNext (st : State) (p v : Int) : State :=
  { st with next := fun a => if a = p then v else st.next a }

/-- The store `p->size_status = v`. -/
def State.setSize (st : State) (p v : Int) : State :=
  { st with size_status := fun a => if a = p then v else st.size_status a }

/-! ## `Mem_Init` -/

/-- Function `Mem_Init(sizeOfRegion, policy)` (lines 60-114).  The environment supplies
`pagesize` (the result of `getpagesize()`), `fd` (the result of `open`) and
`mmap` (the address returned for a given length, `none` for `MAP_FAILED`). -/
def Mem_Init (L : Layout) (pagesize fd : Int) (mmap : Int → Option Int)
    (sizeOfRegion policy : Int) (st : State) : Int × State :=
  if st.allocated_once ≠ 0 then (-1, st)
  else if sizeOfRegion ≤ 0 then (-1, st)
  else
    let padsize := sizeOfRegion % pagesize
    let padsize := (pagesize - padsize) % pagesize
    let alloc_size := toInt (sizeOfRegion + padsize)
    if fd = -1 then (-1, st)
    else
      match mmap (toSizeT L alloc_size) with
      | none => (-1, { st with allocated_once := 0 })
      | some space_ptr =>
        let st := { st with allocated_once := 1 }
        let st := { st with list_head := space_ptr }
        let st := st.setNext st.list_head 0
        let st := st.setSize st.list_head (toInt (alloc_size - L.sizeofHeader))
        let st := { st with fit := policy }
        (0, st)

/-! ## Tag codec -/

/-- Function `isFree(ptr)` (lines 116-127): the size field is even. -/
def isFree (st : State) (ptr : Int) : Bool := st.size_status ptr % 2 == 0

/-- Function `setFree(ptr)` (lines 129-135). -/
def setFree (st : State) (ptr : Int) : State :=
  if !isFree st ptr then st.setSize ptr (toInt (st.size_status ptr - 1)) else st

/-- Function `setAllocated(ptr)` (lines 137-143). -/
def setAllocated (st : State) (ptr : Int) : State :=
  if isFree st ptr then st.setSize ptr (toInt (st.size_status ptr + 1)) else st

/-! ## `Mem_Alloc` -/

/-- The rounding of lines 166-170: `size` is kept when `size % 4 == 0`, else
replaced by `(size | 0x03) + 1`. -/
def roundSize (size : Int) : Int :=
  if size % 4 ≠ 0 then toInt (Int.lor size 3 + 1) else size

/-- The block-counting loop (lines 203-209, 454-460). -/
def countLoop (st : State) : Nat → Int → Nat → Option Nat
  | 0, _, _ => none
  | fuel + 1, counter, array_size =>
    if counter = 0 then some array_size
    else countLoop st fuel (st.next counter) (array_size + 1)

/-- The loop copying every `size_status` into `array_list` (lines 212-219,
463-470). -/
def fillLoop (st : State) : Nat → Int → Option (List Int)
  | 0, _ => none
  | fuel + 1, counter =>
    if counter = 0 then some []
    else (fillLoop st fuel (st.next counter)).map (fun l => st.size_status counter :: l)

/-- First even entry, `-1` when there is none (lines 222-229, 472-479). -/
def firstEven : List Int → Int
  | [] => -1
  | a :: l => if a % 2 = 0 then a else firstEven l

/-- The "search for smallest min" loop of best fit (lines 236-241). -/
def searchMin (size : Int) (array_list : List Int) (min : Int) : Int :=
  array_list.foldl (fun min a => if a % 2 = 0 ∧ a < min ∧ min ≥ size then a else min) min

/-- The "search for largest max" loop of worst fit (lines 486-491). -/
def searchMax (size : Int) (array_list : List Int) (max : Int) : Int :=
  array_list.foldl (fun max a => if a % 2 = 0 ∧ a > max ∧ max ≥ size then a else max) max

/-- The exact-fit loop (lines 250-260, 499-509): the first block whose
`size_status` equals `size` gets `size_status = size + 1`.  When the loop runs
off the list, control reaches `return 0`. -/
def exactLoop (L : Layout) (st : State) (size : Int) : Nat → Int → Option (Int × State)
  | 0, _ => none
  | fuel + 1, counter =>
    if counter = 0 then some (0, st)
    else if st.size_status counter = size then
      some (counter + L.sizeofHeader, st.setSize counter (toInt (size + 1)))
    else exactLoop L st size fuel (st.next counter)

/-- The no-split loop (lines 268-279, 517-528): the first block whose
`size_status` equals `size` gets its `size_status` incremented. -/
def tightLoop (L : Layout) (st : State) (size : Int) : Nat → Int → Option (Int × State)
  | 0, _ => none
  | fuel + 1, counter =>
    if counter = 0 then some (0, st)
    else if st.size_status counter = size then
      some (counter + L.sizeofHeader,
        st.setSize counter (toInt (st.size_status counter + 1)))
    else tightLoop L st size fuel (st.next counter)

/-- The splitting code shared verbatim by the three policies (lines 293-322,
376-405, 542-571), applied to the block `counter` and the rounded `size`. -/
def splitBlock (L : Layout) (st : State) (counter size : Int) : Int × State :=
  let temp_pointer := counter
  let size_counter := st.size_status counter
  let new_block := temp_pointer + size + L.sizeofHeader
  let size := toInt (size + 1)
  let st := st.setSize counter size
  let next_block := st.next counter
  let st := st.setNext counter new_block
  if next_block = 0 then
    let st := st.setNext new_block 0
    let st := st.setSize new_block (toInt (size_counter - L.sizeofHeader - (size - 1)))
    (counter + L.sizeofHeader, st)
  else
    let st := st.setNext new_block (st.next counter)
    let start_p := counter
    let end_p := st.next counter
    let st := st.setSize new_block
      (toInt ((end_p - start_p) - 2 * L.sizeofHeader - (size - 1)))
    (counter + L.sizeofHeader, st)

/-- The split loop of best and worst fit (lines 287-327, 536-576): the first
block whose `size_status` equals the chosen extremum `m` is split. -/
def splitLoop (L : Layout) (st : State) (size m : Int) : Nat → Int → Option (Int × State)
  | 0, _ => none
  | fuel + 1, counter =>
    if counter = 0 then some (0, st)
    else if st.size_status counter = m then some (splitBlock L st counter size)
    else splitLoop L st size m fuel (st.next counter)

/-- The placement code after the extremum has been computed (lines 246-329,
495-578). -/
def placeExtremum (L : Layout) (fuel : Nat) (st : State) (size m : Int) :
    Option (Int × State) :=
  let demand := size
  let available := m
  if demand = available then exactLoop L st size fuel st.list_head
  else if toSizeT L available
      < toSizeT L (toSizeT L demand + L.sizeofPtr + L.sizeofPtr / 2) then
    tightLoop L st size fuel st.list_head
  else splitLoop L st size m fuel st.list_head

/-- The first-fit loop (lines 347-451). -/
def firstFitLoop (L : Layout) (st : State) (size : Int) : Nat → Int → Option (Int × State)
  | 0, _ => none
  | fuel + 1, counter =>
    if counter = 0 then some (0, st)
    else if isFree st counter ∧ st.size_status counter = size then
      some (counter + L.sizeofHeader, st.setSize counter (toInt (size + 1)))
    else if isFree st counter ∧ st.size_status counter > size then
      let demand := size
      let available := st.size_status counter
      let pinch := toInt (available - demand)
      if toSizeT L (st.size_status counter)
          ≥ toSizeT L (toSizeT L size + L.sizeofHeader + L.sizeofHeader / 2) then
        some (splitBlock L st counter size)
      else if isFree st counter ∧ available > demand ∧ pinch > 0 ∧ pinch < 12
          ∧ st.next counter ≠ 0 then
        some (counter + L.sizeofHeader,
          st.setSize counter (toInt (st.size_status counter + 1)))
      else firstFitLoop L st size fuel (st.next counter)
    else firstFitLoop L st size fuel (st.next counter)

/-- Function `Mem_Alloc(size)` (lines 154-591).  The result is the returned pointer
(`0` for `NULL`) and the state after the call. -/
def Mem_Alloc (L : Layout) (fuel : Nat) (size : Int) (st : State) : Option (Int × State) :=
  if size ≤ 0 then some (0, st)
  else
    let size := roundSize size
    if st.next st.list_head = 0 then
      let temp_pointer := st.list_head
      let size_head := st.size_status st.list_head
      let new_block := temp_pointer + size + L.sizeofHeader
      let size := toInt (size + 1)
      let st := st.setSize st.list_head size
      let st := st.setNext st.list_head new_block
      let st := st.setNext new_block 0
      let st := st.setSize new_block (toInt (size_head - L.sizeofHeader - size + 1))
      some (st.list_head + L.sizeofHeader, st)
    else if st.fit = 0 then
      (countLoop st fuel st.list_head 0).bind fun _ =>
      (fillLoop st fuel st.list_head).bind fun array_list =>
        let min := firstEven array_list
        if min = -1 then some (0, st)
        else placeExtremum L fuel st size (searchMin size array_list min)
    else if st.fit = 1 then
      firstFitLoop L st size fuel st.list_head
    else if st.fit = 2 then
      (countLoop st fuel st.list_head 0).bind fun _ =>
      (fillLoop st fuel st.list_head).bind fun array_list =>
        let max := firstEven array_list
        if max = -1 then some (0, st)
        else placeExtremum L fuel st size (searchMax size array_list max)
    else some (0, st)

/-! ## `Mem_Free` -/

/-- Function `combine(p1, p2)` (lines 593-598); the program never calls it. -/
def combine (L : Layout) (st : State) (p1 p2 : Int) : Int × State :=
  let st := st.setNext p1 (st.next p2)
  let st := st.setSize p1
    (toInt (st.size_status p1 + st.size_status p2 + L.sizeofHeader))
  (p1, st)

/-- The walk to the last block in `inList` (lines 604-608). -/
def lastLoop (st : State) : Nat → Int → Option Int
  | 0, _ => none
  | fuel + 1, counter =>
    if st.next counter ≠ 0 then lastLoop st fuel (st.next counter) else some counter

/-- Function `inList(ptr)` (lines 600-622). -/
def inList (L : Layout) (fuel : Nat) (st : State) (ptr : Int) : Option Int :=
  let math_pointer_start := st.list_head
  (lastLoop st fuel st.list_head).map fun counter =>
    let size_final :=
      if st.size_status counter % 2 ≠ 0 then toInt (st.size_status counter - 1)
      else st.size_status counter
    let math_pointer_end := counter + L.sizeofHeader + size_final
    if ptr > math_pointer_end ∨ ptr < math_pointer_start then 0 else 1

/-- The search loop of `getPrevious` (lines 631-638). -/
def previousLoop (st : State) (node : Int) : Nat → Int → Option Int
  | 0, _ => none
  | fuel + 1, find =>
    if st.next find ≠ 0 then
      if st.next find = node then some find
      else previousLoop st node fuel (st.next find)
    else some 0

/-- Function `getPrevious(node)` (lines 624-640). -/
def getPrevious (fuel : Nat) (st : State) (node : Int) : Option Int :=
  if node = st.list_head then some 0 else previousLoop st node fuel st.list_head

/-- Function `getNext(node)` (lines 642-644). -/
def getNext (st : State) (node : Int) : Int := st.next node

/-- The right expansion loop of `Mem_Free` (lines 689-704); the result is the
final `next_pointer`. -/
def rightLoop (st : State) : Nat → Int → Int → Option Int
  | 0, _, _ => none
  | fuel + 1, next_pointer_tracker, next_pointer =>
    if next_pointer_tracker = 0 then some next_pointer
    else if st.size_status next_pointer_tracker % 2 = 0 then
      rightLoop st fuel (getNext st next_pointer_tracker) next_pointer_tracker
    else some next_pointer

/-- The left expansion loop of `Mem_Free` (lines 706-718); the result is the
final `prev_pointer`.  `fuel` bounds the loop, `inner` each `getPrevious`. -/
def leftLoop (inner : Nat) (st : State) : Nat → Int → Int → Option Int
  | 0, _, _ => none
  | fuel + 1, prev_pointer_tracker, prev_pointer =>
    if prev_pointer_tracker = 0 then some prev_pointer
    else if st.size_status prev_pointer_tracker % 2 = 0 then
      (getPrevious inner st prev_pointer_tracker).bind fun p =>
        leftLoop inner st fuel p prev_pointer_tracker
    else some prev_pointer

/-- Function `Mem_Free(ptr)` (lines 658-739). -/
def Mem_Free (L : Layout) (fuel : Nat) (ptr : Int) (st : State) : Option (Int × State) :=
  let req_pointer := ptr - L.sizeofHeader
  if ptr = 0 then some (-1, st)
  else
    (inList L fuel st ptr).bind fun ok =>
    if ok = 0 then some (-1, st)
    else if req_pointer = 0 then some (-1, st)
    else if st.size_status req_pointer % 2 = 0 then some (-1, st)
    else
      let st := st.setSize req_pointer (toInt (st.size_status req_pointer - 1))
      (rightLoop st fuel req_pointer req_pointer).bind fun next_pointer =>
      (leftLoop fuel st fuel req_pointer req_pointer).bind fun prev_pointer =>
      if prev_pointer ≠ next_pointer then
        let math_pointer_start := prev_pointer + L.sizeofHeader
        let math_pointer_end :=
          next_pointer + L.sizeofHeader + st.size_status next_pointer
        let new_size := toInt (math_pointer_end - math_pointer_start)
        let st := st.setNext prev_pointer (st.next next_pointer)
        let st := st.setSize prev_pointer new_size
        some (0, st)
      else some (0, st)

/-! ## Vocabulary of the data model -/

/-- Payload size encoded by a `size_status` value: the value itself when it is
even (free), one less when it is odd (busy). -/
def payload (s : Int) : Int := if s % 2 = 0 then s else s - 1

/-- Address one past the payload of the block whose header is at `b`. -/
def blockEnd (L : Layout) (st : State) (b : Int) : Int :=
  b + L.sizeofHeader + payload (st.size_status b)

/-- Following `next` from `a` visits exactly the non-null headers `bs`, in this
order, and then arrives at `e`. -/
def Seg (st : State) : Int → List Int → Int → Prop
  | a, [], e => a = e
  | a, b :: bs, e => a = b ∧ b ≠ 0 ∧ Seg st (st.next b) bs e

/-- The list that starts at `a` consists of exactly the headers `bs` and is
terminated by `NULL`. -/
def Linked (st : State) (a : Int) (bs : List Int) : Prop := Seg st a bs 0

/-- The blocks `bs` lie back to back: the first starts at `s`, each one starts
where its predecessor's payload ends, and the last payload ends at `e`. -/
def Tiled (L : Layout) (st : State) : Int → List Int → Int → Prop
  | s, [], e => s = e
  | s, b :: bs, e => s = b ∧ Tiled L st (blockEnd L st b) bs e

/-- No block of `bs` that is free is directly followed by a free block. -/
def NoAdjacentFree (st : State) : List Int → Prop
  | a :: b :: bs =>
    ¬ (isFree st a = true ∧ isFree st b = true) ∧ NoAdjacentFree st (b :: bs)
  | _ => True

/-- Last element of the non-empty list `p :: l`. -/
def lastFrom (p : Int) : List Int → Int
  | [] => p
  | x :: l => lastFrom x l

/-- Sum of header size plus payload over the blocks `bs`. -/
def totalSize (L : Layout) (st : State) (bs : List Int) : Int :=
  (bs.map fun b => L.sizeofHeader + payload (st.size_status b)).sum

/-- The invariants of the data model for a region `[base, base + len)` whose
block list is `bs`. -/
structure Invariants (L : Layout) (st : State) (base len : Int) (bs : List Int) : Prop where
  /-- The region starts at a non-null address and its length is an `int`. -/
  region : 0 < base ∧ 0 < len ∧ len ≤ INT_MAX
  /-- The list from `list_head` is `bs`, null-terminated, and not empty. -/
  linked : Linked st st.list_head bs ∧ bs ≠ []
  /-- The list head is the block with the lowest address in the region. -/
  head_lowest : st.list_head = base
  /-- Blocks are sorted strictly by increasing address. -/
  sorted : bs.Pairwise (fun a b => a < b)
  /-- Each block ends where its successor starts; the last ends at `base + len`. -/
  tiled : Tiled L st base bs (base + len)
  /-- No two adjacent blocks are both free. -/
  no_adjacent_free : NoAdjacentFree st bs
  /-- Every payload size is at least 4 and a multiple of 4. -/
  payload_ok : ∀ b ∈ bs, 4 ≤ payload (st.size_status b) ∧ payload (st.size_status b) % 4 = 0

/-- The header `c` is reached from `a` by following `next` some number of times. -/
def OnChain (st : State) (a c : Int) : Prop := ∃ k : Nat, (st.next)^[k] a = c

/-- What a placement loop started at `a` can return for the rounded request
`size`: `NULL` with the state untouched, or the payload address of a header `c`
reached from `a`, with either only `c->size_status` rewritten or `c` split. -/
def AllocOutcome (L : Layout) (st : State) (a size p : Int) (st1 : State) : Prop :=
  (p = 0 ∧ st1 = st) ∨
  ∃ c, OnChain st a c ∧ p = c + L.sizeofHeader ∧
    ((∃ v, st1 = st.setSize c v) ∨ st1 = (splitBlock L st c size).2)

/-- States reachable from the freshly initialised state `st0` by calls of
`Mem_Alloc` and `Mem_Free`, with the list of outstanding pointers (returned by
`Mem_Alloc`, not yet released).  `Mem_Free` is only called on an outstanding
pointer. -/
inductive Reachable (L : Layout) (st0 : State) : State → List Int → Prop
  | fresh : Reachable L st0 st0 []
  | alloc {st st1 : State} {out : List Int} (fuel : Nat) (size p : Int) :
      Reachable L st0 st out → Mem_Alloc L fuel size st = some (p, st1) →
      Reachable L st0 st1 (if p = 0 then out else p :: out)
  | free {st st1 : State} {out : List Int} (fuel : Nat) (p r : Int) :
      Reachable L st0 st out → p ∈ out → Mem_Free L fuel p st = some (r, st1) →
      Reachable L st0 st1 (out.erase p)

/-- A call of the public interface: `Mem_Alloc(size)` or `Mem_Free(ptr)`. -/
inductive Call where
  | alloc (size : Int)
  | free (ptr : Int)

/-- One call on a state with its outstanding pointers; a `Mem_Free` of a pointer
that is not outstanding is not part of any run. -/
def step (L : Layout) (fuel : Nat) : State × List Int → Call → Option (State × List Int)
  | (st, out), .alloc size =>
    (Mem_Alloc L fuel size st).map fun r => (r.2, if r.1 = 0 then out else r.1 :: out)
  | (st, out), .free ptr =>
    if ptr ∈ out then (Mem_Free L fuel ptr st).map fun r => (r.2, out.erase ptr) else none

/-- A sequence of calls, each given `fuel`. -/
def run (L : Layout) (fuel : Nat) : List Call → State × List Int → Option (State × List Int)
  | [], s => some s
  | c :: cs, s => (step L fuel s c).bind (run L fuel cs)

instance decSeg (st : State) :
    ∀ (a : Int) (bs : List Int) (e : Int), Decidable (Seg st a bs e)
  | a, [], e => inferInstanceAs (Decidable (a = e))
  | a, b :: bs, e =>
    have := decSeg st (st.next b) bs e
    inferInstanceAs (Decidable (a = b ∧ b ≠ 0 ∧ Seg st (st.next b) bs e))

instance decLinked (st : State) (a : Int) (bs : List Int) : Decidable (Linked st a bs) :=
  decSeg st a bs 0

instance decTiled (L : Layout) (st : State) :
    ∀ (s : Int) (bs : List Int) (e : Int), Decidable (Tiled L st s bs e)
  | s, [], e => inferInstanceAs (Decidable (s = e))
  | s, b :: bs, e =>
    have := decTiled L st (blockEnd L st b) bs e
    inferInstanceAs (Decidable (s = b ∧ Tiled L st (blockEnd L st b) bs e))

instance decNoAdjacentFree (st : State) : ∀ bs : List Int, Decidable (NoAdjacentFree st bs)
  | [] => isTrue trivial
  | [_] => isTrue trivial
  | a :: b :: bs =>
    have := decNoAdjacentFree st (b :: bs)
    inferInstanceAs
      (Decidable (¬ (isFree st a = true ∧ isFree st b = true) ∧ NoAdjacentFree st (b :: bs)))

/-! ## Concrete scenarios -/

/-- An LP64 heap of three blocks in the region `[65536, 65536 + 4096)`: a free
block of payload 100, a busy block of payload 100 and a free tail. -/
def sampleHeap : State :=
  { next := fun a => if a = 65536 then 65652 else if a = 65652 then 65768 else 0
    size_status := fun a =>
      if a = 65536 then 100 else if a = 65652 then 101 else if a = 65768 then 3848 else 0
    list_head := 65536
    fit := 1
    allocated_once := 1 }

/-- The state after `Mem_Init(4096, policy)` at program start, on a system
with 4096-byte pages where `mmap` returns the address `65536`. -/
def fresh (L : Layout) (policy : Int) : State :=
  (Mem_Init L 4096 3 (fun _ => some 65536) 4096 policy State.initial).2

/-- The calls `Mem_Alloc(s)` for the sizes `s` of a list, in order: the returned
pointers and the final state. -/
def allocAll (L : Layout) (fuel : Nat) : List Int → State → Option (List Int × State)
  | [], st => some ([], st)
  | s :: ss, st =>
    (Mem_Alloc L fuel s st).bind fun r =>
      (allocAll L fuel ss r.2).map fun q => (r.1 :: q.1, q.2)

/-- The calls `Mem_Free(p)` for the pointers `p` of a list, in order: the
returned values and the final state. -/
def freeAll (L : Layout) (fuel : Nat) : List Int → State → Option (List Int × State)
  | [], st => some ([], st)
  | p :: ps, st =>
    (Mem_Free L fuel p st).bind fun r =>
      (freeAll L fuel ps r.2).map fun q => (r.1 :: q.1, q.2)

/-- The calls of `main` (lines 808-869) after `Mem_Init(4096, policy)`: the nine
allocations `ptr[0..8]`, the release of `ptr[1]`, `ptr[3]`, `ptr[5]`, `ptr[7]`, and
`test = Mem_Alloc(50)`.  The result is the nine pointers, the four values returned
by `Mem_Free`, and `test`. -/
def mainScenario (L : Layout) (fuel : Nat) (policy : Int) :
    Option (List Int × List Int × Int) :=
  (allocAll L fuel [300, 200, 200, 100, 200, 800, 500, 700, 300] (fresh L policy)).bind
    fun a =>
      (freeAll L fuel [a.1.getD 1 0, a.1.getD 3 0, a.1.getD 5 0, a.1.getD 7 0] a.2).bind
        fun f => (Mem_Alloc L fuel 50 f.2).map fun t => (a.1, f.1, t.1)

/-! ## Reading memory after a store -/

@[simp] theorem setNext_next (st : State) (p v a : Int) :
    (st.setNext p v).next a = if a = p then v else st.next a := rfl

@[simp] theorem setNext_size_status (st : State) (p v : Int) :
    (st.setNext p v).size_status = st.size_status := rfl

@[simp] theorem setNext_list_head (st : State) (p v : Int) :
    (st.setNext p v).list_head = st.list_head := rfl

@[simp] theorem setNext_fit (st : State) (p v : Int) :
    (st.setNext p v).fit = st.fit := rfl

@[simp] theorem setNext_allocated_once (st : State) (p v : Int) :
    (st.setNext p v).allocated_once = st.allocated_once := rfl

@[simp] theorem setSize_size_status (st : State) (p v a : Int) :
    (st.setSize p v).size_status a = if a = p then v else st.size_status a := rfl

@[simp] theorem setSize_next (st : State) (p v : Int) :
    (st.setSize p v).next = st.next := rfl

@[simp] theorem setSize_list_head (st : State) (p v : Int) :
    (st.setSize p v).list_head = st.list_head := rfl

@[simp] theorem setSize_fit (st : State) (p v : Int) :
    (st.setSize p v).fit = st.fit := rfl

@[simp] theorem setSize_allocated_once (st : State) (p v : Int) :
    (st.setSize p v).allocated_once = st.allocated_once := rfl

/-! ## Arithmetic helpers -/

theorem toInt_of_range (x : Int) (h1 : -2147483648 ≤ x) (h2 : x ≤ 2147483647) :
    toInt x = x := by
  unfold toInt; omega

theorem sizeofHeader_cases (L : Layout) : L.sizeofHeader = 8 ∨ L.sizeofHeader = 16 := by
  cases L
  · exact Or.inl rfl
  · exact Or.inr rfl

/-- The padding computed by `Mem_Init` rounds the request up to the least
multiple of the page size. -/
theorem regionLength_isLeast (pagesize requested : Int) (hps : 0 < pagesize) :
    IsLeast {m : Int | pagesize ∣ m ∧ requested ≤ m}
      (requested + (pagesize - requested % pagesize) % pagesize) := by
  have hr0 := Int.emod_nonneg requested (ne_of_gt hps)
  have hr1 := Int.emod_lt_of_pos requested hps
  have hdecomp := Int.emod_add_ediv requested pagesize
  by_cases hr : requested % pagesize = 0
  · have hpad : (pagesize - requested % pagesize) % pagesize = 0 := by
      rw [hr]; simp
    rw [hpad]
    refine ⟨⟨?_, by omega⟩, ?_⟩
    · exact Int.dvd_of_emod_eq_zero (by simpa using hr)
    · rintro m ⟨_, hm⟩; omega
  · have hpad : (pagesize - requested % pagesize) % pagesize
        = pagesize - requested % pagesize :=
      Int.emod_eq_of_lt (by omega) (by omega)
    rw [hpad]
    refine ⟨⟨?_, by omega⟩, ?_⟩
    · refine ⟨requested / pagesize + 1, ?_⟩
      rw [mul_add, mul_one]; omega
    · rintro m ⟨⟨k, rfl⟩, hm⟩
      have hk : requested / pagesize < k := by
        by_contra hcon
        have : pagesize * k ≤ pagesize * (requested / pagesize) :=
          Int.mul_le_mul_of_nonneg_left (by omega) (le_of_lt hps)
        omega
      have : pagesize * (requested / pagesize + 1) ≤ pagesize * k :=
        Int.mul_le_mul_of_nonneg_left (by omega) (le_of_lt hps)
      rw [mul_add, mul_one] at this
      omega

/-! ## C1: `Mem_Init` -/

/-- C1, as stated, fails.  With a page size of 1 the request of 1 byte is already
a multiple of the page size, the installed `size_status` is `1 - 16 = -15`, which
is odd, so the single block is not free.  With the even page size `2147483646`
and a request of `2147483647` bytes the least multiple is `4294967292`, which is
not an `int`: with the overflow of `sizeOfRegion + padsize` wrapping around, the
installed `size_status` is `-20`, not `length - H`. -/
theorem Mem_Init_block_not_free_counterexample :
    (IsLeast {m : Int | (1 : Int) ∣ m ∧ (1 : Int) ≤ m} 1 ∧
      (Mem_Init .lp64 1 3 (fun _ => some 65536) 1 1 State.initial).1 = 0 ∧
      isFree (Mem_Init .lp64 1 3 (fun _ => some 65536) 1 1 State.initial).2 65536 = false) ∧
    (IsLeast {m : Int | (2147483646 : Int) ∣ m ∧ (2147483647 : Int) ≤ m} 4294967292 ∧
      (Mem_Init .lp64 2147483646 3 (fun _ => some 65536) 2147483647 1 State.initial).1 = 0 ∧
      (Mem_Init .lp64 2147483646 3 (fun _ => some 65536) 2147483647 1
          State.initial).2.size_status 65536
        ≠ 4294967292 - Layout.lp64.sizeofHeader) := by
  refine ⟨⟨?_, by decide, by decide⟩, ⟨?_, by decide, by decide⟩⟩
  · have h := regionLength_isLeast 1 1 (by decide)
    simpa using h
  · have h := regionLength_isLeast 2147483646 2147483647 (by decide)
    norm_num at h
    exact h

/-- C1, amended: for every request `> 0` and every even page size `> 0` whose
rounded length (the least multiple of the page size that is `>= requested`) is
an `int`, a call of `Mem_Init` before any successful one, for which `open` and
`mmap` succeed, returns 0 and leaves `list_head` at the region base with
`next = NULL` and `size_status = length - H`; that block is free and, the base
being non-null, the list consists of exactly this block. -/
theorem Mem_Init_installs_single_free_block (L : Layout) (pagesize fd : Int)
    (mmap : Int → Option Int) (requested policy base length : Int) (st : State)
    (hfirst : st.allocated_once = 0) (hreq : 0 < requested) (hps : 0 < pagesize)
    (heven : pagesize % 2 = 0)
    (hlen : IsLeast {m : Int | pagesize ∣ m ∧ requested ≤ m} length)
    (hmax : length ≤ INT_MAX) (hfd : fd ≠ -1)
    (hmap : mmap (toSizeT L length) = some base) :
    ∃ st1, Mem_Init L pagesize fd mmap requested policy st = (0, st1) ∧
      st1.list_head = base ∧ st1.next base = 0 ∧
      st1.size_status base = length - L.sizeofHeader ∧ isFree st1 base = true ∧
      (base ≠ 0 → Linked st1 st1.list_head [base]) := by
  have hlen2 := regionLength_isLeast pagesize requested hps
  have heq : requested + (pagesize - requested % pagesize) % pagesize = length :=
    hlen2.unique hlen
  have hle : requested ≤ length := hlen.1.2
  unfold INT_MAX at hmax
  have hwrap : toInt (requested + (pagesize - requested % pagesize) % pagesize) = length := by
    rw [heq]; exact toInt_of_range _ (by omega) (by omega)
  have hH := sizeofHeader_cases L
  have hwrap2 : toInt (length - L.sizeofHeader) = length - L.sizeofHeader :=
    toInt_of_range _ (by omega) (by omega)
  have hpar : length % 2 = 0 := by
    obtain ⟨k, hk⟩ := hlen.1.1
    have h2 : (2 : Int) ∣ pagesize := Int.dvd_of_emod_eq_zero heven
    have h3 : (2 : Int) ∣ length := hk ▸ Dvd.dvd.mul_right h2 k
    exact Int.emod_eq_zero_of_dvd h3
  have hne : ¬ requested ≤ 0 := by omega
  have key : Mem_Init L pagesize fd mmap requested policy st
      = (0, { ((({ st with allocated_once := 1, list_head := base } : State).setNext
          base 0).setSize base (length - L.sizeofHeader)) with fit := policy }) := by
    simp only [Mem_Init, hfirst, hne, hfd, hwrap, hmap, hwrap2]
    simp [State.setNext, State.setSize]
  refine ⟨_, key, rfl, ?_, ?_, ?_, ?_⟩
  · simp [State.setSize, State.setNext]
  · simp [State.setSize, State.setNext]
  · simp only [isFree, State.setSize, State.setNext, if_true, beq_iff_eq]
    omega
  · intro hb
    simp [Linked, Seg, State.setSize, State.setNext, hb]

/-- Witness for C1 (amended): a request of 5000 bytes with 4096-byte pages. -/
theorem Mem_Init_installs_single_free_block_witness :
    ∃ st1, Mem_Init .lp64 4096 3 (fun _ => some 65536) 5000 1 State.initial = (0, st1) ∧
      st1.list_head = 65536 ∧ st1.next 65536 = 0 ∧
      st1.size_status 65536 = 8192 - Layout.lp64.sizeofHeader ∧ isFree st1 65536 = true ∧
      ((65536 : Int) ≠ 0 → Linked st1 st1.list_head [65536]) :=
  Mem_Init_installs_single_free_block .lp64 4096 3 (fun _ => some 65536) 5000 1 65536 8192
    State.initial rfl (by decide) (by decide) (by decide)
    (by
      have h := regionLength_isLeast 4096 5000 (by decide)
      norm_num at h
      exact h)
    (by decide) (by decide) rfl

/-! ## Walking the list, rounding, and the first-fit loop -/

theorem nat_lor_three (n : Nat) : n ||| 3 = n - n % 4 + 3 := by
  have h1 : n = 2 ^ 2 * (n / 4) + n % 4 := by omega
  have hr : n % 4 < 2 ^ 2 := by omega
  have h2 : 2 ^ 2 * (n / 4) + n % 4 = 2 ^ 2 * (n / 4) ||| n % 4 := Nat.mul_add_lt_is_or hr _
  have h3 : (2 ^ 2 * (n / 4)) + 3 = 2 ^ 2 * (n / 4) ||| 3 := Nat.mul_add_lt_is_or (by decide) _
  have h4 : n % 4 ||| 3 = 3 := by
    have : n % 4 = 0 ∨ n % 4 = 1 ∨ n % 4 = 2 ∨ n % 4 = 3 := by omega
    rcases this with h | h | h | h <;> rw [h] <;> decide
  calc n ||| 3 = (2 ^ 2 * (n / 4) ||| n % 4) ||| 3 := by rw [← h2, ← h1]
    _ = 2 ^ 2 * (n / 4) ||| (n % 4 ||| 3) := Nat.lor_assoc _ _ _
    _ = 2 ^ 2 * (n / 4) + 3 := by rw [h4, ← h3]
    _ = n - n % 4 + 3 := by omega

theorem int_lor_three (x : Int) (hx : 0 ≤ x) : Int.lor x 3 = x - x % 4 + 3 := by
  obtain ⟨n, rfl⟩ := Int.eq_ofNat_of_zero_le hx
  have h : Int.lor (n : Int) 3 = ((n ||| 3 : Nat) : Int) := rfl
  rw [h, nat_lor_three]
  omega

/-- Without overflow the rounding of `Mem_Alloc` yields the next multiple of 4. -/
theorem roundSize_eq (size : Int) (h0 : 0 < size) (h1 : (size + 3) / 4 * 4 ≤ INT_MAX) :
    roundSize size = (size + 3) / 4 * 4 := by
  unfold roundSize INT_MAX at *
  split
  · rw [int_lor_three size (le_of_lt h0), toInt_of_range _ (by omega) (by omega)]
    omega
  · omega


theorem isFree_iff (st : State) (b : Int) : isFree st b = true ↔ st.size_status b % 2 = 0 := by
  simp [isFree]

theorem payload_of_free (st : State) (b : Int) (h : isFree st b = true) :
    payload (st.size_status b) = st.size_status b := by
  rw [isFree_iff] at h
  simp [payload, h]

theorem toSizeT_of_range (L : Layout) (x : Int) (h0 : 0 ≤ x) (h1 : x < 4294967296) :
    toSizeT L x = x := by
  unfold toSizeT
  cases L
  · exact Int.emod_eq_of_lt h0 h1
  · exact Int.emod_eq_of_lt h0 (lt_trans h1 (by decide))

theorem Tiled_le (L : Layout) (st : State) :
    ∀ (bs : List Int) (s e : Int), Tiled L st s bs e →
      (∀ b ∈ bs, 0 ≤ payload (st.size_status b)) → s ≤ e := by
  intro bs
  induction bs with
  | nil => intro s e h _; exact le_of_eq h
  | cons c cs ih =>
    intro s e h hp
    obtain ⟨h1, h2⟩ := h
    have := ih _ _ h2 (fun b hb => hp b (List.mem_cons_of_mem _ hb))
    have hc := hp c (List.mem_cons_self _ _)
    have hH := sizeofHeader_cases L
    unfold blockEnd at this
    omega

theorem Tiled_bounds (L : Layout) (st : State) :
    ∀ (bs : List Int) (s e : Int), Tiled L st s bs e →
      (∀ b ∈ bs, 0 ≤ payload (st.size_status b)) →
      ∀ b ∈ bs, s ≤ b ∧ blockEnd L st b ≤ e := by
  intro bs
  induction bs with
  | nil => intro s e _ _ b hb; exact absurd hb (List.not_mem_nil _)
  | cons c cs ih =>
    intro s e h hp b hb
    obtain ⟨h1, h2⟩ := h
    have hp2 : ∀ b ∈ cs, 0 ≤ payload (st.size_status b) :=
      fun b hb => hp b (List.mem_cons_of_mem _ hb)
    have hc := hp c (List.mem_cons_self _ _)
    have hH := sizeofHeader_cases L
    rcases List.mem_cons.mp hb with rfl | hb
    · have := Tiled_le L st cs _ _ h2 hp2
      exact ⟨le_of_eq h1, this⟩
    · have := ih _ _ h2 hp2 b hb
      unfold blockEnd at this
      constructor
      · omega
      · exact this.2

theorem splitBlock_fst (L : Layout) (st : State) (c sz : Int) :
    (splitBlock L st c sz).1 = c + L.sizeofHeader := by
  unfold splitBlock
  simp only
  split <;> rfl

theorem firstFitLoop_skip (L : Layout) (st : State) (sz : Int) (fuel : Nat) (c : Int)
    (hc : c ≠ 0) (hno : ¬ (isFree st c = true ∧ sz ≤ st.size_status c)) :
    firstFitLoop L st sz (fuel + 1) c = firstFitLoop L st sz fuel (st.next c) := by
  have h1 : ¬ (isFree st c = true ∧ st.size_status c = sz) := fun h => hno ⟨h.1, le_of_eq h.2.symm⟩
  have h2 : ¬ (isFree st c = true ∧ st.size_status c > sz) := fun h => hno ⟨h.1, le_of_lt h.2⟩
  simp only [firstFitLoop, hc, h1, h2, if_false]

theorem firstFitLoop_take (L : Layout) (st : State) (sz : Int) (fuel : Nat) (c : Int)
    (hc : c ≠ 0) (hfree : isFree st c = true) (hsz : 0 < sz) (hle : sz ≤ st.size_status c)
    (hmax : st.size_status c ≤ INT_MAX)
    (hacc : st.size_status c = sz ∨
      sz + L.sizeofHeader + L.sizeofHeader / 2 ≤ st.size_status c ∨
      (st.next c ≠ 0 ∧ st.size_status c - sz < 12)) :
    ∃ st1, firstFitLoop L st sz (fuel + 1) c = some (c + L.sizeofHeader, st1) := by
  unfold INT_MAX at hmax
  have hH := sizeofHeader_cases L
  have t1 : toSizeT L (st.size_status c) = st.size_status c :=
    toSizeT_of_range L _ (by omega) (by omega)
  have t2 : toSizeT L sz = sz := toSizeT_of_range L _ (by omega) (by omega)
  have t3 : toSizeT L (sz + L.sizeofHeader + L.sizeofHeader / 2)
      = sz + L.sizeofHeader + L.sizeofHeader / 2 :=
    toSizeT_of_range L _ (by omega) (by omega)
  have t4 : toInt (st.size_status c - sz) = st.size_status c - sz :=
    toInt_of_range _ (by omega) (by omega)
  simp only [firstFitLoop, hc, hfree, if_false, true_and, t1, t2, t3, t4]
  split_ifs with h1 h2 h3 h4
  · exact ⟨_, rfl⟩
  · exact ⟨_, by rw [← splitBlock_fst L st c sz]⟩
  · exact ⟨_, rfl⟩
  · exfalso
    rcases hacc with h | h | h
    · exact h1 h
    · exact h3 (by omega)
    · exact h4 ⟨h2, by omega, h.2, h.1⟩
  · exfalso
    exact h2 (by omega)

theorem firstFitLoop_finds (L : Layout) (st : State) (sz : Int) (B : Int) (post : List Int)
    (hfree : isFree st B = true) (hsz : 0 < sz) (hle : sz ≤ st.size_status B)
    (hmax : st.size_status B ≤ INT_MAX)
    (hacc : st.size_status B = sz ∨
      sz + L.sizeofHeader + L.sizeofHeader / 2 ≤ st.size_status B ∨
      (st.next B ≠ 0 ∧ st.size_status B - sz < 12)) :
    ∀ (pre : List Int) (a : Int) (fuel : Nat), Seg st a (pre ++ B :: post) 0 →
      (∀ x ∈ pre, ¬ (isFree st x = true ∧ sz ≤ st.size_status x)) →
      pre.length + 1 ≤ fuel →
      ∃ st1, firstFitLoop L st sz fuel a = some (B + L.sizeofHeader, st1) := by
  intro pre
  induction pre with
  | nil =>
    intro a fuel hseg _ hfuel
    obtain ⟨rfl, ha, _⟩ := hseg
    obtain ⟨n, rfl⟩ : ∃ n, fuel = n + 1 := ⟨fuel - 1, by simp at hfuel; omega⟩
    exact firstFitLoop_take L st sz n a ha hfree hsz hle hmax hacc
  | cons x xs ih =>
    intro a fuel hseg hpre hfuel
    obtain ⟨rfl, ha, hrest⟩ := hseg
    obtain ⟨n, rfl⟩ : ∃ n, fuel = n + 1 := ⟨fuel - 1, by simp at hfuel; omega⟩
    rw [firstFitLoop_skip L st sz n a ha (hpre a (List.mem_cons_self _ _))]
    exact ih _ n hrest (fun y hy => hpre y (List.mem_cons_of_mem _ hy))
      (by simp at hfuel ⊢; omega)



theorem Seg_append (st : State) :
    ∀ (xs : List Int) (a : Int) (ys : List Int) (e : Int),
      Seg st a (xs ++ ys) e ↔ ∃ m, Seg st a xs m ∧ Seg st m ys e := by
  intro xs
  induction xs with
  | nil =>
    intro a ys e
    constructor
    · intro h; exact ⟨a, rfl, h⟩
    · rintro ⟨m, hm, h⟩
      have : a = m := hm
      subst this
      exact h
  | cons x xs ih =>
    intro a ys e
    constructor
    · rintro ⟨h1, h2, h3⟩
      obtain ⟨m, hm1, hm2⟩ := (ih _ _ _).mp h3
      exact ⟨m, ⟨h1, h2, hm1⟩, hm2⟩
    · rintro ⟨m, ⟨h1, h2, h3⟩, hm⟩
      exact ⟨h1, h2, (ih _ _ _).mpr ⟨m, h3, hm⟩⟩

/-- In a linked list the successor of a block that is followed by `c` is `c`. -/
theorem Seg_next_of_mid (st : State) (xs : List Int) (a b c : Int) (ys : List Int) (e : Int)
    (h : Seg st a (xs ++ b :: c :: ys) e) : st.next b = c ∧ c ≠ 0 := by
  obtain ⟨m, _, h2⟩ := (Seg_append st xs a _ e).mp h
  obtain ⟨_, _, h3, h4, _⟩ := h2
  exact ⟨h3, h4⟩

theorem isLeast_multiple_of_four (size r : Int)
    (hr : IsLeast {m : Int | (4 : Int) ∣ m ∧ size ≤ m} r) : r = (size + 3) / 4 * 4 := by
  obtain ⟨⟨h1, h2⟩, h3⟩ := hr
  have h4 : r ≤ (size + 3) / 4 * 4 := h3 ⟨Dvd.intro_left _ rfl, by omega⟩
  have h5 : r % 4 = 0 := Int.emod_eq_zero_of_dvd h1
  omega

/-- Every block of a heap that satisfies the invariants has a `size_status`
between 4 and the region length. -/
theorem Invariants.size_bounds {L : Layout} {st : State} {base len : Int} {bs : List Int}
    (hinv : Invariants L st base len bs) (b : Int) (hb : b ∈ bs) :
    4 ≤ st.size_status b ∧ st.size_status b ≤ INT_MAX ∧ base ≤ b ∧
      blockEnd L st b ≤ base + len := by
  have hp := hinv.payload_ok
  have hb2 := Tiled_bounds L st bs base (base + len) hinv.tiled
    (fun x hx => by have := (hp x hx).1; omega) b hb
  have hpb := (hp b hb).1
  have hH := sizeofHeader_cases L
  have hreg := hinv.region
  refine ⟨?_, ?_, hb2.1, hb2.2⟩
  · unfold payload at hpb
    split at hpb <;> omega
  · have h1 := hb2.1
    have h2 := hb2.2
    unfold INT_MAX at *
    unfold blockEnd payload at h2
    split at h2 <;> omega

/-! ## C2: first fit -/

/-- C2, as stated, fails.  Under first fit, with the heap `[busy, free 8]`
reached by one `Mem_Alloc` on the fresh region, `Mem_Alloc(4)` returns `NULL`
although the last block is free with payload `8 >= 4`: a block that cannot be
split is only taken when it has a successor.  On LP64, with the heap
`[free 20, busy 8, free tail]`, `Mem_Alloc(4)` passes over the first block
(residual 16, neither below 12 nor enough for a split) and returns the payload
of the tail. -/
theorem firstFit_skips_block_counterexample :
    (∃ s, run .ilp32 2 [.alloc 4072] (fresh .ilp32 1, []) = some s ∧
      Invariants .ilp32 s.1 65536 4096 [65536, 69616] ∧ s.1.fit = 1 ∧
      isFree s.1 65536 = false ∧ isFree s.1 69616 = true ∧
      payload (s.1.size_status 69616) = 8 ∧
      ∀ n, Mem_Alloc .ilp32 (n + 3) 4 s.1 = some (0, s.1)) ∧
    (∃ s, run .lp64 2 [.alloc 4056] (fresh .lp64 1, []) = some s ∧
      Invariants .lp64 s.1 65536 4096 [65536, 69608] ∧ s.1.fit = 1 ∧
      isFree s.1 65536 = false ∧ isFree s.1 69608 = true ∧
      payload (s.1.size_status 69608) = 8 ∧
      ∀ n, Mem_Alloc .lp64 (n + 3) 4 s.1 = some (0, s.1)) ∧
    (∃ s, run .lp64 4 [.alloc 20, .alloc 8, .free 65552] (fresh .lp64 1, []) = some s ∧
      Invariants .lp64 s.1 65536 4096 [65536, 65572, 65596] ∧ s.1.fit = 1 ∧
      isFree s.1 65536 = true ∧ payload (s.1.size_status 65536) = 20 ∧
      ∀ n, (Mem_Alloc .lp64 (n + 4) 4 s.1).map Prod.fst = some (65596 + 16)) ∧
    IsLeast {m : Int | (4 : Int) ∣ m ∧ (4 : Int) ≤ m} 4 := by
  refine ⟨⟨_, rfl, ⟨by decide, by decide, by decide, by decide, by decide, by decide,
      by decide⟩, by decide, by decide, by decide, by decide, fun n => rfl⟩,
    ⟨_, rfl, ⟨by decide, by decide, by decide, by decide, by decide, by decide,
      by decide⟩, by decide, by decide, by decide, by decide, fun n => rfl⟩,
    ⟨_, rfl, ⟨by decide, by decide, by decide, by decide, by decide, by decide,
      by decide⟩, by decide, by decide, by decide, fun n => rfl⟩, ?_⟩
  exact ⟨⟨Dvd.intro 1 rfl, le_refl _⟩, fun m hm => hm.2⟩

/-- C2, amended: under first fit, for every heap satisfying the invariants and
every `size > 0` with `r` the least multiple of 4 that is `>= size`: if `B` is the
first free block in list order whose payload is `>= r`, and `B` is acceptable to
the loop (its payload is exactly `r`, or at least `r + H + H/2` so that it is
split, or `B` has a successor and its payload exceeds `r` by less than 12, or `B`
is the only block of the list), then `Mem_Alloc(size)` returns `addr(B) + H`. -/
theorem firstFit_returns_first_accepted_block (L : Layout) (st : State) (base len : Int)
    (pre : List Int) (B : Int) (post : List Int) (size r : Int) (fuel : Nat)
    (hinv : Invariants L st base len (pre ++ B :: post))
    (hfit : st.fit = 1) (hsize : 0 < size)
    (hr : IsLeast {m : Int | (4 : Int) ∣ m ∧ size ≤ m} r)
    (hpre : ∀ x ∈ pre, ¬ (isFree st x = true ∧ r ≤ payload (st.size_status x)))
    (hB : isFree st B = true ∧ r ≤ payload (st.size_status B))
    (hacc : payload (st.size_status B) = r ∨
      r + L.sizeofHeader + L.sizeofHeader / 2 ≤ payload (st.size_status B) ∨
      (post ≠ [] ∧ payload (st.size_status B) - r < 12) ∨
      (pre = [] ∧ post = []))
    (hfuel : (pre ++ B :: post).length ≤ fuel) :
    ∃ st1, Mem_Alloc L fuel size st = some (B + L.sizeofHeader, st1) := by
  have hrr := isLeast_multiple_of_four size r hr
  have hBmem : B ∈ pre ++ B :: post := by simp
  obtain ⟨hb4, hbmax, _, _⟩ := hinv.size_bounds B hBmem
  have hpay := payload_of_free st B hB.1
  rw [hpay] at hB hacc
  have hround : roundSize size = r := by
    rw [hrr]
    apply roundSize_eq size hsize
    rw [← hrr]
    exact le_trans hB.2 hbmax
  have hseg : Seg st st.list_head (pre ++ B :: post) 0 := hinv.linked.1
  have hr0 : 0 < r := by omega
  have hns : ¬ size ≤ 0 := by omega
  by_cases hsingle : st.next st.list_head = 0
  · -- the list is the single block `B`
    have hhead : st.list_head = B := by
      cases pre with
      | nil => exact hseg.1
      | cons x xs =>
        exfalso
        obtain ⟨hx, _, hrest⟩ := hseg
        rw [← hx, hsingle] at hrest
        cases xs with
        | nil => exact hrest.2.1 hrest.1.symm
        | cons y ys => exact hrest.2.1 hrest.1.symm
    simp only [Mem_Alloc, hns, hsingle, if_true, if_false, hround]
    simp only [setSize_list_head, setNext_list_head, hhead]
    exact ⟨_, rfl⟩
  · have hloop := firstFitLoop_finds L st r B post hB.1 hr0 hB.2 hbmax (by
        rcases hacc with h | h | h | h
        · exact Or.inl h
        · exact Or.inr (Or.inl h)
        · refine Or.inr (Or.inr ⟨?_, h.2⟩)
          cases post with
          | nil => exact absurd rfl h.1
          | cons c cs => rw [(Seg_next_of_mid st pre _ B c cs 0 hseg).1]
                         exact (Seg_next_of_mid st pre _ B c cs 0 hseg).2
        · exfalso
          obtain ⟨rfl, rfl⟩ := h
          obtain ⟨h1, _, h3⟩ := hseg
          have h3' : st.next B = 0 := h3
          rw [h1] at hsingle
          exact hsingle h3')
      pre st.list_head fuel hseg
      (fun x hx h => hpre x hx ⟨h.1, by rw [payload_of_free st x h.1]; exact h.2⟩)
      (by simp at hfuel; omega)
    obtain ⟨st1, h1⟩ := hloop
    refine ⟨st1, ?_⟩
    simp only [Mem_Alloc, hns, hsingle, if_false, hround, hfit]
    simpa using h1

/-- Witness for C2 (amended): `Mem_Alloc(4)` on `[free 100, busy 100, free tail]`. -/
theorem firstFit_returns_first_accepted_block_witness :
    ∃ st1, Mem_Alloc .lp64 3 4 sampleHeap = some (65536 + Layout.lp64.sizeofHeader, st1) :=
  firstFit_returns_first_accepted_block .lp64 sampleHeap 65536 4096 [] 65536 [65652, 65768]
    4 4 3
    ⟨by decide, by decide, by decide, by decide, by decide, by decide, by decide⟩
    (by decide) (by decide)
    ⟨⟨Dvd.intro 1 rfl, le_refl _⟩, fun _ hm => hm.2⟩
    (by decide) (by decide) (by decide) (by decide)

/-! ## Runs and reachability -/

/-- Every state produced by a run of calls from a reachable state is reachable. -/
theorem run_reachable (L : Layout) (st0 : State) (fuel : Nat) :
    ∀ (cs : List Call) (s s1 : State × List Int),
      Reachable L st0 s.1 s.2 → run L fuel cs s = some s1 → Reachable L st0 s1.1 s1.2 := by
  intro cs
  induction cs with
  | nil =>
    intro s s1 hs h
    simp only [run, Option.some.injEq] at h
    subst h
    exact hs
  | cons c cs ih =>
    intro s s1 hs h
    simp only [run, Option.bind_eq_some] at h
    obtain ⟨s2, h2, h3⟩ := h
    refine ih s2 s1 ?_ h3
    obtain ⟨st, out⟩ := s
    cases c with
    | alloc size =>
      simp only [step, Option.map_eq_some'] at h2
      obtain ⟨r, hr, rfl⟩ := h2
      exact Reachable.alloc fuel size r.1 hs hr
    | free ptr =>
      simp only [step] at h2
      split at h2
      · rename_i hmem
        simp only [Option.map_eq_some'] at h2
        obtain ⟨r, hr, rfl⟩ := h2
        exact Reachable.free fuel ptr r.1 hs hmem hr
      · exact absurd h2 (by simp)

/-- A header that is its own successor is never left by following `next`. -/
theorem no_seg_from_self_loop (st : State) (n : Int) (hloop : st.next n = n) :
    ∀ bs e, e ≠ n → ¬ Seg st n bs e := by
  intro bs
  induction bs with
  | nil => intro e he h; exact he h.symm
  | cons b bs ih =>
    intro e he h
    obtain ⟨h1, _, h3⟩ := h
    subst h1
    rw [hloop] at h3
    exact ih e he h3

/-- The run `a = Mem_Alloc(100); b = Mem_Alloc(100); Mem_Free(a); Mem_Alloc(4)`
under first fit: the last call splits the free block `a`, which has a successor,
and leaves the residual header `N` at `base + H + 4` with `N->next == N` and
`N->size_status == -H`. -/
theorem middle_split_run (L : Layout) :
    ∃ s, run L 4 [.alloc 100, .alloc 100, .free (65536 + L.sizeofHeader), .alloc 4]
        (fresh L 1, []) = some s ∧
      s.1.list_head = 65536 ∧ s.1.next 65536 = 65540 + L.sizeofHeader ∧
      s.1.next (65540 + L.sizeofHeader) = 65540 + L.sizeofHeader ∧
      s.1.size_status 65536 = 5 ∧
      s.1.size_status (65540 + L.sizeofHeader) = - L.sizeofHeader := by
  cases L
  · exact ⟨_, rfl, by decide⟩
  · exact ⟨_, rfl, by decide⟩

/-! ## C3, C4, C5: placement -/

/-- C3 (best fit) fails on the code.  After `a = Mem_Alloc(100)`, `Mem_Alloc(8)`,
`c = Mem_Alloc(40)`, `Mem_Alloc(8)`, `Mem_Free(a)`, `Mem_Free(c)` under policy 0
the heap satisfies the invariants and has the free blocks 100 (head), 40 and the
tail; `Mem_Alloc(52)` returns `NULL` although the head block (payload 100) is the
smallest free block that fits. -/
theorem bestFit_returns_null_although_block_fits (L : Layout) :
    ∃ st out, Reachable L (fresh L 0) st out ∧
      Invariants L st 65536 4096
        [65536, 65636 + L.sizeofHeader, 65644 + 2 * L.sizeofHeader,
          65684 + 3 * L.sizeofHeader, 65692 + 4 * L.sizeofHeader] ∧
      st.fit = 0 ∧ isFree st 65536 = true ∧ payload (st.size_status 65536) = 100 ∧
      ∀ n, Mem_Alloc L (n + 6) 52 st = some (0, st) := by
  have key : ∃ s, run L 6 [.alloc 100, .alloc 8, .alloc 40, .alloc 8,
        .free (65536 + L.sizeofHeader), .free (65644 + 3 * L.sizeofHeader)] (fresh L 0, [])
        = some s ∧
      Invariants L s.1 65536 4096
        [65536, 65636 + L.sizeofHeader, 65644 + 2 * L.sizeofHeader,
          65684 + 3 * L.sizeofHeader, 65692 + 4 * L.sizeofHeader] ∧
      s.1.fit = 0 ∧ isFree s.1 65536 = true ∧ payload (s.1.size_status 65536) = 100 ∧
      ∀ n, Mem_Alloc L (n + 6) 52 s.1 = some (0, s.1) := by
    cases L
    · exact ⟨_, rfl, ⟨by decide, by decide, by decide, by decide, by decide, by decide,
        by decide⟩, by decide, by decide, by decide, fun n => rfl⟩
    · exact ⟨_, rfl, ⟨by decide, by decide, by decide, by decide, by decide, by decide,
        by decide⟩, by decide, by decide, by decide, fun n => rfl⟩
  obtain ⟨s, hrun, h⟩ := key
  exact ⟨s.1, s.2, run_reachable L _ 6 _ (fresh L 0, []) s Reachable.fresh hrun, h⟩

/-- C4 (worst fit) fails on the code.  After `a = Mem_Alloc(40)`, `Mem_Alloc(8)`,
`Mem_Free(a)` under policy 2 the heap satisfies the invariants, its free blocks
are the head (payload 40) and the tail (payload `4040 - 2 * H`, the largest);
`Mem_Alloc(52)` returns `NULL` instead of the payload address of the tail. -/
theorem worstFit_returns_null_although_block_fits (L : Layout) :
    ∃ st out, Reachable L (fresh L 2) st out ∧
      Invariants L st 65536 4096
        [65536, 65576 + L.sizeofHeader, 65584 + 2 * L.sizeofHeader] ∧
      st.fit = 2 ∧ isFree st (65584 + 2 * L.sizeofHeader) = true ∧
      payload (st.size_status (65584 + 2 * L.sizeofHeader)) = 4048 - 3 * L.sizeofHeader ∧
      ∀ n, Mem_Alloc L (n + 4) 52 st = some (0, st) := by
  have key : ∃ s, run L 4 [.alloc 40, .alloc 8, .free (65536 + L.sizeofHeader)]
        (fresh L 2, []) = some s ∧
      Invariants L s.1 65536 4096
        [65536, 65576 + L.sizeofHeader, 65584 + 2 * L.sizeofHeader] ∧
      s.1.fit = 2 ∧ isFree s.1 (65584 + 2 * L.sizeofHeader) = true ∧
      payload (s.1.size_status (65584 + 2 * L.sizeofHeader)) = 4048 - 3 * L.sizeofHeader ∧
      ∀ n, Mem_Alloc L (n + 4) 52 s.1 = some (0, s.1) := by
    cases L
    · exact ⟨_, rfl, ⟨by decide, by decide, by decide, by decide, by decide, by decide,
        by decide⟩, by decide, by decide, by decide, fun n => rfl⟩
    · exact ⟨_, rfl, ⟨by decide, by decide, by decide, by decide, by decide, by decide,
        by decide⟩, by decide, by decide, by decide, fun n => rfl⟩
  obtain ⟨s, hrun, h⟩ := key
  exact ⟨s.1, s.2, run_reachable L _ 4 _ (fresh L 2, []) s Reachable.fresh hrun, h⟩

/-- C5 fails on the code.  On the freshly initialised 4096-byte region (a single
free block of payload `4096 - H`) `Mem_Alloc(5000)` does not return `NULL`,
whatever the policy: it returns `base + H`, and stores a header with the negative
`size_status` `-904 - 2 * H` at `base + H + 5000`, past the end of the region. -/
theorem alloc_on_single_block_ignores_size (L : Layout) (fuel : Nat) (policy : Int) :
    Invariants L (fresh L policy) 65536 4096 [65536] ∧
    isFree (fresh L policy) 65536 = true ∧
    payload ((fresh L policy).size_status 65536) = 4096 - L.sizeofHeader ∧
    ∃ st1, Mem_Alloc L fuel 5000 (fresh L policy) = some (65536 + L.sizeofHeader, st1) ∧
      st1.next 65536 = 70536 + L.sizeofHeader ∧
      st1.size_status (70536 + L.sizeofHeader) = -904 - 2 * L.sizeofHeader := by
  cases L <;>
    exact ⟨⟨of_decide_eq_true rfl, of_decide_eq_true rfl, of_decide_eq_true rfl,
        of_decide_eq_true rfl, of_decide_eq_true rfl, of_decide_eq_true rfl,
        of_decide_eq_true rfl⟩,
      of_decide_eq_true rfl, of_decide_eq_true rfl, _, rfl, of_decide_eq_true rfl,
      of_decide_eq_true rfl⟩

/-! ## The loops of `Mem_Free` on a well-formed list -/

theorem Seg_congr (st st1 : State) :
    ∀ (bs : List Int) (a e : Int), (∀ x ∈ bs, st1.next x = st.next x) →
      Seg st a bs e → Seg st1 a bs e := by
  intro bs
  induction bs with
  | nil => intro a e _ h; exact h
  | cons b bs ih =>
    intro a e hn h
    obtain ⟨h1, h2, h3⟩ := h
    refine ⟨h1, h2, ?_⟩
    rw [hn b (List.mem_cons_self _ _)]
    exact ih _ _ (fun x hx => hn x (List.mem_cons_of_mem _ hx)) h3

theorem Seg_mem_ne_zero (st : State) :
    ∀ (bs : List Int) (a e : Int), Seg st a bs e → ∀ x ∈ bs, x ≠ 0 := by
  intro bs
  induction bs with
  | nil => intro a e _ x hx; exact absurd hx (List.not_mem_nil _)
  | cons b bs ih =>
    intro a e h x hx
    rcases List.mem_cons.mp hx with rfl | hx
    · exact h.2.1
    · exact ih _ _ h.2.2 x hx

theorem lastLoop_eq (st : State) :
    ∀ (bs : List Int) (a last : Int) (fuel : Nat), Seg st a (bs ++ [last]) 0 →
      bs.length + 1 ≤ fuel → lastLoop st fuel a = some last := by
  intro bs
  induction bs with
  | nil =>
    intro a last fuel h hf
    obtain ⟨n, rfl⟩ : ∃ n, fuel = n + 1 := ⟨fuel - 1, by simp at hf; omega⟩
    obtain ⟨rfl, _, h3⟩ := h
    have h3' : st.next a = 0 := h3
    simp [lastLoop, h3']
  | cons x xs ih =>
    intro a last fuel h hf
    obtain ⟨n, rfl⟩ : ∃ n, fuel = n + 1 := ⟨fuel - 1, by simp at hf; omega⟩
    obtain ⟨rfl, _, h3⟩ := h
    have hne : st.next a ≠ 0 := by
      cases xs with
      | nil => exact h3.1 ▸ h3.2.1
      | cons y ys => exact h3.1 ▸ h3.2.1
    simp only [lastLoop, hne, ne_eq, not_false_eq_true, if_true]
    exact ih _ _ n h3 (by simp at hf ⊢; omega)

theorem rightLoop_eq (st : State) :
    ∀ (rn : List Int) (a p0 : Int) (post : List Int) (fuel : Nat),
      Seg st a (rn ++ post) 0 → (∀ x ∈ rn, st.size_status x % 2 = 0) →
      (∀ x, post.head? = some x → st.size_status x % 2 ≠ 0) → rn.length + 1 ≤ fuel →
      rightLoop st fuel a p0 = some (lastFrom p0 rn) := by
  intro rn
  induction rn with
  | nil =>
    intro a p0 post fuel h _ hpost hf
    obtain ⟨n, rfl⟩ : ∃ n, fuel = n + 1 := ⟨fuel - 1, by simp at hf; omega⟩
    cases post with
    | nil =>
      have : a = 0 := h
      simp [rightLoop, this, lastFrom]
    | cons c cs =>
      obtain ⟨rfl, hc, _⟩ := h
      have := hpost a rfl
      simp [rightLoop, hc, this, lastFrom]
  | cons x xs ih =>
    intro a p0 post fuel h hfree hpost hf
    obtain ⟨n, rfl⟩ : ∃ n, fuel = n + 1 := ⟨fuel - 1, by simp at hf; omega⟩
    obtain ⟨rfl, ha, h3⟩ := h
    have hx := hfree a (List.mem_cons_self _ _)
    simp only [rightLoop, ha, hx, if_false, if_true, getNext, lastFrom]
    exact ih _ _ post n h3 (fun y hy => hfree y (List.mem_cons_of_mem _ hy)) hpost
      (by simp at hf ⊢; omega)

theorem previousLoop_eq (st : State) (p n : Int) (hn : n ≠ 0) :
    ∀ (us : List Int) (find : Int) (fuel : Nat), Seg st find (us ++ [p]) n →
      n ∉ us ++ [p] → us.length + 1 ≤ fuel → previousLoop st n fuel find = some p := by
  intro us
  induction us with
  | nil =>
    intro find fuel h _ hf
    obtain ⟨k, rfl⟩ : ∃ k, fuel = k + 1 := ⟨fuel - 1, by simp at hf; omega⟩
    obtain ⟨rfl, _, h3⟩ := h
    have h3' : st.next find = n := h3
    simp [previousLoop, h3', hn]
  | cons u us ih =>
    intro find fuel h hnot hf
    obtain ⟨k, rfl⟩ : ∃ k, fuel = k + 1 := ⟨fuel - 1, by simp at hf; omega⟩
    obtain ⟨rfl, _, h3⟩ := h
    have hnot2 : n ∉ us ++ [p] := fun hm => hnot (List.mem_cons_of_mem _ hm)
    have hnext : st.next find ≠ 0 ∧ st.next find ∈ us ++ [p] := by
      cases us with
      | nil => exact ⟨h3.1 ▸ h3.2.1, by simp [h3.1]⟩
      | cons y ys => exact ⟨h3.1 ▸ h3.2.1, by simp [h3.1]⟩
    have hne : st.next find ≠ n := fun h => hnot2 (h ▸ hnext.2)
    simp only [previousLoop, hnext.1, hne, ne_eq, not_false_eq_true, if_true, if_false]
    exact ih _ k h3 hnot2 (by simp at hf ⊢; omega)

theorem getPrevious_eq (st : State) (xs : List Int) (p n : Int) (ys : List Int) (inner : Nat)
    (h : Seg st st.list_head (xs ++ p :: n :: ys) 0)
    (hnd : (xs ++ p :: n :: ys).Nodup) (hf : xs.length + 1 ≤ inner) :
    getPrevious inner st n = some p := by
  have hn := (Seg_next_of_mid st xs _ p n ys 0 h).2
  have h' : Seg st st.list_head ((xs ++ [p]) ++ n :: ys) 0 := by simpa using h
  obtain ⟨m, h1, h2⟩ := (Seg_append st (xs ++ [p]) _ _ 0).mp h'
  have hm : m = n := h2.1
  subst hm
  have hnd' : ((xs ++ [p]) ++ m :: ys).Nodup := by simpa using hnd
  have hnot : m ∉ xs ++ [p] := by
    intro hm
    exact (List.nodup_append.mp hnd').2.2 hm (List.mem_cons_self _ _)
  have hhead : m ≠ st.list_head := by
    intro he
    apply hnot
    cases xs with
    | nil => simp [he, h1.1]
    | cons y ys => simp [he, h1.1]
  simp only [getPrevious, hhead, if_false]
  exact previousLoop_eq st p m hn xs _ inner h1 hnot hf

theorem getPrevious_head (st : State) (n : Int) (ys : List Int) (inner : Nat)
    (h : Seg st st.list_head (n :: ys) 0) : getPrevious inner st n = some 0 := by
  simp [getPrevious, h.1]

/-- The left expansion loop, started at `t` with the free blocks `rl` before it
(listed from `t` backwards), stops at the first of them. -/
theorem leftLoop_eq (st : State) (pre : List Int) (inner : Nat)
    (hpre : ∀ x, pre.getLast? = some x → st.size_status x % 2 ≠ 0) :
    ∀ (rl : List Int) (t p0 : Int) (suffix : List Int) (fuel : Nat),
      Seg st st.list_head (pre ++ (rl.reverse ++ t :: suffix)) 0 →
      (pre ++ (rl.reverse ++ t :: suffix)).Nodup →
      st.size_status t % 2 = 0 → (∀ x ∈ rl, st.size_status x % 2 = 0) →
      rl.length + 2 ≤ fuel → pre.length + rl.length + 1 ≤ inner →
      leftLoop inner st fuel t p0 = some (lastFrom t rl) := by
  intro rl
  induction rl with
  | nil =>
    intro t p0 suffix fuel hseg hnd ht _ hf hin
    obtain ⟨n, rfl⟩ : ∃ n, fuel = n + 2 := ⟨fuel - 2, by simp at hf; omega⟩
    simp only [List.reverse_nil, List.nil_append] at hseg hnd
    have ht0 : t ≠ 0 := Seg_mem_ne_zero st _ _ _ hseg t (by simp)
    rcases List.eq_nil_or_concat pre with rfl | ⟨pre1, q, rfl⟩
    · have hp := getPrevious_head st t suffix inner (by simpa using hseg)
      simp only [leftLoop, ht0, ht, hp, if_false, if_true, Option.some_bind, lastFrom]
    · have hseg' : Seg st st.list_head (pre1 ++ q :: t :: suffix) 0 := by simpa using hseg
      have hnd' : (pre1 ++ q :: t :: suffix).Nodup := by simpa using hnd
      have hp := getPrevious_eq st pre1 q t suffix inner hseg' hnd'
        (by simp at hin; omega)
      have hq0 : q ≠ 0 := Seg_mem_ne_zero st _ _ _ hseg' q (by simp)
      have hq := hpre q (by simp)
      simp only [leftLoop, ht0, ht, hp, hq0, hq, if_false, if_true, Option.some_bind,
        lastFrom]
  | cons t1 rl ih =>
    intro t p0 suffix fuel hseg hnd ht hfree hf hin
    obtain ⟨n, rfl⟩ : ∃ n, fuel = n + 1 := ⟨fuel - 1, by simp at hf; omega⟩
    have hseg' : Seg st st.list_head ((pre ++ rl.reverse) ++ t1 :: t :: suffix) 0 := by
      simpa using hseg
    have hnd' : ((pre ++ rl.reverse) ++ t1 :: t :: suffix).Nodup := by simpa using hnd
    have ht0 : t ≠ 0 := Seg_mem_ne_zero st _ _ _ hseg' t (by simp)
    have hp := getPrevious_eq st (pre ++ rl.reverse) t1 t suffix inner hseg' hnd'
      (by simp at hin ⊢; omega)
    simp only [leftLoop, ht0, ht, if_false, if_true, hp, Option.some_bind, lastFrom]
    exact ih t1 t (t :: suffix) n (by simpa using hseg) (by simpa using hnd)
      (hfree t1 (List.mem_cons_self _ _))
      (fun x hx => hfree x (List.mem_cons_of_mem _ hx))
      (by simp at hf ⊢; omega) (by simp at hin ⊢; omega)

theorem Tiled_append (L : Layout) (st : State) :
    ∀ (xs : List Int) (s : Int) (ys : List Int) (e : Int),
      Tiled L st s (xs ++ ys) e ↔ ∃ m, Tiled L st s xs m ∧ Tiled L st m ys e := by
  intro xs
  induction xs with
  | nil =>
    intro s ys e
    constructor
    · intro h; exact ⟨s, rfl, h⟩
    · rintro ⟨m, hm, h⟩
      have : s = m := hm
      subst this
      exact h
  | cons x xs ih =>
    intro s ys e
    constructor
    · rintro ⟨h1, h3⟩
      obtain ⟨m, hm1, hm2⟩ := (ih _ _ _).mp h3
      exact ⟨m, ⟨h1, hm1⟩, hm2⟩
    · rintro ⟨m, ⟨h1, h3⟩, hm⟩
      exact ⟨h1, (ih _ _ _).mpr ⟨m, h3, hm⟩⟩

theorem Tiled_total (L : Layout) (st : State) :
    ∀ (bs : List Int) (s e : Int), Tiled L st s bs e → totalSize L st bs = e - s := by
  intro bs
  induction bs with
  | nil =>
    intro s e h
    have : s = e := h
    simp [totalSize, this]
  | cons b bs ih =>
    intro s e h
    obtain ⟨h1, h2⟩ := h
    have := ih _ _ h2
    simp only [totalSize, List.map_cons, List.sum_cons] at this ⊢
    rw [this]
    unfold blockEnd
    omega

theorem Tiled_end (L : Layout) (st : State) :
    ∀ (l : List Int) (b s e : Int), Tiled L st s (b :: l) e →
      s = b ∧ e = blockEnd L st (lastFrom b l) := by
  intro l
  induction l with
  | nil =>
    intro b s e h
    obtain ⟨h1, h2⟩ := h
    have h2' : blockEnd L st b = e := h2
    exact ⟨h1, h2'.symm⟩
  | cons c l ih =>
    intro b s e h
    obtain ⟨h1, h2⟩ := h
    exact ⟨h1, (ih c _ e h2).2⟩

theorem Seg_end (st : State) :
    ∀ (l : List Int) (b a e : Int), Seg st a (b :: l) e →
      a = b ∧ b ≠ 0 ∧ e = st.next (lastFrom b l) := by
  intro l
  induction l with
  | nil =>
    intro b a e h
    obtain ⟨h1, h2, h3⟩ := h
    have h3' : st.next b = e := h3
    exact ⟨h1, h2, h3'.symm⟩
  | cons c l ih =>
    intro b a e h
    obtain ⟨h1, h2, h3⟩ := h
    exact ⟨h1, h2, (ih c _ e h3).2.2⟩

theorem lastFrom_mem : ∀ (l : List Int) (b : Int), lastFrom b l = b ∨ lastFrom b l ∈ l := by
  intro l
  induction l with
  | nil => intro b; exact Or.inl rfl
  | cons c l ih =>
    intro b
    rcases ih c with h | h
    · exact Or.inr (by simp [lastFrom, h])
    · exact Or.inr (by simp [lastFrom, h])

theorem getLast?_eq_lastFrom : ∀ (l : List Int) (b : Int),
    (b :: l).getLast? = some (lastFrom b l) := by
  intro l
  induction l with
  | nil => intro b; rfl
  | cons c l ih =>
    intro b
    rw [List.getLast?_cons_cons]
    exact ih c

theorem head?_eq_lastFrom : ∀ (rl : List Int) (t : Int),
    (rl.reverse ++ [t]).head? = some (lastFrom t rl) := by
  intro rl
  induction rl with
  | nil => intro t; rfl
  | cons c rl ih =>
    intro t
    have := ih c
    simp only [List.reverse_cons, lastFrom]
    rw [List.head?_append_of_ne_nil _ (by simp)]
    exact this

theorem totalSize_mod_four (L : Layout) (st : State) :
    ∀ bs : List Int, (∀ b ∈ bs, payload (st.size_status b) % 4 = 0) →
      totalSize L st bs % 4 = 0 := by
  intro bs
  induction bs with
  | nil => intro _; rfl
  | cons b bs ih =>
    intro h
    have h1 := h b (List.mem_cons_self _ _)
    have h2 := ih (fun x hx => h x (List.mem_cons_of_mem _ hx))
    have hH := sizeofHeader_cases L
    simp only [totalSize, List.map_cons, List.sum_cons] at h2 ⊢
    omega

/-- The region check of `Mem_Free` accepts every pointer between the list head
and the end of the region of a heap that satisfies the invariants. -/
theorem inList_ok (L : Layout) (st : State) (base len : Int) (bs : List Int) (fuel : Nat)
    (ptr : Int) (hinv : Invariants L st base len bs) (h1 : base ≤ ptr)
    (h2 : ptr ≤ base + len) (hf : bs.length ≤ fuel) : inList L fuel st ptr = some 1 := by
  rcases List.eq_nil_or_concat bs with rfl | ⟨bs0, F, rfl⟩
  · exact absurd rfl hinv.linked.2
  · rw [List.concat_eq_append] at hinv hf
    have hlast := lastLoop_eq st bs0 st.list_head F fuel hinv.linked.1 (by simpa using hf)
    obtain ⟨hb4, hbmax, _, _⟩ := hinv.size_bounds F (by simp)
    obtain ⟨m, _, hm⟩ := (Tiled_append L st bs0 base [F] (base + len)).mp hinv.tiled
    have hend : blockEnd L st F = base + len := hm.2
    have hhead := hinv.head_lowest
    unfold INT_MAX at hbmax
    have hw : toInt (st.size_status F - 1) = st.size_status F - 1 :=
      toInt_of_range _ (by omega) (by omega)
    unfold blockEnd payload at hend
    rw [hhead] at hlast
    simp only [inList, hhead, hlast, Option.map_some', hw]
    split at hend <;> split_ifs <;> first | rfl | omega

/-! ## C6: `Mem_Free` -/

/-- C6: for every heap satisfying the invariants whose block list is
`pre ++ left ++ B :: right ++ post`, where `B` is busy, `left ++ B :: right` is the
maximal run of blocks around `B` that are free once `B` is (the blocks of `left`
and `right` are free, the last block of `pre` and the first block of `post`, if
any, are busy), `lm` is the first block of the run and `rm` its last:
`Mem_Free(addr(B) + H)` returns 0, and afterwards the list is `pre ++ lm :: post`
where `lm` is free, `lm->next` is the old successor of `rm`, and `lm->size_status`
is `(payload end of rm) - (header end of lm)`, which is `H` plus payload summed
over the run minus one `H`, i.e. the run's payloads plus `H` per absorbed header;
`next` and `size_status` of every block outside the run, `list_head` and `fit`
are unchanged. -/
theorem Mem_Free_coalesces_run (L : Layout) (st : State) (base len : Int)
    (pre left : List Int) (B : Int) (right post : List Int) (lm rm : Int) (fuel : Nat)
    (hinv : Invariants L st base len (pre ++ (left ++ B :: (right ++ post))))
    (hbusy : isFree st B = false)
    (hleft : ∀ x ∈ left, isFree st x = true) (hright : ∀ x ∈ right, isFree st x = true)
    (hpre : ∀ x, pre.getLast? = some x → isFree st x = false)
    (hpost : ∀ x, post.head? = some x → isFree st x = false)
    (hlm : (left ++ [B]).head? = some lm) (hrm : (B :: right).getLast? = some rm)
    (hfuel : (pre ++ (left ++ B :: (right ++ post))).length + 1 ≤ fuel) :
    ∃ st1, Mem_Free L fuel (B + L.sizeofHeader) st = some (0, st1) ∧
      st1.list_head = st.list_head ∧ st1.fit = st.fit ∧
      Linked st1 st1.list_head (pre ++ lm :: post) ∧
      isFree st1 lm = true ∧
      st1.next lm = st.next rm ∧
      st1.size_status lm = blockEnd L st rm - (lm + L.sizeofHeader) ∧
      st1.size_status lm = totalSize L st (left ++ B :: right) - L.sizeofHeader ∧
      ∀ x ∈ pre ++ post, st1.next x = st.next x ∧ st1.size_status x = st.size_status x := by
  have hH := sizeofHeader_cases L
  have hseg : Seg st st.list_head (pre ++ (left ++ B :: (right ++ post))) 0 := hinv.linked.1
  have hsorted := hinv.sorted
  have hnd : (pre ++ (left ++ B :: (right ++ post))).Nodup :=
    hsorted.imp (fun h => ne_of_lt h)
  obtain ⟨hb4, hbmax, hbase, hbend⟩ := hinv.size_bounds B (by simp)
  have hreg := hinv.region
  have hodd : ¬ st.size_status B % 2 = 0 := by
    intro h
    rw [(isFree_iff st B).mpr h] at hbusy
    exact absurd hbusy (by decide)
  have hpayB : payload (st.size_status B) = st.size_status B - 1 := by
    simp [payload, hodd]
  unfold INT_MAX at hbmax hreg
  have hw : toInt (st.size_status B - 1) = st.size_status B - 1 :=
    toInt_of_range _ (by omega) (by omega)
  have hrm1 : rm = lastFrom B right := by
    rw [getLast?_eq_lastFrom] at hrm
    exact (Option.some.inj hrm).symm
  have hlm1 : lm = lastFrom B left.reverse := by
    have := head?_eq_lastFrom left.reverse B
    rw [List.reverse_reverse, hlm] at this
    exact Option.some.inj this
  -- order facts
  obtain ⟨_, hs2, hs3⟩ := List.pairwise_append.mp hsorted
  obtain ⟨_, hs4, hs5⟩ := List.pairwise_append.mp hs2
  have hs6 := List.pairwise_cons.mp hs4
  have hlmB : lm ∈ left ∨ lm = B := by
    cases left with
    | nil => simp at hlm; exact Or.inr hlm.symm
    | cons a l => simp at hlm; exact Or.inl (by simp [hlm])
  have hrmB : rm = B ∨ rm ∈ right := hrm1 ▸ lastFrom_mem right B
  have hlm_le : lm ≤ B := by
    rcases hlmB with h | h
    · exact le_of_lt (hs5 lm h B (List.mem_cons_self _ _))
    · exact le_of_eq h
  have hle_rm : B ≤ rm := by
    rcases hrmB with h | h
    · exact le_of_eq h.symm
    · exact le_of_lt (hs6.1 rm (List.mem_append_left _ h))
  have hlm_mem : lm ∈ pre ++ (left ++ B :: (right ++ post)) := by
    rcases hlmB with h | h
    · simp [h]
    · simp [h]
  have hrm_mem : rm ∈ pre ++ (left ++ B :: (right ++ post)) := by
    rcases hrmB with h | h
    · simp [h]
    · simp [h]
  have hpre_lt : ∀ x ∈ pre, x < lm := fun x hx => by
    rcases hlmB with h | h
    · exact hs3 x hx lm (by simp [h])
    · exact h ▸ hs3 x hx B (by simp)
  have hpost_gt : ∀ x ∈ post, rm < x := fun x hx => by
    rcases hrmB with h | h
    · exact h ▸ hs6.1 x (List.mem_append_right _ hx)
    · have h7 := (List.pairwise_append.mp hs6.2).2.2
      exact h7 rm h x hx
  -- state after the busy bit is cleared
  have key : ∃ stF, Mem_Free L fuel (B + L.sizeofHeader) st = some (0, stF) ∧
      stF.list_head = st.list_head ∧ stF.fit = st.fit ∧
      stF.next lm = st.next rm ∧
      stF.size_status lm = blockEnd L st rm - (lm + L.sizeofHeader) ∧
      ∀ x, x ≠ lm → x ≠ B → stF.next x = st.next x ∧ stF.size_status x = st.size_status x := by
    have hB0 : B ≠ 0 := by omega
    have hptr0 : B + L.sizeofHeader ≠ 0 := by omega
    have hreq : B + L.sizeofHeader - L.sizeofHeader = B := by omega
    have hpay0 := (hinv.payload_ok B (by simp)).1
    have hin := inList_ok L st base len _ fuel (B + L.sizeofHeader) hinv (by omega)
      (by unfold blockEnd at hbend; omega) (by omega)
    have hseg1 : Seg (st.setSize B (st.size_status B - 1)) st.list_head
        (pre ++ (left ++ B :: (right ++ post))) 0 :=
      Seg_congr st _ _ _ _ (fun _ _ => rfl) hseg
    have hfreeB : (st.setSize B (st.size_status B - 1)).size_status B % 2 = 0 := by
      simp only [setSize_size_status, if_true]
      omega
    have hfree1 : ∀ x, isFree st x = true →
        (st.setSize B (st.size_status B - 1)).size_status x % 2 = 0 := by
      intro x hx
      have hxB : x ≠ B := by
        rintro rfl
        rw [hx] at hbusy
        exact absurd hbusy (by decide)
      simp only [setSize_size_status, hxB, if_false]
      exact (isFree_iff st x).mp hx
    have hbusy1 : ∀ x, isFree st x = false →
        (st.setSize B (st.size_status B - 1)).size_status x % 2 ≠ 0 ∨ x = B := by
      intro x hx
      by_cases hxB : x = B
      · exact Or.inr hxB
      · left
        simp only [setSize_size_status, hxB, if_false]
        intro h
        rw [(isFree_iff st x).mpr h] at hx
        exact absurd hx (by decide)
    -- right expansion
    have hsegR : Seg (st.setSize B (st.size_status B - 1)) B ((B :: right) ++ post) 0 := by
      have h1 : Seg (st.setSize B (st.size_status B - 1)) st.list_head
          ((pre ++ left) ++ ((B :: right) ++ post)) 0 := by simpa using hseg1
      obtain ⟨m, _, h2⟩ := (Seg_append _ (pre ++ left) _ _ 0).mp h1
      have hm : m = B := h2.1
      rw [hm] at h2
      exact h2
    have hR : rightLoop (st.setSize B (st.size_status B - 1)) fuel B B = some rm := by
      have := rightLoop_eq _ (B :: right) B B post fuel hsegR
        (by
          intro x hx
          rcases List.mem_cons.mp hx with rfl | hx
          · exact hfreeB
          · exact hfree1 x (hright x hx))
        (by
          intro x hx
          rcases hbusy1 x (hpost x hx) with h | h
          · exact h
          · exfalso
            have hxm : x ∈ post := List.mem_of_mem_head? hx
            have := hpost_gt x hxm
            omega)
        (by simp at hfuel ⊢; omega)
      rw [this, hrm1]
      rfl
    -- left expansion
    have hL : leftLoop fuel (st.setSize B (st.size_status B - 1)) fuel B B = some lm := by
      have := leftLoop_eq (st.setSize B (st.size_status B - 1)) pre fuel
        (by
          intro x hx
          rcases hbusy1 x (hpre x hx) with h | h
          · exact h
          · exfalso
            have hxm : x ∈ pre := List.mem_of_mem_getLast? hx
            have := hpre_lt x hxm
            omega)
        left.reverse B B (right ++ post) fuel
        (by rw [List.reverse_reverse]; exact hseg1)
        (by rw [List.reverse_reverse]; exact hnd)
        hfreeB
        (by
          intro x hx
          exact hfree1 x (hleft x (List.mem_reverse.mp hx)))
        (by simp at hfuel ⊢; omega)
        (by simp at hfuel ⊢; omega)
      rw [this, hlm1]
    simp only [Mem_Free, hptr0, hin, Option.some_bind, hreq, hB0, hodd, hw, hR, hL,
      if_false, one_ne_zero]
    by_cases hne : lm = rm
    · have hlB : lm = B := by omega
      have hrB : rm = B := by omega
      simp only [hne, ne_eq, not_true_eq_false, if_false]
      refine ⟨_, rfl, rfl, rfl, ?_, ?_, ?_⟩
      · rw [hrB]; rfl
      · simp only [hrB, setSize_size_status, if_true, blockEnd, hpayB]
        omega
      · intro x _ hxB
        simp [hxB]
    · simp only [hne, ne_eq, not_false_eq_true, if_true]
      refine ⟨_, rfl, rfl, rfl, ?_, ?_, ?_⟩
      · simp
      · have hsz : (if rm = B then st.size_status B - 1 else st.size_status rm)
            = payload (st.size_status rm) := by
          rcases hrmB with h | h
          · simp only [h, if_true, hpayB]
          · have hfr := hright rm h
            have hrB : rm ≠ B := by
              rintro rfl
              rw [hfr] at hbusy
              exact absurd hbusy (by decide)
            simp only [hrB, if_false, payload_of_free st rm hfr]
        obtain ⟨hr4, _, _, hrend⟩ := hinv.size_bounds rm hrm_mem
        obtain ⟨_, _, hlbase, _⟩ := hinv.size_bounds lm hlm_mem
        have hrp := (hinv.payload_ok rm hrm_mem).1
        simp only [setSize_size_status, if_true, setNext_size_status]
        rw [hsz]
        unfold blockEnd at hrend ⊢
        have hval : toInt (rm + L.sizeofHeader + payload (st.size_status rm)
              - (lm + L.sizeofHeader))
            = rm + L.sizeofHeader + payload (st.size_status rm) - (lm + L.sizeofHeader) :=
          toInt_of_range _ (by omega) (by omega)
        exact hval
      · intro x hxl hxB
        simp [hxl, hxB]
  obtain ⟨stF, hfreeF, hheadF, hfitF, hnextF, hsizeF, hsameF⟩ := key
  have hout : ∀ x ∈ pre ++ post, x ≠ lm ∧ x ≠ B := by
    intro x hx
    rcases List.mem_append.mp hx with h | h
    · have := hpre_lt x h
      constructor <;> omega
    · have := hpost_gt x h
      constructor <;> omega
  -- the run is tiled from `lm` to the end of `rm`
  have htiled : Tiled L st base (pre ++ ((left ++ B :: right) ++ post)) (base + len) := by
    simpa using hinv.tiled
  obtain ⟨m1, _, ht1⟩ := (Tiled_append L st pre base _ _).mp htiled
  obtain ⟨m2, ht2, _⟩ := (Tiled_append L st (left ++ B :: right) m1 post _).mp ht1
  have htot := Tiled_total L st _ _ _ ht2
  obtain ⟨m3, ht3, ht4⟩ := (Tiled_append L st left m1 (B :: right) m2).mp ht2
  have hend := Tiled_end L st right B m3 m2 ht4
  have hm2 : m2 = blockEnd L st rm := by rw [hrm1]; exact hend.2
  have hm1 : m1 = lm := by
    rcases hlmB with h | h
    · cases left with
      | nil => exact absurd h (List.not_mem_nil _)
      | cons a l =>
        simp only [List.cons_append, List.head?_cons, Option.some.injEq] at hlm
        exact ht3.1.trans hlm
    · cases left with
      | nil =>
        have h3 : m1 = m3 := ht3
        rw [h3, hend.1, h]
      | cons a l =>
        simp only [List.cons_append, List.head?_cons, Option.some.injEq] at hlm
        exact ht3.1.trans hlm
  have hsize2 : stF.size_status lm
      = totalSize L st (left ++ B :: right) - L.sizeofHeader := by
    rw [hsizeF, htot, hm1, hm2]
    omega
  have hmod := totalSize_mod_four L st (left ++ B :: right) (fun b hb =>
    (hinv.payload_ok b (by
      rcases List.mem_append.mp hb with h | h
      · simp [h]
      · rcases List.mem_cons.mp h with h | h
        · simp [h]
        · simp [h])).2)
  -- the list after the call
  have hseg2 : Seg st st.list_head (pre ++ ((left ++ B :: right) ++ post)) 0 := by
    simpa using hseg
  obtain ⟨a1, hsa, hsb⟩ := (Seg_append st pre _ _ 0).mp hseg2
  obtain ⟨a2, hsc, hsd⟩ := (Seg_append st (left ++ B :: right) a1 post 0).mp hsb
  obtain ⟨a3, hse, hsf⟩ := (Seg_append st left a1 (B :: right) a2).mp hsc
  have hend2 := Seg_end st right B a3 a2 hsf
  have ha2 : a2 = st.next rm := by rw [hrm1]; exact hend2.2.2
  have ha1 : a1 = lm := by
    rcases hlmB with h | h
    · cases left with
      | nil => exact absurd h (List.not_mem_nil _)
      | cons a l =>
        simp only [List.cons_append, List.head?_cons, Option.some.injEq] at hlm
        exact hse.1.trans hlm
    · cases left with
      | nil =>
        have h3 : a1 = a3 := hse
        rw [h3, hend2.1, h]
      | cons a l =>
        simp only [List.cons_append, List.head?_cons, Option.some.injEq] at hlm
        exact hse.1.trans hlm
  have hlm0 : lm ≠ 0 := Seg_mem_ne_zero st _ _ _ hseg lm hlm_mem
  have hlinked : Linked stF stF.list_head (pre ++ lm :: post) := by
    unfold Linked
    rw [hheadF]
    refine (Seg_append stF pre _ _ 0).mpr ⟨lm, ?_, rfl, hlm0, ?_⟩
    · rw [← ha1]
      exact Seg_congr st stF pre _ _
        (fun x hx => (hsameF x (hout x (List.mem_append_left _ hx)).1
          (hout x (List.mem_append_left _ hx)).2).1) hsa
    · rw [hnextF, ← ha2]
      exact Seg_congr st stF post _ _
        (fun x hx => (hsameF x (hout x (List.mem_append_right _ hx)).1
          (hout x (List.mem_append_right _ hx)).2).1) hsd
  refine ⟨stF, hfreeF, hheadF, hfitF, hlinked, ?_, hnextF, hsizeF, hsize2, ?_⟩
  · rw [isFree_iff, hsize2]
    omega
  · intro x hx
    exact hsameF x (hout x hx).1 (hout x hx).2

/-- Witness for C6: releasing the busy middle block of `[free 100, busy 100,
free tail]` merges all three blocks into one free block of payload `4096 - H`. -/
theorem Mem_Free_coalesces_run_witness :
    ∃ st1, Mem_Free .lp64 4 (65652 + Layout.lp64.sizeofHeader) sampleHeap = some (0, st1) ∧
      st1.list_head = sampleHeap.list_head ∧ st1.fit = sampleHeap.fit ∧
      Linked st1 st1.list_head ([] ++ 65536 :: []) ∧
      isFree st1 65536 = true ∧
      st1.next 65536 = sampleHeap.next 65768 ∧
      st1.size_status 65536
        = blockEnd .lp64 sampleHeap 65768 - (65536 + Layout.lp64.sizeofHeader) ∧
      st1.size_status 65536
        = totalSize .lp64 sampleHeap ([65536] ++ 65652 :: [65768])
          - Layout.lp64.sizeofHeader ∧
      ∀ x ∈ ([] : List Int) ++ [],
        st1.next x = sampleHeap.next x ∧ st1.size_status x = sampleHeap.size_status x :=
  Mem_Free_coalesces_run .lp64 sampleHeap 65536 4096 [] [65536] 65652 [65768] [] 65536 65768 4
    ⟨by decide, by decide, by decide, by decide, by decide, by decide, by decide⟩
    (by decide) (by decide) (by decide) (by decide) (by decide) (by decide) (by decide)
    (by decide)

/-! ## C7 - C10: invariants over reachable states -/

/-- C7 fails on the code.  After `a = Mem_Alloc(100); Mem_Alloc(100);
Mem_Free(a); Mem_Alloc(4)` under first fit, the successor `N` of the list head is
its own successor, so no walk from the head reaches `NULL`. -/
theorem list_walk_never_ends_after_middle_split (L : Layout) :
    ∃ st out, Reachable L (fresh L 1) st out ∧
      st.next st.list_head ≠ 0 ∧
      st.next (st.next st.list_head) = st.next st.list_head ∧
      ∀ bs, ¬ Linked st st.list_head bs := by
  obtain ⟨s, hrun, h1, h2, h3, _, _⟩ := middle_split_run L
  have hH := sizeofHeader_cases L
  refine ⟨s.1, s.2, run_reachable L _ 4 _ (fresh L 1, []) s Reachable.fresh hrun, ?_, ?_, ?_⟩
  · rw [h1, h2]; omega
  · rw [h1, h2, h3]
  · intro bs h
    cases bs with
    | nil =>
      have h0 : s.1.list_head = 0 := h
      omega
    | cons b bs =>
      obtain ⟨hb, _, hrest⟩ := h
      rw [← hb, h1, h2] at hrest
      exact no_seg_from_self_loop _ _ h3 bs 0 (by omega) hrest

/-- C8 fails on the code.  In the state reached by `a = Mem_Alloc(100);
Mem_Alloc(100); Mem_Free(a); Mem_Alloc(4)` under first fit, the blocks that the
list visits are the head and `N = base + H + 4`; header plus payload summed over
them is `H + 4`, not the region length 4096, and no list of blocks from the head
ends at `base + 4096`. -/
theorem blocks_do_not_tile_after_middle_split (L : Layout) :
    ∃ st out, Reachable L (fresh L 1) st out ∧
      st.list_head = 65536 ∧ st.next 65536 = 65540 + L.sizeofHeader ∧
      st.next (65540 + L.sizeofHeader) = 65540 + L.sizeofHeader ∧
      totalSize L st [65536, 65540 + L.sizeofHeader] = L.sizeofHeader + 4 ∧
      ∀ bs, ¬ (Linked st st.list_head bs ∧ Tiled L st 65536 bs (65536 + 4096)) := by
  obtain ⟨s, hrun, h1, h2, h3, h4, h5⟩ := middle_split_run L
  have hH := sizeofHeader_cases L
  refine ⟨s.1, s.2, run_reachable L _ 4 _ (fresh L 1, []) s Reachable.fresh hrun,
    h1, h2, h3, ?_, ?_⟩
  · simp only [totalSize, List.map, List.sum_cons, List.sum_nil, h4, h5, payload]
    rcases hH with hH | hH <;> rw [hH] <;> decide
  · rintro bs ⟨h, _⟩
    cases bs with
    | nil =>
      have h0 : s.1.list_head = 0 := h
      omega
    | cons b bs =>
      obtain ⟨hb, _, hrest⟩ := h
      rw [← hb, h1, h2] at hrest
      exact no_seg_from_self_loop _ _ h3 bs 0 (by omega) hrest

/-- C9 fails on the code.  On the freshly initialised 4096-byte region
`Mem_Alloc(4096 - 2 * H)` takes the single-block path and leaves, inside the
region, a second block whose payload size is 0. -/
theorem first_allocation_creates_empty_block (L : Layout) :
    ∃ st out, Reachable L (fresh L 1) st out ∧
      Linked st st.list_head [65536, 69632 - L.sizeofHeader] ∧
      isFree st (69632 - L.sizeofHeader) = true ∧
      payload (st.size_status (69632 - L.sizeofHeader)) = 0 := by
  have key : ∃ s, run L 1 [.alloc (4096 - 2 * L.sizeofHeader)] (fresh L 1, []) = some s ∧
      Linked s.1 s.1.list_head [65536, 69632 - L.sizeofHeader] ∧
      isFree s.1 (69632 - L.sizeofHeader) = true ∧
      payload (s.1.size_status (69632 - L.sizeofHeader)) = 0 := by
    cases L
    · exact ⟨_, rfl, by decide, by decide, by decide⟩
    · exact ⟨_, rfl, by decide, by decide, by decide⟩
  obtain ⟨s, hrun, h⟩ := key
  exact ⟨s.1, s.2, run_reachable L _ 1 _ (fresh L 1, []) s Reachable.fresh hrun, h⟩

/-- C10 fails on the code.  In the state reached by `a = Mem_Alloc(100);
Mem_Alloc(100); Mem_Free(a); Mem_Alloc(4)` under first fit, the block `N` that
follows the list head is free and its successor in the list, `N` itself, is
free. -/
theorem free_block_followed_by_free_block_after_middle_split (L : Layout) :
    ∃ st out n, Reachable L (fresh L 1) st out ∧
      st.next st.list_head = n ∧ n ≠ 0 ∧ isFree st n = true ∧
      isFree st (st.next n) = true := by
  obtain ⟨s, hrun, h1, h2, h3, _, h5⟩ := middle_split_run L
  have hH := sizeofHeader_cases L
  have hfree : isFree s.1 (65540 + L.sizeofHeader) = true := by
    simp only [isFree, h5, beq_iff_eq]
    omega
  refine ⟨s.1, s.2, 65540 + L.sizeofHeader,
    run_reachable L _ 4 _ (fresh L 1, []) s Reachable.fresh hrun, ?_, ?_, hfree, ?_⟩
  · rw [h1, h2]
  · omega
  · rw [h3]; exact hfree

/-! ## C11, C13: pointers and exhaustion -/

/-- C11 fails on the code.  Under best fit and under worst fit (policies 0 and
2), after `Mem_Alloc(4096 - H)` on the fresh 4096-byte region (a request that
fits the initial block exactly), `Mem_Alloc(4)` returns `base + 4096 + H`, which
lies past the end of the region: the first call left a header with
`size_status = -H` at `base + 4096`, and the second call splits that block. -/
theorem alloc_returns_pointer_past_region_end (L : Layout) :
    (∃ st out p st1, Reachable L (fresh L 0) st out ∧
      out = [65536 + L.sizeofHeader] ∧
      Mem_Alloc L 3 4 st = some (p, st1) ∧ p = 65536 + 4096 + L.sizeofHeader ∧
      isFree st1 (65536 + 4096) = false) ∧
    (∃ st out p st1, Reachable L (fresh L 2) st out ∧
      out = [65536 + L.sizeofHeader] ∧
      Mem_Alloc L 3 4 st = some (p, st1) ∧ p = 65536 + 4096 + L.sizeofHeader ∧
      isFree st1 (65536 + 4096) = false) := by
  have key : ∀ policy : Int, policy = 0 ∨ policy = 2 →
      ∃ s, run L 3 [.alloc (4096 - L.sizeofHeader)] (fresh L policy, []) = some s ∧
      s.2 = [65536 + L.sizeofHeader] ∧
      ∃ p st1, Mem_Alloc L 3 4 s.1 = some (p, st1) ∧ p = 65536 + 4096 + L.sizeofHeader ∧
      isFree st1 (65536 + 4096) = false := by
    intro policy hp
    rcases hp with rfl | rfl <;> cases L <;>
      exact ⟨_, rfl, by decide, _, _, rfl, by decide, by decide⟩
  constructor
  · obtain ⟨s, hrun, h1, p, st1, h3, h4, h5⟩ := key 0 (Or.inl rfl)
    exact ⟨s.1, s.2, p, st1, run_reachable L _ 3 _ (fresh L 0, []) s Reachable.fresh hrun,
      h1, h3, h4, h5⟩
  · obtain ⟨s, hrun, h1, p, st1, h3, h4, h5⟩ := key 2 (Or.inr rfl)
    exact ⟨s.1, s.2, p, st1, run_reachable L _ 3 _ (fresh L 2, []) s Reachable.fresh hrun,
      h1, h3, h4, h5⟩

/-- C13 fails on the code.  Under best fit (policy 0) on the fresh 4096-byte
region, whose single free block has payload `4096 - H`, the requests
`4096 - H, 4, 4` all succeed, although the first one already exhausts the region:
allocation does not return `NULL`.  Releasing in reverse order fails at once:
`Mem_Free` of the last pointer returns -1. -/
theorem allocation_never_fails_and_release_fails (L : Layout) :
    ∃ st p1 p2 p3, run L 4 [.alloc (4096 - L.sizeofHeader), .alloc 4, .alloc 4]
        (fresh L 0, []) = some (st, [p3, p2, p1]) ∧
      p1 ≠ 0 ∧ p2 ≠ 0 ∧ p3 ≠ 0 ∧
      payload ((fresh L 0).size_status 65536) = 4096 - L.sizeofHeader ∧
      Mem_Free L 4 p3 st = some (-1, st) := by
  cases L
  · exact ⟨_, 65544, 69640, 69652, rfl, by decide, by decide, by decide, by decide, rfl⟩
  · exact ⟨_, 65552, 69648, 69668, rfl, by decide, by decide, by decide, by decide, rfl⟩

/-! ## C12: allocate then release on a fresh region -/

/-- Round trip on a single free block when the rounding does not overflow: for
`0 < size <= INT_MAX - 3`, `Mem_Alloc(size)` takes the single-block path and returns
`base + H`, and `Mem_Free` of that pointer returns 0 and merges the two blocks again. -/
theorem alloc_then_free_round_trip (L : Layout) (st : State) (base len size : Int)
    (n : Nat) (hinv : Invariants L st base len [base]) (hfree : isFree st base = true)
    (h0 : 0 < size) (h1 : size ≤ INT_MAX - 3) :
    ∃ p st1 st2, Mem_Alloc L (n + 3) size st = some (p, st1) ∧ p ≠ 0 ∧
      Mem_Free L (n + 3) p st1 = some (0, st2) ∧
      st2.list_head = st.list_head ∧ st2.fit = st.fit ∧
      Linked st2 st2.list_head [base] ∧
      st2.next base = st.next base ∧ st2.size_status base = st.size_status base ∧
      st.next base = 0 ∧ st.size_status base = len - L.sizeofHeader := by
  have hH := sizeofHeader_cases L
  obtain ⟨hbase, hlen0, hlen⟩ := hinv.region
  have hhead := hinv.head_lowest
  have hnext : st.next base = 0 := by
    have := hinv.linked.1
    exact this.2.2
  have hpay := payload_of_free st base hfree
  have htile : base + L.sizeofHeader + payload (st.size_status base) = base + len :=
    hinv.tiled.2
  have hsz : st.size_status base = len - L.sizeofHeader := by rw [hpay] at htile; omega
  have hpar : st.size_status base % 2 = 0 := (isFree_iff st base).mp hfree
  have hp4 := (hinv.payload_ok base (by simp)).1
  rw [hpay] at hp4
  unfold INT_MAX at h1 hlen
  have hr := roundSize_eq size h0 (by unfold INT_MAX; omega)
  -- abbreviations
  obtain ⟨r, hrdef⟩ : ∃ r, r = (size + 3) / 4 * 4 := ⟨_, rfl⟩
  rw [← hrdef] at hr
  have hr0 : 0 < r := by omega
  have hr4 : r % 4 = 0 := by omega
  have hrmax : r ≤ 2147483644 := by omega
  have hw1 : toInt (r + 1) = r + 1 := toInt_of_range _ (by omega) (by omega)
  obtain ⟨ns, hns⟩ : ∃ ns, ns = toInt (len - L.sizeofHeader - L.sizeofHeader - (r + 1) + 1) :=
    ⟨_, rfl⟩
  have hns2 : ns % 2 = 0 := by rw [hns]; unfold toInt; omega
  have hns3 : len - 2 * L.sizeofHeader - r ≤ ns := by rw [hns]; unfold toInt; omega
  have hmerge : toInt (base + r + L.sizeofHeader + L.sizeofHeader + ns
      - (base + L.sizeofHeader)) = len - L.sizeofHeader := by
    rw [hns]; unfold toInt; omega
  have hN0 : base + r + L.sizeofHeader ≠ 0 := by omega
  have hNb : base + r + L.sizeofHeader ≠ base := by omega
  have hbN : base ≠ base + r + L.sizeofHeader := by omega
  have hb0 : base ≠ 0 := by omega
  have hs0 : ¬ size ≤ 0 := by omega
  have halloc : Mem_Alloc L (n + 3) size st = some (base + L.sizeofHeader,
      (((st.setSize base (r + 1)).setNext base (base + r + L.sizeofHeader)).setNext
        (base + r + L.sizeofHeader) 0).setSize (base + r + L.sizeofHeader) ns) := by
    simp only [Mem_Alloc, hs0, if_false, hr, hhead, hnext, if_true, hw1, setSize_list_head,
      setNext_list_head, hsz, hns]
  obtain ⟨st1, hst1⟩ : ∃ st1, st1 = (((st.setSize base (r + 1)).setNext base
      (base + r + L.sizeofHeader)).setNext (base + r + L.sizeofHeader) 0).setSize
        (base + r + L.sizeofHeader) ns := ⟨_, rfl⟩
  rw [← hst1] at halloc
  have e1 : st1.list_head = base := by rw [hst1]; exact hhead
  have e2 : st1.next base = base + r + L.sizeofHeader := by
    rw [hst1]; simp [hbN]
  have e3 : st1.next (base + r + L.sizeofHeader) = 0 := by
    rw [hst1]; simp
  have e4 : st1.size_status base = r + 1 := by
    rw [hst1]; simp [hbN]
  have e5 : st1.size_status (base + r + L.sizeofHeader) = ns := by
    rw [hst1]; simp
  have hreq : base + L.sizeofHeader - L.sizeofHeader = base := by omega
  have hptr0 : base + L.sizeofHeader ≠ 0 := by omega
  have hlast : lastLoop st1 (n + 3) base = some (base + r + L.sizeofHeader) := by
    simp only [lastLoop, e2, ne_eq, hN0, not_false_eq_true, if_true, e3, not_true_eq_false,
      if_false]
  have hin : inList L (n + 3) st1 (base + L.sizeofHeader) = some 1 := by
    have hcond : ¬ (base + L.sizeofHeader > base + r + L.sizeofHeader + L.sizeofHeader + ns
        ∨ base + L.sizeofHeader < base) := by omega
    have hpar2 : ¬ (ns % 2 ≠ 0) := by omega
    simp only [inList, e1, hlast, Option.map_some', e5, hpar2, if_false, hcond]
  have hodd : ¬ ((r + 1) % 2 = 0) := by omega
  have hw2 : toInt (r + 1 - 1) = r := by
    rw [toInt_of_range _ (by omega) (by omega)]; omega
  have hR : rightLoop (st1.setSize base r) (n + 3) base base
      = some (base + r + L.sizeofHeader) := by
    have hr2 : r % 2 = 0 := by omega
    simp only [rightLoop, hb0, if_false, setSize_size_status, if_true, hr2, getNext,
      setSize_next, e2, hN0, hNb, e5, hns2, e3]
  have hLp : leftLoop (n + 3) (st1.setSize base r) (n + 3) base base = some base := by
    have hr2 : r % 2 = 0 := by omega
    simp only [leftLoop, hb0, if_false, setSize_size_status, if_true, hr2, getPrevious,
      setSize_list_head, e1, Option.some_bind]
  have hfree2 : Mem_Free L (n + 3) (base + L.sizeofHeader) st1 = some (0,
      ((st1.setSize base r).setNext base 0).setSize base (len - L.sizeofHeader)) := by
    simp only [Mem_Free, hptr0, if_false, hin, Option.some_bind, one_ne_zero, hreq, hb0, e4,
      hodd, hw2, hR, hLp, ne_eq, hbN, not_false_eq_true, if_true, setSize_size_status,
      hNb, e5, setSize_next, e3, hmerge]
  refine ⟨_, _, _, halloc, by omega, hfree2, ?_, ?_, ?_, ?_, ?_, hnext, hsz⟩
  · simp [e1, hhead]
  · rw [hst1]; rfl
  · simp [Linked, Seg, e1, hb0]
  · simp [hnext]
  · simp [hsz]

/-- C12: starting from a freshly initialised region (the invariants hold and the list is a
single free block), for every size > 0 (an int) for which Mem_Alloc returns a non-null
pointer p, having stored the header of the block it splits off above the head: Mem_Free(p)
returns 0 and afterwards the list is again the single block at base with next NULL and
size_status length - H, as before the allocation; list_head and fit are unchanged. -/
theorem release_after_alloc_restores_fresh_region (L : Layout) (st : State)
    (base len size : Int) (n : Nat) (p : Int) (st1 : State)
    (hinv : Invariants L st base len [base]) (hfree : isFree st base = true)
    (h0 : 0 < size) (hint : size ≤ INT_MAX)
    (halloc : Mem_Alloc L (n + 3) size st = some (p, st1)) (hp : p ≠ 0)
    (habove : base < st1.next base) :
    ∃ st2, Mem_Free L (n + 3) p st1 = some (0, st2) ∧
      st2.list_head = st.list_head ∧ st2.fit = st.fit ∧
      Linked st2 st2.list_head [base] ∧
      st2.next base = st.next base ∧ st2.size_status base = st.size_status base ∧
      st.next base = 0 ∧ st.size_status base = len - L.sizeofHeader := by
  have hH := sizeofHeader_cases L
  have hp0 := hp
  by_cases h1 : size ≤ INT_MAX - 3
  · obtain ⟨q, sq, st2, hq, _, hrest⟩ :=
      alloc_then_free_round_trip L st base len size n hinv hfree h0 h1
    rw [hq] at halloc
    simp only [Option.some.injEq, Prod.mk.injEq] at halloc
    obtain ⟨rfl, rfl⟩ := halloc
    exact ⟨st2, hrest⟩
  · exfalso
    have hhead := hinv.head_lowest
    have hnext : st.next base = 0 := hinv.linked.1.2.2
    have hr : roundSize size = -2147483648 := by
      unfold INT_MAX at h1 hint
      have hc : size = 2147483645 ∨ size = 2147483646 ∨ size = 2147483647 := by omega
      rcases hc with rfl | rfl | rfl <;> decide
    have hs0 : ¬ size ≤ 0 := by omega
    simp only [Mem_Alloc, hs0, if_false, hr, hhead, hnext, if_true, Option.some.injEq,
      Prod.mk.injEq] at halloc
    obtain ⟨_, rfl⟩ := halloc
    simp only [State.setNext, State.setSize] at habove
    split_ifs at habove <;> omega

/-- Witness for C12: Mem_Alloc(100) then Mem_Free on the fresh region. -/
theorem release_after_alloc_restores_fresh_region_witness :
    Invariants .lp64 (fresh .lp64 1) 65536 4096 [65536] ∧
    isFree (fresh .lp64 1) 65536 = true ∧
    ∃ st1, Mem_Alloc .lp64 (0 + 3) 100 (fresh .lp64 1) = some (65552, st1) ∧
      (65536 : Int) < st1.next 65536 ∧
      ∃ st2, Mem_Free .lp64 (0 + 3) 65552 st1 = some (0, st2) ∧
        st2.list_head = (fresh .lp64 1).list_head ∧ st2.fit = (fresh .lp64 1).fit ∧
        Linked st2 st2.list_head [65536] ∧
        st2.next 65536 = (fresh .lp64 1).next 65536 ∧
        st2.size_status 65536 = (fresh .lp64 1).size_status 65536 ∧
        (fresh .lp64 1).next 65536 = 0 ∧
        (fresh .lp64 1).size_status 65536 = 4096 - Layout.lp64.sizeofHeader :=
  ⟨⟨by decide, by decide, by decide, by decide, by decide, by decide, by decide⟩, by decide,
    _, rfl, by decide,
    release_after_alloc_restores_fresh_region .lp64 (fresh .lp64 1) 65536 4096 100 0 65552 _
      ⟨by decide, by decide, by decide, by decide, by decide, by decide, by decide⟩
      (by decide) (by decide) (by decide) rfl (by decide) (by decide)⟩

/-! ## C15: the policy argument of `Mem_Init` -/

/-- C15, as stated, fails: `Mem_Init(4096, 7)` and `Mem_Init(4096, -1)` return 0,
and the value 7 is recorded in `fit`. -/
theorem Mem_Init_accepts_unknown_policy_counterexample :
    (Mem_Init .lp64 4096 3 (fun _ => some 65536) 4096 7 State.initial).1 = 0 ∧
    (Mem_Init .lp64 4096 3 (fun _ => some 65536) 4096 7 State.initial).2.fit = 7 ∧
    (Mem_Init .ilp32 4096 3 (fun _ => some 65536) 4096 (-1) State.initial).1 = 0 := by
  decide

/-- C15, amended: `Mem_Init` does not examine `policy`.  For every size and any
two policy values, inside or outside `{0, 1, 2}`, it returns the same value, and
when it returns 0 the policy given is the one recorded in `fit`. -/
theorem Mem_Init_ignores_policy (L : Layout) (pagesize fd : Int) (mmap : Int → Option Int)
    (sizeOfRegion policy1 policy2 : Int) (st : State) :
    (Mem_Init L pagesize fd mmap sizeOfRegion policy1 st).1
      = (Mem_Init L pagesize fd mmap sizeOfRegion policy2 st).1 ∧
    ((Mem_Init L pagesize fd mmap sizeOfRegion policy1 st).1 = 0 →
      (Mem_Init L pagesize fd mmap sizeOfRegion policy1 st).2.fit = policy1) := by
  unfold Mem_Init
  simp only
  split_ifs
  · exact ⟨rfl, fun h => by simp at h⟩
  · exact ⟨rfl, fun h => by simp at h⟩
  · exact ⟨rfl, fun h => by simp at h⟩
  · split
    · exact ⟨rfl, fun h => by simp at h⟩
    · exact ⟨rfl, fun _ => rfl⟩

/-! ## C17: the region check of `Mem_Free` -/

/-- On a heap that satisfies the invariants the region check of `Mem_Free` returns
1 exactly for the pointers between the list head and the end of the region. -/
theorem inList_eq (L : Layout) (st : State) (base len : Int) (bs : List Int) (fuel : Nat)
    (ptr : Int) (hinv : Invariants L st base len bs) (hf : bs.length ≤ fuel) :
    inList L fuel st ptr = some (if base ≤ ptr ∧ ptr ≤ base + len then 1 else 0) := by
  rcases List.eq_nil_or_concat bs with rfl | ⟨bs0, F, rfl⟩
  · exact absurd rfl hinv.linked.2
  · rw [List.concat_eq_append] at hinv hf
    have hlast := lastLoop_eq st bs0 st.list_head F fuel hinv.linked.1 (by simpa using hf)
    obtain ⟨hb4, hbmax, _, _⟩ := hinv.size_bounds F (by simp)
    obtain ⟨m, _, hm⟩ := (Tiled_append L st bs0 base [F] (base + len)).mp hinv.tiled
    have hend : blockEnd L st F = base + len := hm.2
    have hhead := hinv.head_lowest
    unfold INT_MAX at hbmax
    have hw : toInt (st.size_status F - 1) = st.size_status F - 1 :=
      toInt_of_range _ (by omega) (by omega)
    unfold blockEnd payload at hend
    rw [hhead] at hlast
    simp only [inList, hhead, hlast, Option.map_some', hw, Option.some.injEq]
    split at hend <;> split_ifs <;> first | rfl | omega

/-- C17, as stated, fails.  On `sampleHeap` (`base = 65536`, `H = 16`) the region
check accepts `ptr = base`, which is below `base + H`.  With an odd value in the
`size_status` position of the header-sized range that ends at `base + 4`,
`Mem_Free(base + 4)` returns 0 although `base + 4` is outside
`[base + H, base + length]`. -/
theorem inList_accepts_list_head_counterexample :
    Invariants .lp64 sampleHeap 65536 4096 [65536, 65652, 65768] ∧
    inList .lp64 3 sampleHeap 65536 = some 1 ∧
    ¬ (65536 + Layout.lp64.sizeofHeader ≤ (65536 : Int)) ∧
    Invariants .lp64 (sampleHeap.setSize 65524 1) 65536 4096 [65536, 65652, 65768] ∧
    (Mem_Free .lp64 3 65540 (sampleHeap.setSize 65524 1)).map Prod.fst = some 0 ∧
    ¬ (65536 + Layout.lp64.sizeofHeader ≤ (65540 : Int)) :=
  ⟨⟨by decide, by decide, by decide, by decide, by decide, by decide, by decide⟩,
    by decide, by decide,
    ⟨by decide, by decide, by decide, by decide, by decide, by decide, by decide⟩,
    by decide, by decide⟩

/-- C17, amended: for every heap satisfying the invariants, `Mem_Free(ptr)`
returns -1 (state unchanged) when `ptr` is `NULL` and for every `ptr` outside the
closed range `[base, base + length]`; the region check `inList` accepts `ptr`
(returns 1) if and only if `base <= ptr <= base + length`, and returns 0
otherwise. -/
theorem Mem_Free_rejects_outside_region (L : Layout) (st : State) (base len : Int)
    (bs : List Int) (fuel : Nat) (ptr : Int) (hinv : Invariants L st base len bs)
    (hf : bs.length ≤ fuel) :
    Mem_Free L fuel 0 st = some (-1, st) ∧
    ((ptr < base ∨ base + len < ptr) → Mem_Free L fuel ptr st = some (-1, st)) ∧
    (inList L fuel st ptr = some 1 ↔ (base ≤ ptr ∧ ptr ≤ base + len)) ∧
    (inList L fuel st ptr = some 0 ↔ ¬ (base ≤ ptr ∧ ptr ≤ base + len)) := by
  have hin := inList_eq L st base len bs fuel ptr hinv hf
  refine ⟨by simp [Mem_Free], ?_, ?_, ?_⟩
  · intro hout
    have hno : ¬ (base ≤ ptr ∧ ptr ≤ base + len) := by omega
    rw [if_neg hno] at hin
    by_cases hp : ptr = 0
    · simp [Mem_Free, hp]
    · simp [Mem_Free, hp, hin]
  · rw [hin]
    split_ifs with h
    · simp [h]
    · simp [h]
  · rw [hin]
    split_ifs with h
    · simp [h]
    · simp [h]

/-- Witness for C17 (amended): `ptr = 70000` lies past the end of `sampleHeap`. -/
theorem Mem_Free_rejects_outside_region_witness :
    Mem_Free .lp64 3 0 sampleHeap = some (-1, sampleHeap) ∧
    (((70000 : Int) < 65536 ∨ (65536 : Int) + 4096 < 70000) →
      Mem_Free .lp64 3 70000 sampleHeap = some (-1, sampleHeap)) ∧
    (inList .lp64 3 sampleHeap 70000 = some 1 ↔ ((65536 : Int) ≤ 70000 ∧ (70000 : Int) ≤ 65536 + 4096)) ∧
    (inList .lp64 3 sampleHeap 70000 = some 0 ↔ ¬ ((65536 : Int) ≤ 70000 ∧ (70000 : Int) ≤ 65536 + 4096)) :=
  Mem_Free_rejects_outside_region .lp64 sampleHeap 65536 4096 [65536, 65652, 65768] 3 70000
    ⟨by decide, by decide, by decide, by decide, by decide, by decide, by decide⟩ (by decide)

/-! ## C19: pointers that are not the payload start of a block -/

/-- C19 fails on the code.  After `a = Mem_Alloc(100)` on the fresh region the
list has the blocks `base` (busy, payload 100) and `base + H + 100`.  When the
caller has stored an odd value in the payload of `a`, where a header at
`base + H + 16` would keep `size_status`, `Mem_Free(base + 2 * H + 16)` returns 0
although this address, inside the payload of `a`, is not the payload start of
any block. -/
theorem Mem_Free_accepts_pointer_into_payload (L : Layout) :
    ∃ st out, Reachable L (fresh L 1) st out ∧
      Linked st st.list_head [65536, 65636 + L.sizeofHeader] ∧
      out = [65536 + L.sizeofHeader] ∧
      payload (st.size_status 65536) = 100 ∧
      ∃ st1, Mem_Free L 3 (65552 + 2 * L.sizeofHeader)
          (st.setSize (65552 + L.sizeofHeader) 1) = some (0, st1) := by
  have key : ∃ s, run L 3 [.alloc 100] (fresh L 1, []) = some s ∧
      Linked s.1 s.1.list_head [65536, 65636 + L.sizeofHeader] ∧
      s.2 = [65536 + L.sizeofHeader] ∧
      payload (s.1.size_status 65536) = 100 ∧
      ∃ st1, Mem_Free L 3 (65552 + 2 * L.sizeofHeader)
          (s.1.setSize (65552 + L.sizeofHeader) 1) = some (0, st1) := by
    cases L
    · exact ⟨_, rfl, by decide, by decide, by decide, _, rfl⟩
    · exact ⟨_, rfl, by decide, by decide, by decide, _, rfl⟩
  obtain ⟨s, hrun, h1, h2, h3, h4⟩ := key
  exact ⟨s.1, s.2, run_reachable L _ 3 _ (fresh L 1, []) s Reachable.fresh hrun, h1, h2, h3, h4⟩

/-! ## C20: the scenario of `main` -/

/-- C20: in the scenario `Mem_Init(4096, policy)`; `a..i = Mem_Alloc` of 300,
200, 200, 100, 200, 800, 500, 700, 300; `Mem_Free` of `b`, `d`, `f`, `h`;
`t = Mem_Alloc(50)` (4096-byte pages, region at 65536): all nine allocations
return non-null pointers, the four releases return 0, and `b <= t < c` under
policy 1, `f <= t < g` under policy 2, and under policy 0 `t` lies in the former
`b` range or the former `d` range. -/
theorem main_scenario_placement (L : Layout) :
    (∃ a b c d e f g h i t,
      mainScenario L 12 1 = some ([a, b, c, d, e, f, g, h, i], [0, 0, 0, 0], t) ∧
      0 ∉ [a, b, c, d, e, f, g, h, i] ∧ b ≤ t ∧ t < c) ∧
    (∃ a b c d e f g h i t,
      mainScenario L 12 2 = some ([a, b, c, d, e, f, g, h, i], [0, 0, 0, 0], t) ∧
      0 ∉ [a, b, c, d, e, f, g, h, i] ∧ f ≤ t ∧ t < g) ∧
    (∃ a b c d e f g h i t,
      mainScenario L 12 0 = some ([a, b, c, d, e, f, g, h, i], [0, 0, 0, 0], t) ∧
      0 ∉ [a, b, c, d, e, f, g, h, i] ∧ ((b ≤ t ∧ t < c) ∨ (d ≤ t ∧ t < e))) := by
  cases L
  · exact ⟨⟨65544, 65852, 66060, 66268, 66376, 66584, 67392, 67900, 68608, 65852,
        by decide, by decide, by decide, by decide⟩,
      ⟨65544, 65852, 66060, 66268, 66376, 66584, 67392, 67900, 68608, 66584,
        by decide, by decide, by decide, by decide⟩,
      ⟨65544, 65852, 66060, 66268, 66376, 66584, 67392, 67900, 68608, 66268,
        by decide, by decide, by decide⟩⟩
  · exact ⟨⟨65552, 65868, 66084, 66300, 66416, 66632, 67448, 67964, 68680, 65868,
        by decide, by decide, by decide, by decide⟩,
      ⟨65552, 65868, 66084, 66300, 66416, 66632, 67448, 67964, 68680, 66632,
        by decide, by decide, by decide, by decide⟩,
      ⟨65552, 65868, 66084, 66300, 66416, 66632, 67448, 67964, 68680, 66300,
        by decide, by decide, by decide⟩⟩

/-! ## What `Mem_Alloc` and `Mem_Free` can return -/

theorem OnChain_refl (st : State) (a : Int) : OnChain st a a := ⟨0, rfl⟩

theorem OnChain_step {st : State} {a c : Int} (h : OnChain st (st.next a) c) :
    OnChain st a c := by
  obtain ⟨k, hk⟩ := h
  exact ⟨k + 1, by rw [Function.iterate_succ_apply]; exact hk⟩

theorem AllocOutcome_step {L : Layout} {st : State} {a size p : Int} {st1 : State}
    (h : AllocOutcome L st (st.next a) size p st1) : AllocOutcome L st a size p st1 := by
  rcases h with h | ⟨c, hc, h⟩
  · exact Or.inl h
  · exact Or.inr ⟨c, OnChain_step hc, h⟩

theorem exactLoop_outcome (L : Layout) (st : State) (size : Int) :
    ∀ (fuel : Nat) (a p : Int) (st1 : State),
      exactLoop L st size fuel a = some (p, st1) → AllocOutcome L st a size p st1 := by
  intro fuel
  induction fuel with
  | zero => intro a p st1 h; simp [exactLoop] at h
  | succ n ih =>
    intro a p st1 h
    simp only [exactLoop] at h
    split_ifs at h with h1 h2
    · simp only [Option.some.injEq, Prod.mk.injEq] at h
      exact Or.inl ⟨h.1.symm, h.2.symm⟩
    · simp only [Option.some.injEq, Prod.mk.injEq] at h
      exact Or.inr ⟨a, OnChain_refl st a, h.1.symm, Or.inl ⟨_, h.2.symm⟩⟩
    · exact AllocOutcome_step (ih _ _ _ h)

theorem tightLoop_outcome (L : Layout) (st : State) (size : Int) :
    ∀ (fuel : Nat) (a p : Int) (st1 : State),
      tightLoop L st size fuel a = some (p, st1) → AllocOutcome L st a size p st1 := by
  intro fuel
  induction fuel with
  | zero => intro a p st1 h; simp [tightLoop] at h
  | succ n ih =>
    intro a p st1 h
    simp only [tightLoop] at h
    split_ifs at h with h1 h2
    · simp only [Option.some.injEq, Prod.mk.injEq] at h
      exact Or.inl ⟨h.1.symm, h.2.symm⟩
    · simp only [Option.some.injEq, Prod.mk.injEq] at h
      exact Or.inr ⟨a, OnChain_refl st a, h.1.symm, Or.inl ⟨_, h.2.symm⟩⟩
    · exact AllocOutcome_step (ih _ _ _ h)

theorem splitBlock_outcome (L : Layout) (st : State) (a size p : Int) (st1 : State)
    (h : splitBlock L st a size = (p, st1)) : AllocOutcome L st a size p st1 := by
  refine Or.inr ⟨a, OnChain_refl st a, ?_, Or.inr ?_⟩
  · rw [← splitBlock_fst L st a size, h]
  · rw [h]

theorem splitLoop_outcome (L : Layout) (st : State) (size m : Int) :
    ∀ (fuel : Nat) (a p : Int) (st1 : State),
      splitLoop L st size m fuel a = some (p, st1) → AllocOutcome L st a size p st1 := by
  intro fuel
  induction fuel with
  | zero => intro a p st1 h; simp [splitLoop] at h
  | succ n ih =>
    intro a p st1 h
    simp only [splitLoop] at h
    split_ifs at h with h1 h2
    · simp only [Option.some.injEq, Prod.mk.injEq] at h
      exact Or.inl ⟨h.1.symm, h.2.symm⟩
    · exact splitBlock_outcome L st a size p st1 (Option.some.inj h)
    · exact AllocOutcome_step (ih _ _ _ h)

theorem firstFitLoop_outcome (L : Layout) (st : State) (size : Int) :
    ∀ (fuel : Nat) (a p : Int) (st1 : State),
      firstFitLoop L st size fuel a = some (p, st1) → AllocOutcome L st a size p st1 := by
  intro fuel
  induction fuel with
  | zero => intro a p st1 h; simp [firstFitLoop] at h
  | succ n ih =>
    intro a p st1 h
    simp only [firstFitLoop] at h
    split_ifs at h with h1 h2 h3 h4 h5
    · simp only [Option.some.injEq, Prod.mk.injEq] at h
      exact Or.inl ⟨h.1.symm, h.2.symm⟩
    · simp only [Option.some.injEq, Prod.mk.injEq] at h
      exact Or.inr ⟨a, OnChain_refl st a, h.1.symm, Or.inl ⟨_, h.2.symm⟩⟩
    · exact splitBlock_outcome L st a size p st1 (Option.some.inj h)
    · simp only [Option.some.injEq, Prod.mk.injEq] at h
      exact Or.inr ⟨a, OnChain_refl st a, h.1.symm, Or.inl ⟨_, h.2.symm⟩⟩
    · exact AllocOutcome_step (ih _ _ _ h)
    · exact AllocOutcome_step (ih _ _ _ h)

theorem placeExtremum_outcome (L : Layout) (fuel : Nat) (st : State) (size m p : Int)
    (st1 : State) (h : placeExtremum L fuel st size m = some (p, st1)) :
    AllocOutcome L st st.list_head size p st1 := by
  simp only [placeExtremum] at h
  split_ifs at h
  · exact exactLoop_outcome L st size _ _ _ _ h
  · exact tightLoop_outcome L st size _ _ _ _ h
  · exact splitLoop_outcome L st size m _ _ _ _ h

/-- The single-block path of `Mem_Alloc` does what `splitBlock` does on a block
without successor. -/
theorem single_block_path_eq (L : Layout) (st : State) (size : Int)
    (h : st.next st.list_head = 0) :
    (st.list_head + L.sizeofHeader,
      (((st.setSize st.list_head (toInt (size + 1))).setNext st.list_head
        (st.list_head + size + L.sizeofHeader)).setNext
          (st.list_head + size + L.sizeofHeader) 0).setSize
            (st.list_head + size + L.sizeofHeader)
            (toInt (st.size_status st.list_head - L.sizeofHeader - toInt (size + 1) + 1)))
      = splitBlock L st st.list_head size := by
  have e : st.size_status st.list_head - L.sizeofHeader - toInt (size + 1) + 1
      = st.size_status st.list_head - L.sizeofHeader - (toInt (size + 1) - 1) := by ring
  simp only [splitBlock, setSize_next, h, if_true, e]

/-- Every result of `Mem_Alloc` is `NULL` with the state untouched, or the payload
address of a header on the list, of which only the `size_status` was rewritten or
which was split. -/
theorem Mem_Alloc_outcome (L : Layout) (fuel : Nat) (size : Int) (st : State) (p : Int)
    (st1 : State) (h : Mem_Alloc L fuel size st = some (p, st1)) :
    AllocOutcome L st st.list_head (roundSize size) p st1 := by
  simp only [Mem_Alloc] at h
  split_ifs at h with h1 h2 h3 h4 h5
  · simp only [Option.some.injEq, Prod.mk.injEq] at h
    exact Or.inl ⟨h.1.symm, h.2.symm⟩
  · simp only [setSize_list_head, setNext_list_head] at h
    rw [single_block_path_eq L st (roundSize size) h2] at h
    exact splitBlock_outcome L st _ _ p st1 (Option.some.inj h)
  · simp only [Option.bind_eq_some] at h
    obtain ⟨_, _, l, _, h⟩ := h
    split_ifs at h
    · simp only [Option.some.injEq, Prod.mk.injEq] at h
      exact Or.inl ⟨h.1.symm, h.2.symm⟩
    · exact placeExtremum_outcome L fuel st _ _ p st1 h
  · exact firstFitLoop_outcome L st _ _ _ _ _ h
  · simp only [Option.bind_eq_some] at h
    obtain ⟨_, _, l, _, h⟩ := h
    split_ifs at h
    · simp only [Option.some.injEq, Prod.mk.injEq] at h
      exact Or.inl ⟨h.1.symm, h.2.symm⟩
    · exact placeExtremum_outcome L fuel st _ _ p st1 h
  · simp only [Option.some.injEq, Prod.mk.injEq] at h
    exact Or.inl ⟨h.1.symm, h.2.symm⟩

/-- Every result of `Mem_Free` is -1 with the state untouched, or 0 after the
region check has passed, the busy bit of the header before `ptr` has been cleared
and the blocks from `prev` to `np`, found by the two expansion loops, merged. -/
theorem Mem_Free_outcome (L : Layout) (fuel : Nat) (ptr : Int) (st : State) (r : Int)
    (st1 : State) (h : Mem_Free L fuel ptr st = some (r, st1)) :
    (r = -1 ∧ st1 = st) ∨
    (r = 0 ∧ ptr ≠ 0 ∧ (∃ ok, inList L fuel st ptr = some ok ∧ ok ≠ 0) ∧
      ptr - L.sizeofHeader ≠ 0 ∧ st.size_status (ptr - L.sizeofHeader) % 2 ≠ 0 ∧
      ∃ np prev,
        rightLoop (st.setSize (ptr - L.sizeofHeader)
            (toInt (st.size_status (ptr - L.sizeofHeader) - 1))) fuel
          (ptr - L.sizeofHeader) (ptr - L.sizeofHeader) = some np ∧
        leftLoop fuel (st.setSize (ptr - L.sizeofHeader)
            (toInt (st.size_status (ptr - L.sizeofHeader) - 1))) fuel
          (ptr - L.sizeofHeader) (ptr - L.sizeofHeader) = some prev ∧
        st1 = if prev ≠ np then
            ((st.setSize (ptr - L.sizeofHeader)
                (toInt (st.size_status (ptr - L.sizeofHeader) - 1))).setNext prev
              ((st.setSize (ptr - L.sizeofHeader)
                (toInt (st.size_status (ptr - L.sizeofHeader) - 1))).next np)).setSize prev
              (toInt (np + L.sizeofHeader
                + (st.setSize (ptr - L.sizeofHeader)
                    (toInt (st.size_status (ptr - L.sizeofHeader) - 1))).size_status np
                - (prev + L.sizeofHeader)))
          else st.setSize (ptr - L.sizeofHeader)
            (toInt (st.size_status (ptr - L.sizeofHeader) - 1))) := by
  by_cases h1 : ptr = 0
  · simp only [Mem_Free, h1, if_true, Option.some.injEq, Prod.mk.injEq] at h
    exact Or.inl ⟨h.1.symm, h.2.symm⟩
  simp only [Mem_Free, h1, if_false, Option.bind_eq_some] at h
  obtain ⟨ok, hok, h⟩ := h
  by_cases h2 : ok = 0
  · simp only [h2, if_true, Option.some.injEq, Prod.mk.injEq] at h
    exact Or.inl ⟨h.1.symm, h.2.symm⟩
  by_cases h3 : ptr - L.sizeofHeader = 0
  · simp only [h2, h3, if_true, if_false, Option.some.injEq, Prod.mk.injEq] at h
    exact Or.inl ⟨h.1.symm, h.2.symm⟩
  by_cases h4 : st.size_status (ptr - L.sizeofHeader) % 2 = 0
  · simp only [h2, h3, h4, if_true, if_false, Option.some.injEq, Prod.mk.injEq] at h
    exact Or.inl ⟨h.1.symm, h.2.symm⟩
  simp only [h2, h3, h4, if_false, Option.bind_eq_some] at h
  obtain ⟨np, hnp, prev, hprev, h⟩ := h
  refine Or.inr ⟨?_, h1, ⟨ok, hok, h2⟩, h3, h4, np, prev, hnp, hprev, ?_⟩
  · split_ifs at h <;> simp only [Option.some.injEq, Prod.mk.injEq] at h <;> exact h.1.symm
  · by_cases h5 : prev = np
    · simp only [h5, ne_eq, not_true_eq_false, if_false, Option.some.injEq,
        Prod.mk.injEq] at h
      simp only [h5, ne_eq, not_true_eq_false, if_false]
      exact h.2.symm
    · simp only [h5, ne_eq, not_false_eq_true, if_true, Option.some.injEq,
        Prod.mk.injEq] at h
      simp only [h5, ne_eq, not_false_eq_true, if_true]
      exact h.2.symm

/-! ## Failing calls -/

theorem OnChain_nonneg (st : State) (a c : Int) (ha : 0 ≤ a) (hn : ∀ x, 0 ≤ st.next x)
    (h : OnChain st a c) : 0 ≤ c := by
  obtain ⟨k, rfl⟩ := h
  cases k with
  | zero => exact ha
  | succ k =>
    rw [Function.iterate_succ_apply']
    exact hn _

/-- C14: a failing call changes nothing. Whenever Mem_Alloc returns NULL, and whenever
Mem_Free returns -1, the state after the call (list head, policy, initialised flag and every
header field) is the state before it. Addresses are unsigned, so the list head and every
next field are taken non-negative. -/
theorem failure_leaves_state_unchanged (L : Layout) (fuel : Nat) (st : State)
    (size ptr : Int) (hhead : 0 ≤ st.list_head) (hnext : ∀ a, 0 ≤ st.next a) :
    (∀ sa, Mem_Alloc L fuel size st = some (0, sa) → sa = st) ∧
    (∀ sf, Mem_Free L fuel ptr st = some (-1, sf) → sf = st) := by
  constructor
  · intro sa h
    rcases Mem_Alloc_outcome L fuel size st 0 sa h with h1 | ⟨c, hc, hp, _⟩
    · exact h1.2
    · exfalso
      have := OnChain_nonneg st _ c hhead hnext hc
      have hH := sizeofHeader_cases L
      omega
  · intro sf h
    rcases Mem_Free_outcome L fuel ptr st (-1) sf h with h1 | h1
    · exact h1.2
    · exact absurd h1.1 (by decide)

theorem sampleHeap_next_nonneg : ∀ a, 0 ≤ sampleHeap.next a := by
  intro a
  simp only [sampleHeap]
  split_ifs <;> decide

theorem failure_leaves_state_unchanged_witness :
    (0 ≤ sampleHeap.list_head ∧ ∀ a, 0 ≤ sampleHeap.next a) ∧
    Mem_Alloc .lp64 4 5000 sampleHeap = some (0, sampleHeap) ∧
    Mem_Free .lp64 4 70000 sampleHeap = some (-1, sampleHeap) ∧
    (∀ sa, Mem_Alloc .lp64 4 5000 sampleHeap = some (0, sa) → sa = sampleHeap) ∧
    (∀ sf, Mem_Free .lp64 4 70000 sampleHeap = some (-1, sf) → sf = sampleHeap) :=
  ⟨⟨by decide, sampleHeap_next_nonneg⟩, rfl, rfl,
    failure_leaves_state_unchanged .lp64 4 sampleHeap 5000 70000 (by decide)
      sampleHeap_next_nonneg⟩

theorem splitBlock_globals (L : Layout) (st : State) (c size : Int) :
    (splitBlock L st c size).2.allocated_once = st.allocated_once ∧
    (splitBlock L st c size).2.list_head = st.list_head ∧
    (splitBlock L st c size).2.fit = st.fit := by
  unfold splitBlock
  simp only
  split <;> exact ⟨rfl, rfl, rfl⟩

theorem Mem_Alloc_globals (L : Layout) (fuel : Nat) (size : Int) (st : State) (p : Int)
    (st1 : State) (h : Mem_Alloc L fuel size st = some (p, st1)) :
    st1.allocated_once = st.allocated_once ∧ st1.list_head = st.list_head ∧
      st1.fit = st.fit := by
  rcases Mem_Alloc_outcome L fuel size st p st1 h with h1 | ⟨c, _, _, ⟨v, h1⟩ | h1⟩
  · rw [h1.2]; exact ⟨rfl, rfl, rfl⟩
  · rw [h1]; exact ⟨rfl, rfl, rfl⟩
  · rw [h1]; exact splitBlock_globals L st c _

theorem Mem_Free_globals (L : Layout) (fuel : Nat) (ptr : Int) (st : State) (r : Int)
    (st1 : State) (h : Mem_Free L fuel ptr st = some (r, st1)) :
    st1.allocated_once = st.allocated_once ∧ st1.list_head = st.list_head ∧
      st1.fit = st.fit := by
  rcases Mem_Free_outcome L fuel ptr st r st1 h with h1 | ⟨_, _, _, _, _, np, prev, _, _, h1⟩
  · rw [h1.2]; exact ⟨rfl, rfl, rfl⟩
  · rw [h1]
    split <;> exact ⟨rfl, rfl, rfl⟩

theorem Reachable_globals (L : Layout) (st0 st : State) (out : List Int)
    (h : Reachable L st0 st out) :
    st.allocated_once = st0.allocated_once ∧ st.list_head = st0.list_head ∧
      st.fit = st0.fit := by
  induction h with
  | fresh => exact ⟨rfl, rfl, rfl⟩
  | alloc fuel size p _ ha ih =>
    have := Mem_Alloc_globals L fuel size _ p _ ha
    exact ⟨this.1.trans ih.1, this.2.1.trans ih.2.1, this.2.2.trans ih.2.2⟩
  | free fuel p r _ _ hf ih =>
    have := Mem_Free_globals L fuel p _ r _ hf
    exact ⟨this.1.trans ih.1, this.2.1.trans ih.2.1, this.2.2.trans ih.2.2⟩

theorem Mem_Init_success_flag (L : Layout) (pagesize fd : Int) (mmap : Int → Option Int)
    (sizeOfRegion policy : Int) (st0 st1 : State)
    (h : Mem_Init L pagesize fd mmap sizeOfRegion policy st0 = (0, st1)) :
    st1.allocated_once = 1 := by
  unfold Mem_Init at h
  simp only at h
  split_ifs at h
  · simp at h
  · simp at h
  · simp at h
  · split at h
    · simp at h
    · simp only [Prod.mk.injEq, true_and] at h
      rw [← h]
      rfl

/-- C16: Mem_Init returns -1 and leaves the state as it was when the requested size is not
positive (in any state), and when an earlier Mem_Init already succeeded, however many
Mem_Alloc and Mem_Free calls came in between; the policy of the first call stays in force. -/
theorem Mem_Init_rejects_nonpositive_size_and_second_call (L : Layout)
    (pagesize1 fd1 : Int) (mmap1 : Int → Option Int) (size1 policy1 : Int)
    (pagesize fd : Int) (mmap : Int → Option Int) (sizeOfRegion policy : Int)
    (st0 st1 st : State) (out : List Int)
    (hinit : Mem_Init L pagesize1 fd1 mmap1 size1 policy1 st0 = (0, st1))
    (hreach : Reachable L st1 st out) :
    Mem_Init L pagesize fd mmap sizeOfRegion policy st = (-1, st) ∧
    st.fit = policy1 ∧
    ∀ (st2 : State) (size2 : Int), size2 ≤ 0 →
      Mem_Init L pagesize fd mmap size2 policy st2 = (-1, st2) := by
  have h1 := Mem_Init_success_flag L _ _ _ _ _ _ _ hinit
  have h2 := Reachable_globals L st1 st out hreach
  have hflag : st.allocated_once ≠ 0 := by rw [h2.1, h1]; decide
  have hfit := (Mem_Init_ignores_policy L pagesize1 fd1 mmap1 size1 policy1 policy1 st0).2
  refine ⟨by simp [Mem_Init, hflag], ?_, ?_⟩
  · rw [h2.2.2]
    have := hfit (by rw [hinit])
    rw [hinit] at this
    exact this
  · intro st2 size2 hs
    unfold Mem_Init
    simp only
    split_ifs
    · rfl
    · rfl

/-- Witness for C16: a second Mem_Init (other size, other policy) right after the first. -/
theorem Mem_Init_rejects_nonpositive_size_and_second_call_witness :
    Mem_Init .lp64 4096 3 (fun _ => some 65536) 4096 1 State.initial = (0, fresh .lp64 1) ∧
    Reachable .lp64 (fresh .lp64 1) (fresh .lp64 1) [] ∧
    Mem_Init .lp64 4096 3 (fun _ => some 131072) 8192 2 (fresh .lp64 1)
      = (-1, fresh .lp64 1) ∧
    (fresh .lp64 1).fit = 1 ∧
    ∀ (st2 : State) (size2 : Int), size2 ≤ 0 →
      Mem_Init .lp64 4096 3 (fun _ => some 131072) size2 2 st2 = (-1, st2) :=
  ⟨rfl, Reachable.fresh,
    Mem_Init_rejects_nonpositive_size_and_second_call .lp64 4096 3 (fun _ => some 65536) 4096 1
      4096 3 (fun _ => some 131072) 8192 2 State.initial (fresh .lp64 1) (fresh .lp64 1) []
      rfl Reachable.fresh⟩

/-! ## C21, C23: split of a block that has a successor -/

/-- C21 fails on the code.  After a = Mem_Alloc(100); Mem_Alloc(100); Mem_Free(a) under
first fit the heap satisfies the invariants and its head B is free with payload 100 and has a
successor.  Mem_Alloc(4) splits B (100 - 4 >= H + 4): B gets size_status 5 and next N at
addr(B) + H + 4, but N.next is N itself, not the old B.next, and N.size_status is -H, not
100 - 4 - H. -/
theorem split_of_block_with_successor_links_residual_to_itself (L : Layout) :
    ∃ st out, Reachable L (fresh L 1) st out ∧
      Invariants L st 65536 4096
        [65536, 65636 + L.sizeofHeader, 65736 + 2 * L.sizeofHeader] ∧
      isFree st 65536 = true ∧ st.size_status 65536 = 100 ∧
      st.next 65536 = 65636 + L.sizeofHeader ∧
      ∃ st1, Mem_Alloc L 4 4 st = some (65536 + L.sizeofHeader, st1) ∧
        st1.size_status 65536 = 5 ∧
        st1.next 65536 = 65540 + L.sizeofHeader ∧
        st1.next (65540 + L.sizeofHeader) = 65540 + L.sizeofHeader ∧
        st1.next (65540 + L.sizeofHeader) ≠ st.next 65536 ∧
        st1.size_status (65540 + L.sizeofHeader) = - L.sizeofHeader ∧
        st1.size_status (65540 + L.sizeofHeader) ≠ 100 - 4 - L.sizeofHeader := by
  have key : ∃ s, run L 4 [.alloc 100, .alloc 100, .free (65536 + L.sizeofHeader)]
      (fresh L 1, []) = some s ∧
      Invariants L s.1 65536 4096
        [65536, 65636 + L.sizeofHeader, 65736 + 2 * L.sizeofHeader] ∧
      isFree s.1 65536 = true ∧ s.1.size_status 65536 = 100 ∧
      s.1.next 65536 = 65636 + L.sizeofHeader ∧
      ∃ st1, Mem_Alloc L 4 4 s.1 = some (65536 + L.sizeofHeader, st1) ∧
        st1.size_status 65536 = 5 ∧
        st1.next 65536 = 65540 + L.sizeofHeader ∧
        st1.next (65540 + L.sizeofHeader) = 65540 + L.sizeofHeader ∧
        st1.next (65540 + L.sizeofHeader) ≠ s.1.next 65536 ∧
        st1.size_status (65540 + L.sizeofHeader) = - L.sizeofHeader ∧
        st1.size_status (65540 + L.sizeofHeader) ≠ 100 - 4 - L.sizeofHeader := by
    cases L
    · exact ⟨_, rfl, ⟨by decide, by decide, by decide, by decide, by decide, by decide,
        by decide⟩, by decide, by decide, by decide, _, rfl, by decide, by decide, by decide,
        by decide, by decide, by decide⟩
    · exact ⟨_, rfl, ⟨by decide, by decide, by decide, by decide, by decide, by decide,
        by decide⟩, by decide, by decide, by decide, _, rfl, by decide, by decide, by decide,
        by decide, by decide, by decide⟩
  obtain ⟨s, hrun, h⟩ := key
  exact ⟨s.1, s.2, run_reachable L _ 4 _ (fresh L 1, []) s Reachable.fresh hrun, h⟩

/-- The walk of inList never leaves a header that is its own successor. -/
theorem lastLoop_self_loop (st : State) (n : Int) (hloop : st.next n = n) (hn : n ≠ 0) :
    ∀ fuel, lastLoop st fuel n = none := by
  intro fuel
  induction fuel with
  | zero => rfl
  | succ f ih => simp only [lastLoop, hloop, hn, ne_eq, not_false_eq_true, if_true, ih]

/-- The first-fit walk never leaves a rejected header that is its own successor. -/
theorem firstFitLoop_self_loop (L : Layout) (st : State) (sz n : Int) (hloop : st.next n = n)
    (hn : n ≠ 0) (hno : ¬ (isFree st n = true ∧ sz ≤ st.size_status n)) :
    ∀ fuel, firstFitLoop L st sz fuel n = none := by
  intro fuel
  induction fuel with
  | zero => rfl
  | succ f ih => rw [firstFitLoop_skip L st sz f n hn hno, hloop, ih]

/-- The state and the outstanding pointers after the run of middle_split_run. -/
theorem middle_split_state (L : Layout) :
    ∃ s, run L 4 [.alloc 100, .alloc 100, .free (65536 + L.sizeofHeader), .alloc 4]
        (fresh L 1, []) = some s ∧
      s.1.list_head = 65536 ∧ s.1.fit = 1 ∧ s.1.next 65536 = 65540 + L.sizeofHeader ∧
      s.1.next (65540 + L.sizeofHeader) = 65540 + L.sizeofHeader ∧
      s.1.size_status 65536 = 5 ∧
      s.1.size_status (65540 + L.sizeofHeader) = - L.sizeofHeader ∧
      s.2 = [65536 + L.sizeofHeader, 65636 + 2 * L.sizeofHeader] := by
  cases L
  · exact ⟨_, rfl, by decide⟩
  · exact ⟨_, rfl, by decide⟩

/-- C23 fails on the code.  In the state reached by a = Mem_Alloc(100); b = Mem_Alloc(100);
Mem_Free(a); Mem_Alloc(4) under first fit, with both returned pointers outstanding, the walk
of inList from the list head never reaches NULL, so no Mem_Free call on a non-null pointer
returns, whatever the number of loop iterations allowed; and Mem_Alloc(4) never returns
either. -/
theorem calls_never_return_after_middle_split (L : Layout) :
    ∃ st out, Reachable L (fresh L 1) st out ∧
      out = [65536 + L.sizeofHeader, 65636 + 2 * L.sizeofHeader] ∧
      (∀ fuel, lastLoop st fuel st.list_head = none) ∧
      (∀ p, p ≠ 0 → ∀ fuel, Mem_Free L fuel p st = none) ∧
      (∀ fuel, Mem_Alloc L fuel 4 st = none) := by
  obtain ⟨s, hrun, h1, hfit, h2, h3, h4, h5, hout⟩ := middle_split_state L
  have hH := sizeofHeader_cases L
  have hN : (65540 + L.sizeofHeader) ≠ 0 := by omega
  have hlast : ∀ fuel, lastLoop s.1 fuel s.1.list_head = none := by
    intro fuel
    cases fuel with
    | zero => rfl
    | succ f =>
      simp only [lastLoop, h1, h2, hN, ne_eq, not_false_eq_true, if_true]
      exact lastLoop_self_loop s.1 _ h3 hN f
  refine ⟨s.1, s.2, run_reachable L _ 4 _ (fresh L 1, []) s Reachable.fresh hrun, hout,
    hlast, ?_, ?_⟩
  · intro p hp fuel
    simp only [Mem_Free, hp, if_false, inList, hlast, Option.map_none', Option.none_bind]
  · intro fuel
    have hr : roundSize 4 = 4 := by decide
    have hne : s.1.next s.1.list_head ≠ 0 := by rw [h1, h2]; exact hN
    have h10 : ¬ ((4 : Int) ≤ 0) := by decide
    simp only [Mem_Alloc, h10, hne, hfit, hr, if_false, if_true]
    simp only [h1]
    cases fuel with
    | zero => rfl
    | succ f =>
      rw [firstFitLoop_skip L s.1 4 f 65536 (by decide)
        (by rw [isFree_iff, h4]; intro h; exact absurd h.1 (by decide)), h2]
      exact firstFitLoop_self_loop L s.1 4 _ h3 hN
        (by rw [h5]; intro h; omega) f

/-! ## C24: rounding -/

/-- C24: for 0 < size <= INT_MAX - 3 the request as normalised by Mem_Alloc (size itself when
size mod 4 = 0, else (size | 3) + 1) is the least multiple of 4 that is >= size; and on a
fresh region, under any policy, each of Mem_Alloc(1), Mem_Alloc(2), Mem_Alloc(3), Mem_Alloc(4)
returns base + H and leaves the head busy with payload 4 (size_status 5). -/
theorem roundSize_is_least_multiple_of_four (L : Layout) (size : Int) (h0 : 0 < size)
    (h1 : size ≤ INT_MAX - 3) :
    IsLeast {m : Int | (4 : Int) ∣ m ∧ size ≤ m} (roundSize size) ∧
    roundSize size = (if size % 4 = 0 then size else Int.lor size 3 + 1) ∧
    ∀ (policy : Int) (fuel : Nat) (s : Int), s ∈ [(1 : Int), 2, 3, 4] →
      ∃ st1, Mem_Alloc L fuel s (fresh L policy) = some (65536 + L.sizeofHeader, st1) ∧
        st1.size_status 65536 = 5 ∧ isFree st1 65536 = false ∧
        payload (st1.size_status 65536) = 4 := by
  have hr : roundSize size = (size + 3) / 4 * 4 :=
    roundSize_eq size h0 (by unfold INT_MAX at *; omega)
  refine ⟨?_, ?_, ?_⟩
  · rw [hr]
    refine ⟨⟨Dvd.intro_left _ rfl, by omega⟩, ?_⟩
    rintro m ⟨hm1, hm2⟩
    have := Int.emod_eq_zero_of_dvd hm1
    omega
  · rw [hr]
    split
    · omega
    · rw [int_lor_three size (le_of_lt h0)]; omega
  · intro policy fuel s hs
    simp only [List.mem_cons, List.mem_singleton, List.not_mem_nil, or_false] at hs
    cases L <;> rcases hs with rfl | rfl | rfl | rfl <;>
      exact ⟨_, rfl, rfl, rfl, rfl⟩

/-- Witness for C24 at size 5 on the 32-bit layout. -/
theorem roundSize_is_least_multiple_of_four_witness :
    ((0 : Int) < 5 ∧ (5 : Int) ≤ INT_MAX - 3) ∧
    IsLeast {m : Int | (4 : Int) ∣ m ∧ (5 : Int) ≤ m} (roundSize 5) ∧
    roundSize 5 = (if (5 : Int) % 4 = 0 then 5 else Int.lor 5 3 + 1) ∧
    ∀ (policy : Int) (fuel : Nat) (s : Int), s ∈ [(1 : Int), 2, 3, 4] →
      ∃ st1, Mem_Alloc .ilp32 fuel s (fresh .ilp32 policy)
          = some (65536 + Layout.ilp32.sizeofHeader, st1) ∧
        st1.size_status 65536 = 5 ∧ isFree st1 65536 = false ∧
        payload (st1.size_status 65536) = 4 :=
  ⟨⟨by decide, by decide⟩,
    roundSize_is_least_multiple_of_four .ilp32 5 (by decide) (by decide)⟩

/-! ## C22: placement without a split -/

/-- The run a = Mem_Alloc(8); Mem_Alloc(100); Mem_Free(a) under best fit, followed by
Mem_Alloc(4): the head is free with payload 8 and the no-split loop, which looks for a block
whose size_status equals the request, returns NULL. -/
theorem bestFit_tight_block_run (L : Layout) :
    ∃ st out, Reachable L (fresh L 0) st out ∧
      Invariants L st 65536 4096
        [65536, 65544 + L.sizeofHeader, 65644 + 2 * L.sizeofHeader] ∧
      st.fit = 0 ∧ isFree st 65536 = true ∧ payload (st.size_status 65536) = 8 ∧
      isFree st (65544 + L.sizeofHeader) = false ∧
      8 < payload (st.size_status (65644 + 2 * L.sizeofHeader)) ∧
      (8 : Int) - 4 < L.sizeofHeader + 4 ∧
      Mem_Alloc L 4 4 st = some (0, st) := by
  have key : ∃ s, run L 4 [.alloc 8, .alloc 100, .free (65536 + L.sizeofHeader)]
      (fresh L 0, []) = some s ∧
      Invariants L s.1 65536 4096
        [65536, 65544 + L.sizeofHeader, 65644 + 2 * L.sizeofHeader] ∧
      s.1.fit = 0 ∧ isFree s.1 65536 = true ∧ payload (s.1.size_status 65536) = 8 ∧
      isFree s.1 (65544 + L.sizeofHeader) = false ∧
      8 < payload (s.1.size_status (65644 + 2 * L.sizeofHeader)) ∧
      (8 : Int) - 4 < L.sizeofHeader + 4 ∧
      Mem_Alloc L 4 4 s.1 = some (0, s.1) := by
    cases L
    · exact ⟨_, rfl, ⟨by decide, by decide, by decide, by decide, by decide, by decide,
        by decide⟩, by decide, by decide, by decide, by decide, by decide, by decide, rfl⟩
    · exact ⟨_, rfl, ⟨by decide, by decide, by decide, by decide, by decide, by decide,
        by decide⟩, by decide, by decide, by decide, by decide, by decide, by decide, rfl⟩
  obtain ⟨s, hrun, h⟩ := key
  exact ⟨s.1, s.2, run_reachable L _ 4 _ (fresh L 0, []) s Reachable.fresh hrun, h⟩

/-- The first-fit loop at a block it takes whole. -/
theorem firstFitLoop_keep (L : Layout) (st : State) (sz : Int) (fuel : Nat) (c : Int)
    (hc : c ≠ 0) (hfree : isFree st c = true) (hsz : 0 < sz) (hle : sz ≤ st.size_status c)
    (hmax : st.size_status c ≤ INT_MAX)
    (hacc : st.size_status c = sz ∨ (st.next c ≠ 0 ∧ st.size_status c - sz < 12)) :
    firstFitLoop L st sz (fuel + 1) c
      = some (c + L.sizeofHeader, st.setSize c (st.size_status c + 1)) := by
  unfold INT_MAX at hmax
  have hH := sizeofHeader_cases L
  have hpar := (isFree_iff st c).mp hfree
  have t1 : toSizeT L (st.size_status c) = st.size_status c :=
    toSizeT_of_range L _ (by omega) (by omega)
  have t2 : toSizeT L sz = sz := toSizeT_of_range L _ (by omega) (by omega)
  have t3 : toSizeT L (sz + L.sizeofHeader + L.sizeofHeader / 2)
      = sz + L.sizeofHeader + L.sizeofHeader / 2 :=
    toSizeT_of_range L _ (by omega) (by omega)
  have t4 : toInt (st.size_status c - sz) = st.size_status c - sz :=
    toInt_of_range _ (by omega) (by omega)
  have t5 : toInt (st.size_status c + 1) = st.size_status c + 1 :=
    toInt_of_range _ (by omega) (by omega)
  simp only [firstFitLoop, hc, hfree, if_false, true_and, t1, t2, t3, t4, t5]
  split_ifs with h1 h2 h3 h4
  · rw [← h1, t5]
  · exfalso
    rcases hacc with h | h
    · exact h1 h
    · omega
  · rfl
  · exfalso
    rcases hacc with h | h
    · exact h1 h
    · exact h4 ⟨by omega, by omega, by omega, h.1⟩
  · exfalso
    exact h2 (by omega)

/-- The first-fit loop skips the rejected prefix and takes the block B whole. -/
theorem firstFitLoop_finds_keep (L : Layout) (st : State) (sz : Int) (B : Int)
    (post : List Int)
    (hfree : isFree st B = true) (hsz : 0 < sz) (hle : sz ≤ st.size_status B)
    (hmax : st.size_status B ≤ INT_MAX)
    (hacc : st.size_status B = sz ∨ (st.next B ≠ 0 ∧ st.size_status B - sz < 12)) :
    ∀ (pre : List Int) (a : Int) (fuel : Nat), Seg st a (pre ++ B :: post) 0 →
      (∀ x ∈ pre, ¬ (isFree st x = true ∧ sz ≤ st.size_status x)) →
      pre.length + 1 ≤ fuel →
      firstFitLoop L st sz fuel a
        = some (B + L.sizeofHeader, st.setSize B (st.size_status B + 1)) := by
  intro pre
  induction pre with
  | nil =>
    intro a fuel hseg _ hfuel
    obtain ⟨rfl, ha, _⟩ := hseg
    obtain ⟨n, rfl⟩ : ∃ n, fuel = n + 1 := ⟨fuel - 1, by simp at hfuel; omega⟩
    exact firstFitLoop_keep L st sz n a ha hfree hsz hle hmax hacc
  | cons x xs ih =>
    intro a fuel hseg hpre hfuel
    obtain ⟨rfl, ha, hrest⟩ := hseg
    obtain ⟨n, rfl⟩ : ∃ n, fuel = n + 1 := ⟨fuel - 1, by simp at hfuel; omega⟩
    rw [firstFitLoop_skip L st sz n a ha (hpre a (List.mem_cons_self _ _))]
    exact ih _ n hrest (fun y hy => hpre y (List.mem_cons_of_mem _ hy))
      (by simp at hfuel ⊢; omega)

/-- First fit without a split: when B is the first free block in list order whose payload
p is >= r, the list has at least two blocks, and either p = r, or B has a successor and
p - r < 12, Mem_Alloc returns addr(B) + H and only B.size_status changes, to p + 1. -/
theorem firstFit_marks_block_busy_without_split (L : Layout) (st : State) (base len : Int)
    (pre : List Int) (B : Int) (post : List Int) (size r : Int) (fuel : Nat)
    (hinv : Invariants L st base len (pre ++ B :: post))
    (hfit : st.fit = 1) (hsize : 0 < size)
    (hr : IsLeast {m : Int | (4 : Int) ∣ m ∧ size ≤ m} r)
    (hpre : ∀ x ∈ pre, ¬ (isFree st x = true ∧ r ≤ payload (st.size_status x)))
    (hB : isFree st B = true ∧ r ≤ payload (st.size_status B))
    (htwo : pre ≠ [] ∨ post ≠ [])
    (hacc : payload (st.size_status B) = r ∨
      (post ≠ [] ∧ payload (st.size_status B) - r < 12))
    (hfuel : (pre ++ B :: post).length ≤ fuel) :
    payload (st.size_status B) - r < L.sizeofHeader + 4 ∧
    Mem_Alloc L fuel size st
      = some (B + L.sizeofHeader, st.setSize B (payload (st.size_status B) + 1)) := by
  have hH := sizeofHeader_cases L
  have hrr := isLeast_multiple_of_four size r hr
  have hBmem : B ∈ pre ++ B :: post := by simp
  obtain ⟨hb4, hbmax, _, _⟩ := hinv.size_bounds B hBmem
  have hpay := payload_of_free st B hB.1
  rw [hpay] at hB hacc ⊢
  have hround : roundSize size = r := by
    rw [hrr]
    apply roundSize_eq size hsize
    rw [← hrr]
    exact le_trans hB.2 hbmax
  have hseg : Seg st st.list_head (pre ++ B :: post) 0 := hinv.linked.1
  have hr0 : 0 < r := by omega
  have hns : ¬ size ≤ 0 := by omega
  refine ⟨by omega, ?_⟩
  have hmulti : st.next st.list_head ≠ 0 := by
    cases pre with
    | nil =>
      cases post with
      | nil => exact absurd rfl (htwo.resolve_left (fun h => h rfl))
      | cons c cs =>
        have h1 : st.list_head = B := hseg.1
        rw [h1, (Seg_next_of_mid st [] _ B c cs 0 hseg).1]
        exact (Seg_next_of_mid st [] _ B c cs 0 hseg).2
    | cons x xs =>
      obtain ⟨hx, _, hrest⟩ := hseg
      rw [hx]
      cases xs with
      | nil => rw [hrest.1]; exact hrest.2.1
      | cons y ys => rw [hrest.1]; exact hrest.2.1
  have hloop := firstFitLoop_finds_keep L st r B post hB.1 hr0 hB.2 hbmax (by
      rcases hacc with h | h
      · exact Or.inl h
      · refine Or.inr ⟨?_, h.2⟩
        cases post with
        | nil => exact absurd rfl h.1
        | cons c cs => rw [(Seg_next_of_mid st pre _ B c cs 0 hseg).1]
                       exact (Seg_next_of_mid st pre _ B c cs 0 hseg).2)
    pre st.list_head fuel hseg
    (fun x hx h => hpre x hx ⟨h.1, by rw [payload_of_free st x h.1]; exact h.2⟩)
    (by simp at hfuel; omega)
  simp only [Mem_Alloc, hns, hmulti, if_false, hround, hfit]
  simpa using hloop

/-- The counting loop ends on a null-terminated list. -/
theorem countLoop_eq (st : State) :
    ∀ (bs : List Int) (a : Int) (n fuel : Nat), Seg st a bs 0 → bs.length + 1 ≤ fuel →
      countLoop st fuel a n = some (n + bs.length) := by
  intro bs
  induction bs with
  | nil =>
    intro a n fuel h hf
    obtain ⟨f, rfl⟩ : ∃ f, fuel = f + 1 := ⟨fuel - 1, by simp at hf; omega⟩
    have h0 : a = 0 := h
    simp [countLoop, h0]
  | cons b bs ih =>
    intro a n fuel h hf
    obtain ⟨rfl, hb, hrest⟩ := h
    obtain ⟨f, rfl⟩ : ∃ f, fuel = f + 1 := ⟨fuel - 1, by simp at hf; omega⟩
    rw [countLoop, if_neg hb, ih _ (n + 1) f hrest (by simp at hf ⊢; omega)]
    simp only [List.length_cons, Option.some.injEq]
    omega

/-- The copying loop yields the size_status fields in list order. -/
theorem fillLoop_eq (st : State) :
    ∀ (bs : List Int) (a : Int) (fuel : Nat), Seg st a bs 0 → bs.length + 1 ≤ fuel →
      fillLoop st fuel a = some (bs.map st.size_status) := by
  intro bs
  induction bs with
  | nil =>
    intro a fuel h hf
    obtain ⟨f, rfl⟩ : ∃ f, fuel = f + 1 := ⟨fuel - 1, by simp at hf; omega⟩
    have h0 : a = 0 := h
    simp [fillLoop, h0]
  | cons b bs ih =>
    intro a fuel h hf
    obtain ⟨rfl, hb, hrest⟩ := h
    obtain ⟨f, rfl⟩ : ∃ f, fuel = f + 1 := ⟨fuel - 1, by simp at hf; omega⟩
    rw [fillLoop, if_neg hb, ih _ f hrest (by simp at hf ⊢; omega)]
    rfl

/-- When the array has an even entry, firstEven returns an even entry of it. -/
theorem firstEven_mem :
    ∀ (l : List Int), (∃ a ∈ l, a % 2 = 0) → firstEven l ∈ l ∧ firstEven l % 2 = 0 := by
  intro l
  induction l with
  | nil => rintro ⟨a, ha, _⟩; exact absurd ha (List.not_mem_nil a)
  | cons b l ih =>
    rintro ⟨a, ha, hev⟩
    rw [firstEven]
    split
    · rename_i hb
      exact ⟨List.mem_cons_self _ _, hb⟩
    · rename_i hb
      rcases List.mem_cons.mp ha with rfl | ha
      · exact absurd hev hb
      · obtain ⟨h1, h2⟩ := ih ⟨a, ha, hev⟩
        exact ⟨List.mem_cons_of_mem _ h1, h2⟩

/-- The minimum search returns its start value or an even entry of the array. -/
theorem searchMin_mem (size : Int) :
    ∀ (l : List Int) (min : Int),
      searchMin size l min = min ∨
        (searchMin size l min ∈ l ∧ searchMin size l min % 2 = 0) := by
  intro l
  induction l with
  | nil => intro min; exact Or.inl rfl
  | cons a l ih =>
    intro min
    unfold searchMin at ih ⊢
    rw [List.foldl_cons]
    rcases ih (if a % 2 = 0 ∧ a < min ∧ min ≥ size then a else min) with h | h
    · rw [h]
      split
      · rename_i hc
        exact Or.inr ⟨List.mem_cons_self _ _, hc.1⟩
      · exact Or.inl rfl
    · exact Or.inr ⟨List.mem_cons_of_mem _ h.1, h.2⟩

/-- The minimum search never goes above its start value. -/
theorem searchMin_le (size : Int) :
    ∀ (l : List Int) (min : Int), searchMin size l min ≤ min := by
  intro l
  induction l with
  | nil => intro min; exact le_refl _
  | cons a l ih =>
    intro min
    unfold searchMin at ih ⊢
    rw [List.foldl_cons]
    refine le_trans (ih _) ?_
    split
    · rename_i hc
      exact le_of_lt hc.2.1
    · exact le_refl _

/-- When the request itself is an entry, the minimum search ends at or below it. -/
theorem searchMin_le_of_mem (size : Int) (hev : size % 2 = 0) :
    ∀ (l : List Int) (min : Int), size ∈ l → searchMin size l min ≤ size := by
  intro l
  induction l with
  | nil => intro min h; exact absurd h (List.not_mem_nil _)
  | cons a l ih =>
    intro min h
    rcases List.mem_cons.mp h with rfl | h
    · have hle := searchMin_le size l (if size % 2 = 0 ∧ size < min ∧ min ≥ size then size
        else min)
      unfold searchMin at hle ⊢
      rw [List.foldl_cons]
      refine le_trans hle ?_
      split
      · exact le_refl _
      · rename_i hc
        by_contra hlt
        exact hc ⟨hev, by omega, by omega⟩
    · have := ih (if a % 2 = 0 ∧ a < min ∧ min ≥ size then a else min) h
      unfold searchMin at this ⊢
      rw [List.foldl_cons]
      exact this

/-- The maximum search returns its start value or an even entry of the array. -/
theorem searchMax_mem (size : Int) :
    ∀ (l : List Int) (max : Int),
      searchMax size l max = max ∨
        (searchMax size l max ∈ l ∧ searchMax size l max % 2 = 0) := by
  intro l
  induction l with
  | nil => intro max; exact Or.inl rfl
  | cons a l ih =>
    intro max
    unfold searchMax at ih ⊢
    rw [List.foldl_cons]
    rcases ih (if a % 2 = 0 ∧ a > max ∧ max ≥ size then a else max) with h | h
    · rw [h]
      split
      · rename_i hc
        exact Or.inr ⟨List.mem_cons_self _ _, hc.1⟩
      · exact Or.inl rfl
    · exact Or.inr ⟨List.mem_cons_of_mem _ h.1, h.2⟩

/-- The exact-fit loop takes the first block whose size_status equals the request. -/
theorem exactLoop_finds (L : Layout) (st : State) (sz : Int) (B : Int) (post : List Int)
    (hB : st.size_status B = sz) :
    ∀ (pre : List Int) (a : Int) (fuel : Nat), Seg st a (pre ++ B :: post) 0 →
      (∀ x ∈ pre, st.size_status x ≠ sz) → pre.length + 1 ≤ fuel →
      exactLoop L st sz fuel a
        = some (B + L.sizeofHeader, st.setSize B (toInt (sz + 1))) := by
  intro pre
  induction pre with
  | nil =>
    intro a fuel hseg _ hfuel
    obtain ⟨rfl, ha, _⟩ := hseg
    obtain ⟨n, rfl⟩ : ∃ n, fuel = n + 1 := ⟨fuel - 1, by simp at hfuel; omega⟩
    rw [exactLoop, if_neg ha, if_pos hB]
  | cons x xs ih =>
    intro a fuel hseg hpre hfuel
    obtain ⟨rfl, ha, hrest⟩ := hseg
    obtain ⟨n, rfl⟩ : ∃ n, fuel = n + 1 := ⟨fuel - 1, by simp at hfuel; omega⟩
    rw [exactLoop, if_neg ha, if_neg (hpre a (List.mem_cons_self _ _))]
    exact ih _ n hrest (fun y hy => hpre y (List.mem_cons_of_mem _ hy))
      (by simp at hfuel ⊢; omega)

/-- The no-split loop takes the first block whose size_status equals the request. -/
theorem tightLoop_finds (L : Layout) (st : State) (sz : Int) (B : Int) (post : List Int)
    (hB : st.size_status B = sz) :
    ∀ (pre : List Int) (a : Int) (fuel : Nat), Seg st a (pre ++ B :: post) 0 →
      (∀ x ∈ pre, st.size_status x ≠ sz) → pre.length + 1 ≤ fuel →
      tightLoop L st sz fuel a
        = some (B + L.sizeofHeader, st.setSize B (toInt (st.size_status B + 1))) := by
  intro pre
  induction pre with
  | nil =>
    intro a fuel hseg _ hfuel
    obtain ⟨rfl, ha, _⟩ := hseg
    obtain ⟨n, rfl⟩ : ∃ n, fuel = n + 1 := ⟨fuel - 1, by simp at hfuel; omega⟩
    rw [tightLoop, if_neg ha, if_pos hB]
  | cons x xs ih =>
    intro a fuel hseg hpre hfuel
    obtain ⟨rfl, ha, hrest⟩ := hseg
    obtain ⟨n, rfl⟩ : ∃ n, fuel = n + 1 := ⟨fuel - 1, by simp at hfuel; omega⟩
    rw [tightLoop, if_neg ha, if_neg (hpre a (List.mem_cons_self _ _))]
    exact ih _ n hrest (fun y hy => hpre y (List.mem_cons_of_mem _ hy))
      (by simp at hfuel ⊢; omega)

/-- With an extremum between 4 and the request, the placement code takes whole the first
block whose size_status equals the request. -/
theorem placeExtremum_whole (L : Layout) (st : State) (r m : Int) (pre : List Int) (B : Int)
    (post : List Int) (fuel : Nat) (hm4 : 4 ≤ m) (hmr : m ≤ r) (hrmax : r ≤ 2147483644)
    (hseg : Seg st st.list_head (pre ++ B :: post) 0)
    (hpre : ∀ x ∈ pre, st.size_status x ≠ r) (hB : st.size_status B = r)
    (hfuel : pre.length + 1 ≤ fuel) :
    placeExtremum L fuel st r m = some (B + L.sizeofHeader, st.setSize B (r + 1)) := by
  have hP : L.sizeofPtr = 4 ∨ L.sizeofPtr = 8 := by
    cases L
    · exact Or.inl rfl
    · exact Or.inr rfl
  have hw : toInt (r + 1) = r + 1 := toInt_of_range _ (by omega) (by omega)
  unfold placeExtremum
  simp only
  by_cases heq : r = m
  · rw [if_pos heq, exactLoop_finds L st r B post hB pre _ fuel hseg hpre hfuel, hw]
  · have t1 : toSizeT L m = m := toSizeT_of_range L _ (by omega) (by omega)
    have t2 : toSizeT L r = r := toSizeT_of_range L _ (by omega) (by omega)
    have t3 : toSizeT L (r + L.sizeofPtr + L.sizeofPtr / 2)
        = r + L.sizeofPtr + L.sizeofPtr / 2 :=
      toSizeT_of_range L _ (by omega) (by omega)
    have hlt : m < r + L.sizeofPtr + L.sizeofPtr / 2 := by omega
    rw [if_neg heq, t1, t2, t3, if_pos hlt,
      tightLoop_finds L st r B post hB pre _ fuel hseg hpre hfuel, hB, hw]

/-- C22, amended: for every heap that satisfies the invariants and has at least two blocks,
and every size > 0 with r the least multiple of 4 that is >= size, let B be a free block with
payload p >= r such that
under first fit, B is the first free block in list order with payload >= r, and p = r or
(B has a successor and p - r < 12);
under best fit, p = r and B is the first free block in list order with payload r;
under worst fit, p = r, B is the first free block in list order with payload r, and no free
block has a larger payload.
Then p - r < H + 4 and Mem_Alloc(size) returns addr(B) + H, and the state afterwards is the
state before with only B.size_status replaced by p + 1: no block is created, B.next and
every other block are unchanged. -/
theorem alloc_without_split_marks_block_busy (L : Layout) (st : State) (base len : Int)
    (pre : List Int) (B : Int) (post : List Int) (size r : Int) (fuel : Nat)
    (hinv : Invariants L st base len (pre ++ B :: post))
    (hsize : 0 < size)
    (hr : IsLeast {m : Int | (4 : Int) ∣ m ∧ size ≤ m} r)
    (hB : isFree st B = true ∧ r ≤ payload (st.size_status B))
    (htwo : pre ≠ [] ∨ post ≠ [])
    (hcase :
      (st.fit = 1 ∧
        (∀ x ∈ pre, ¬ (isFree st x = true ∧ r ≤ payload (st.size_status x))) ∧
        (payload (st.size_status B) = r ∨
          (post ≠ [] ∧ payload (st.size_status B) - r < 12))) ∨
      (st.fit = 0 ∧ payload (st.size_status B) = r ∧
        ∀ x ∈ pre, ¬ (isFree st x = true ∧ payload (st.size_status x) = r)) ∨
      (st.fit = 2 ∧ payload (st.size_status B) = r ∧
        (∀ x ∈ pre, ¬ (isFree st x = true ∧ payload (st.size_status x) = r)) ∧
        ∀ x ∈ pre ++ B :: post, isFree st x = true → payload (st.size_status x) ≤ r))
    (hfuel : (pre ++ B :: post).length + 1 ≤ fuel) :
    payload (st.size_status B) - r < L.sizeofHeader + 4 ∧
    Mem_Alloc L fuel size st
      = some (B + L.sizeofHeader, st.setSize B (payload (st.size_status B) + 1)) := by
  rcases hcase with ⟨hfit, hpre, hacc⟩ | hcase
  · exact firstFit_marks_block_busy_without_split L st base len pre B post size r fuel hinv
      hfit hsize hr hpre hB htwo hacc (by omega)
  -- best fit and worst fit with an exact fit
  have hH := sizeofHeader_cases L
  have hexact : payload (st.size_status B) = r := by
    rcases hcase with h | h
    · exact h.2.1
    · exact h.2.1
  have hpre : ∀ x ∈ pre, ¬ (isFree st x = true ∧ payload (st.size_status x) = r) := by
    rcases hcase with h | h
    · exact h.2.2
    · exact h.2.2.1
  have hrr := isLeast_multiple_of_four size r hr
  have hBmem : B ∈ pre ++ B :: post := by simp
  obtain ⟨hb4, hbmax, _, _⟩ := hinv.size_bounds B hBmem
  have hpay := payload_of_free st B hB.1
  rw [hpay] at hexact ⊢
  rw [hexact] at hb4 hbmax ⊢
  unfold INT_MAX at hbmax
  have hround : roundSize size = r := by
    rw [hrr]
    apply roundSize_eq size hsize
    rw [← hrr]
    unfold INT_MAX
    exact hbmax
  have hr4 : r % 4 = 0 := by omega
  have hseg : Seg st st.list_head (pre ++ B :: post) 0 := hinv.linked.1
  have hns : ¬ size ≤ 0 := by omega
  refine ⟨by omega, ?_⟩
  have hmulti : st.next st.list_head ≠ 0 := by
    cases pre with
    | nil =>
      cases post with
      | nil => exact absurd rfl (htwo.resolve_left (fun h => h rfl))
      | cons c cs =>
        have h1 : st.list_head = B := hseg.1
        rw [h1, (Seg_next_of_mid st [] _ B c cs 0 hseg).1]
        exact (Seg_next_of_mid st [] _ B c cs 0 hseg).2
    | cons x xs =>
      obtain ⟨hx, _, hrest⟩ := hseg
      rw [hx]
      cases xs with
      | nil => rw [hrest.1]; exact hrest.2.1
      | cons y ys => rw [hrest.1]; exact hrest.2.1
  have hpre2 : ∀ x ∈ pre, st.size_status x ≠ r := by
    intro x hx heq
    have hfx : isFree st x = true := by rw [isFree_iff, heq]; omega
    exact hpre x hx ⟨hfx, by rw [payload_of_free st x hfx]; exact heq⟩
  -- the array of sizes
  obtain ⟨l, hl⟩ : ∃ l, l = (pre ++ B :: post).map st.size_status := ⟨_, rfl⟩
  have hcount := countLoop_eq st (pre ++ B :: post) st.list_head 0 fuel hseg hfuel
  have hfill := fillLoop_eq st (pre ++ B :: post) st.list_head fuel hseg hfuel
  rw [← hl] at hfill
  have hrl : r ∈ l := by rw [hl]; exact List.mem_map.mpr ⟨B, hBmem, hexact⟩
  have hfe := firstEven_mem l ⟨r, hrl, by omega⟩
  have hne : firstEven l ≠ -1 := by intro h; rw [h] at hfe; exact absurd hfe.2 (by decide)
  have hbound : ∀ m, m ∈ l → m % 2 = 0 →
      4 ≤ m ∧ ∃ x ∈ pre ++ B :: post, isFree st x = true ∧ payload (st.size_status x) = m := by
    intro m hm hev
    rw [hl] at hm
    obtain ⟨x, hx, rfl⟩ := List.mem_map.mp hm
    have hfx : isFree st x = true := (isFree_iff st x).mpr hev
    exact ⟨(hinv.size_bounds x hx).1, x, hx, hfx, payload_of_free st x hfx⟩
  rcases hcase with ⟨hfit, _, _⟩ | ⟨hfit, _, _, hmax⟩
  · -- best fit
    have hm : searchMin r l (firstEven l) ∈ l ∧ searchMin r l (firstEven l) % 2 = 0 := by
      rcases searchMin_mem r l (firstEven l) with h | h
      · rw [h]; exact hfe
      · exact h
    have hm4 := (hbound _ hm.1 hm.2).1
    have hmr := searchMin_le_of_mem r (by omega) l (firstEven l) hrl
    simp only [Mem_Alloc, hns, hmulti, if_false, hround, hfit, if_true, hcount, hfill,
      Option.some_bind, hne]
    exact placeExtremum_whole L st r _ pre B post fuel hm4 hmr (by omega) hseg hpre2 hexact
      (by simp at hfuel; omega)
  · -- worst fit
    have hm : searchMax r l (firstEven l) ∈ l ∧ searchMax r l (firstEven l) % 2 = 0 := by
      rcases searchMax_mem r l (firstEven l) with h | h
      · rw [h]; exact hfe
      · exact h
    obtain ⟨hm4, x, hx, hfx, hpx⟩ := hbound _ hm.1 hm.2
    have hmr : searchMax r l (firstEven l) ≤ r := by rw [← hpx]; exact hmax x hx hfx
    have h20 : ¬ st.fit = 0 := by rw [hfit]; decide
    have h21 : ¬ st.fit = 1 := by rw [hfit]; decide
    simp only [Mem_Alloc, hns, hmulti, if_false, hround, h20, h21, hfit, if_true, hcount,
      hfill, Option.some_bind, hne]
    exact placeExtremum_whole L st r _ pre B post fuel hm4 hmr (by omega) hseg hpre2 hexact
      (by simp at hfuel; omega)

/-- Counterexample to C22 as stated, on both layouts.  Under first fit, after
Mem_Alloc(100) and a second Mem_Alloc that leaves a last block of 8 bytes, the heap
[busy 100, busy, free 8] satisfies the invariants and its only free block B has payload
p = 8.  For Mem_Alloc(3), r = 4 and p - r < H + 4, yet the call returns NULL and changes
nothing: first fit takes a block it cannot split only when the block has a successor. -/
theorem firstFit_refuses_last_block_counterexample :
    (∃ s, run .ilp32 4 [.alloc 100, .alloc 3964] (fresh .ilp32 1, []) = some s ∧
      Invariants .ilp32 s.1 65536 4096 [65536, 65644, 69616] ∧ s.1.fit = 1 ∧
      isFree s.1 65536 = false ∧ isFree s.1 65644 = false ∧ isFree s.1 69616 = true ∧
      payload (s.1.size_status 69616) = 8 ∧
      (8 : Int) - 4 < Layout.ilp32.sizeofHeader + 4 ∧
      ∀ n, Mem_Alloc .ilp32 (n + 4) 3 s.1 = some (0, s.1)) ∧
    (∃ s, run .lp64 4 [.alloc 100, .alloc 3940] (fresh .lp64 1, []) = some s ∧
      Invariants .lp64 s.1 65536 4096 [65536, 65652, 69608] ∧ s.1.fit = 1 ∧
      isFree s.1 65536 = false ∧ isFree s.1 65652 = false ∧ isFree s.1 69608 = true ∧
      payload (s.1.size_status 69608) = 8 ∧
      (8 : Int) - 4 < Layout.lp64.sizeofHeader + 4 ∧
      ∀ n, Mem_Alloc .lp64 (n + 4) 3 s.1 = some (0, s.1)) ∧
    IsLeast {m : Int | (4 : Int) ∣ m ∧ (3 : Int) ≤ m} 4 := by
  refine ⟨⟨_, rfl, ⟨by decide, by decide, by decide, by decide, by decide, by decide,
      by decide⟩, by decide, by decide, by decide, by decide, by decide, by decide,
      fun n => rfl⟩,
    ⟨_, rfl, ⟨by decide, by decide, by decide, by decide, by decide, by decide,
      by decide⟩, by decide, by decide, by decide, by decide, by decide, by decide,
      fun n => rfl⟩, ⟨Dvd.intro 1 rfl, by decide⟩, ?_⟩
  rintro m ⟨hm1, hm2⟩
  have := Int.emod_eq_zero_of_dvd hm1
  omega

/-- Witness for C22 (amended): Mem_Alloc(8) under best fit on the heap
[free 8, busy 100, free tail]. -/
theorem alloc_without_split_marks_block_busy_witness :
    ∃ s, run .lp64 4 [.alloc 8, .alloc 100, .free 65552] (fresh .lp64 0, []) = some s ∧
      Invariants .lp64 s.1 65536 4096 ([] ++ 65536 :: [65560, 65676]) ∧
      s.1.fit = 0 ∧ isFree s.1 65536 = true ∧ payload (s.1.size_status 65536) = 8 ∧
      payload (s.1.size_status 65536) - 8 < Layout.lp64.sizeofHeader + 4 ∧
      Mem_Alloc .lp64 4 8 s.1
        = some (65536 + Layout.lp64.sizeofHeader,
            s.1.setSize 65536 (payload (s.1.size_status 65536) + 1)) := by
  have h : ∃ s, run .lp64 4 [.alloc 8, .alloc 100, .free 65552] (fresh .lp64 0, [])
      = some s ∧
      Invariants .lp64 s.1 65536 4096 ([] ++ 65536 :: [65560, 65676]) ∧
      s.1.fit = 0 ∧ isFree s.1 65536 = true ∧ payload (s.1.size_status 65536) = 8 :=
    ⟨_, rfl, ⟨by decide, by decide, by decide, by decide, by decide, by decide,
      by decide⟩, by decide, by decide, by decide⟩
  obtain ⟨s, hrun, hinv, hfit, hfree, hpay⟩ := h
  exact ⟨s, hrun, hinv, hfit, hfree, hpay,
    alloc_without_split_marks_block_busy .lp64 s.1 65536 4096 [] 65536 [65560, 65676] 8 8 4
      hinv (by decide)
      ⟨⟨Dvd.intro 2 rfl, le_refl _⟩, fun m hm => hm.2⟩
      ⟨hfree, by rw [hpay]⟩ (Or.inr (by decide))
      (Or.inr (Or.inl ⟨hfit, hpay, fun x hx => absurd hx (List.not_mem_nil x)⟩))
      (by decide)⟩

/-! ## C25: allocation from a single-block list -/

/-- Function Mem_Alloc(2147483647) on a fresh region: the rounded request wraps. -/
theorem single_block_alloc_size_wraps (L : Layout) (policy : Int) :
    (fresh L policy).next (fresh L policy).list_head = 0 ∧
    (fresh L policy).list_head = 65536 ∧
    ∃ st1, Mem_Alloc L 0 2147483647 (fresh L policy)
        = some (65536 + L.sizeofHeader, st1) ∧
      st1.size_status 65536 = -2147483647 ∧
      st1.size_status 65536 ≠ 2147483648 + 1 ∧
      st1.next 65536 ≠ 65536 + L.sizeofHeader + 2147483648 := by
  cases L
  · exact ⟨rfl, rfl, _, rfl, rfl, of_decide_eq_true rfl, of_decide_eq_true rfl⟩
  · exact ⟨rfl, rfl, _, rfl, rfl, of_decide_eq_true rfl, of_decide_eq_true rfl⟩

/-- Counterexample to C25 as stated, on both layouts under first fit.  On a fresh region (a
single block) Mem_Alloc(2147483647) returns base + H, but the request rounds to 2147483648,
which is not an int: the head gets size_status -2147483647, not r + 1, and its next is not
base + H + r. -/
theorem single_block_alloc_size_wraps_counterexample :
    IsLeast {m : Int | (4 : Int) ∣ m ∧ (2147483647 : Int) ≤ m} 2147483648 ∧
    ((fresh .ilp32 1).next (fresh .ilp32 1).list_head = 0 ∧
      (fresh .ilp32 1).list_head = 65536 ∧
      ∃ st1, Mem_Alloc .ilp32 0 2147483647 (fresh .ilp32 1)
          = some (65536 + Layout.ilp32.sizeofHeader, st1) ∧
        st1.size_status 65536 = -2147483647 ∧
        st1.size_status 65536 ≠ 2147483648 + 1 ∧
        st1.next 65536 ≠ 65536 + Layout.ilp32.sizeofHeader + 2147483648) ∧
    ((fresh .lp64 1).next (fresh .lp64 1).list_head = 0 ∧
      (fresh .lp64 1).list_head = 65536 ∧
      ∃ st1, Mem_Alloc .lp64 0 2147483647 (fresh .lp64 1)
          = some (65536 + Layout.lp64.sizeofHeader, st1) ∧
        st1.size_status 65536 = -2147483647 ∧
        st1.size_status 65536 ≠ 2147483648 + 1 ∧
        st1.next 65536 ≠ 65536 + Layout.lp64.sizeofHeader + 2147483648) := by
  refine ⟨⟨⟨Dvd.intro 536870912 rfl, by decide⟩, ?_⟩, single_block_alloc_size_wraps .ilp32 1,
    single_block_alloc_size_wraps .lp64 1⟩
  rintro m ⟨hm1, hm2⟩
  have := Int.emod_eq_zero_of_dvd hm1
  omega

/-- C25, amended: whenever the list is a single block (the head's next is NULL) and
0 < size <= INT_MAX - 3, with r the least multiple of 4 that is >= size and
(old head size_status) - H - r representable as an int: whatever the policy, whether or not
the head is free and whether or not r fits, Mem_Alloc(size) returns base + H, sets the head's
size_status to r + 1 and its next to a new block at base + H + r whose next is NULL and whose
size_status is (old head size_status) - H - r, which is zero or negative when
r > old payload - H; nothing else changes. -/
theorem single_block_alloc_always_splits (L : Layout) (st : State) (size r : Int)
    (fuel : Nat) (hsingle : st.next st.list_head = 0) (h0 : 0 < size)
    (h1 : size ≤ INT_MAX - 3)
    (hr : IsLeast {m : Int | (4 : Int) ∣ m ∧ size ≤ m} r)
    (hlo : -2147483648 ≤ st.size_status st.list_head - L.sizeofHeader - r)
    (hhi : st.size_status st.list_head - L.sizeofHeader - r ≤ INT_MAX) :
    ∃ st1, Mem_Alloc L fuel size st = some (st.list_head + L.sizeofHeader, st1) ∧
      st1 = (((st.setSize st.list_head (r + 1)).setNext st.list_head
          (st.list_head + L.sizeofHeader + r)).setNext
            (st.list_head + L.sizeofHeader + r) 0).setSize
              (st.list_head + L.sizeofHeader + r)
              (st.size_status st.list_head - L.sizeofHeader - r) ∧
      st1.size_status st.list_head = r + 1 ∧
      st1.next st.list_head = st.list_head + L.sizeofHeader + r ∧
      st1.next (st.list_head + L.sizeofHeader + r) = 0 ∧
      st1.size_status (st.list_head + L.sizeofHeader + r)
        = st.size_status st.list_head - L.sizeofHeader - r ∧
      (r > payload (st.size_status st.list_head) - L.sizeofHeader →
        st1.size_status (st.list_head + L.sizeofHeader + r) ≤ 0) := by
  have hH := sizeofHeader_cases L
  have hrr := isLeast_multiple_of_four size r hr
  unfold INT_MAX at h1 hhi
  have hround : roundSize size = r := by
    rw [hrr]
    exact roundSize_eq size h0 (by unfold INT_MAX; omega)
  have hr0 : 0 < r := by omega
  have hrmax : r ≤ 2147483644 := by omega
  have hw1 : toInt (r + 1) = r + 1 := toInt_of_range _ (by omega) (by omega)
  have hw2 : toInt (st.size_status st.list_head - L.sizeofHeader - (r + 1) + 1)
      = st.size_status st.list_head - L.sizeofHeader - r := by
    rw [toInt_of_range _ (by omega) (by omega)]; omega
  have hs0 : ¬ size ≤ 0 := by omega
  have hNb : st.list_head + L.sizeofHeader + r ≠ st.list_head := by omega
  have hbN : st.list_head ≠ st.list_head + L.sizeofHeader + r := by omega
  have hadd : st.list_head + r + L.sizeofHeader = st.list_head + L.sizeofHeader + r := by
    omega
  refine ⟨_, ?_, rfl, ?_, ?_, ?_, ?_, ?_⟩
  · simp only [Mem_Alloc, hs0, if_false, hround, hsingle, if_true, hw1, setSize_list_head,
      setNext_list_head, hw2, hadd]
  · simp [State.setSize, State.setNext, hbN]
  · simp [State.setSize, State.setNext, hbN]
  · simp [State.setSize, State.setNext]
  · simp [State.setSize, State.setNext]
  · intro hgt
    simp only [State.setSize, State.setNext, if_true]
    unfold payload at hgt
    split at hgt <;> omega

/-- Witness for C25 (amended): Mem_Alloc(5000) on a fresh region of 4096 bytes. -/
theorem single_block_alloc_always_splits_witness :
    (fresh .lp64 2).next (fresh .lp64 2).list_head = 0 ∧
    ∃ st1, Mem_Alloc .lp64 0 5000 (fresh .lp64 2)
        = some ((fresh .lp64 2).list_head + Layout.lp64.sizeofHeader, st1) ∧
      st1 = ((((fresh .lp64 2).setSize (fresh .lp64 2).list_head (5000 + 1)).setNext
          (fresh .lp64 2).list_head
          ((fresh .lp64 2).list_head + Layout.lp64.sizeofHeader + 5000)).setNext
            ((fresh .lp64 2).list_head + Layout.lp64.sizeofHeader + 5000) 0).setSize
              ((fresh .lp64 2).list_head + Layout.lp64.sizeofHeader + 5000)
              ((fresh .lp64 2).size_status (fresh .lp64 2).list_head
                - Layout.lp64.sizeofHeader - 5000) ∧
      st1.size_status (fresh .lp64 2).list_head = 5000 + 1 ∧
      st1.next (fresh .lp64 2).list_head
        = (fresh .lp64 2).list_head + Layout.lp64.sizeofHeader + 5000 ∧
      st1.next ((fresh .lp64 2).list_head + Layout.lp64.sizeofHeader + 5000) = 0 ∧
      st1.size_status ((fresh .lp64 2).list_head + Layout.lp64.sizeofHeader + 5000)
        = (fresh .lp64 2).size_status (fresh .lp64 2).list_head
          - Layout.lp64.sizeofHeader - 5000 ∧
      (5000 > payload ((fresh .lp64 2).size_status (fresh .lp64 2).list_head)
          - Layout.lp64.sizeofHeader →
        st1.size_status ((fresh .lp64 2).list_head + Layout.lp64.sizeofHeader + 5000) ≤ 0) :=
  ⟨rfl, single_block_alloc_always_splits .lp64 (fresh .lp64 2) 5000 5000 0 rfl (by decide)
    (by decide)
    ⟨⟨Dvd.intro 1250 rfl, by decide⟩, fun m hm => hm.2⟩ (by decide) (by decide)⟩

/-! ## C18: releasing the same pointer twice -/

/-- Conversion to int keeps the parity. -/
theorem toInt_emod_two (x : Int) : toInt x % 2 = x % 2 := by
  unfold toInt; omega

/-- The rounded request is even. -/
theorem roundSize_even (size : Int) (h0 : 0 < size) : roundSize size % 2 = 0 := by
  unfold roundSize
  split
  · rw [toInt_emod_two, int_lor_three size (le_of_lt h0)]; omega
  · omega

/-- Headers reached from an even address through even next fields are even. -/
theorem OnChain_even (st : State) (a c : Int) (ha : a % 2 = 0) (hn : ∀ x, st.next x % 2 = 0)
    (h : OnChain st a c) : c % 2 = 0 := by
  obtain ⟨k, rfl⟩ := h
  cases k with
  | zero => exact ha
  | succ k =>
    rw [Function.iterate_succ_apply']
    exact hn _

/-- A split at an even header with an even request stores even next fields. -/
theorem splitBlock_next_even (L : Layout) (st : State) (c sz : Int)
    (hn : ∀ x, st.next x % 2 = 0) (hc : c % 2 = 0) (hsz : sz % 2 = 0) :
    ∀ a, (splitBlock L st c sz).2.next a % 2 = 0 := by
  intro a
  have hH := sizeofHeader_cases L
  have h1 := hn a
  have h2 := hn c
  unfold splitBlock
  simp only [State.setNext, State.setSize]
  split
  · simp only
    split_ifs <;> omega
  · simp only
    split_ifs <;> omega

/-- After the first successful Mem_Init every next field holds NULL. -/
theorem Mem_Init_first_next (L : Layout) (pagesize fd : Int) (mmap : Int → Option Int)
    (sizeOfRegion policy : Int) (st0 : State)
    (h : Mem_Init L pagesize fd mmap sizeOfRegion policy State.initial = (0, st0)) :
    ∀ a, st0.next a = 0 := by
  unfold Mem_Init at h
  simp only at h
  split_ifs at h
  · simp at h
  · simp at h
  · simp at h
  · split at h
    · simp at h
    · simp only [Prod.mk.injEq, true_and] at h
      intro a
      rw [← h]
      simp [State.setNext, State.setSize, State.initial]

/-- In every state reached from a state with an even list head and even next fields,
the list head, every next field and every outstanding pointer are even addresses. -/
theorem Reachable_even (L : Layout) (st0 st : State) (out : List Int)
    (h0 : st0.list_head % 2 = 0 ∧ ∀ a, st0.next a % 2 = 0)
    (h : Reachable L st0 st out) :
    st.list_head % 2 = 0 ∧ (∀ a, st.next a % 2 = 0) ∧ ∀ p ∈ out, p % 2 = 0 := by
  have hH := sizeofHeader_cases L
  induction h with
  | fresh => exact ⟨h0.1, h0.2, fun p hp => absurd hp (List.not_mem_nil p)⟩
  | @alloc st st1 out fuel size p _ ha ih =>
    obtain ⟨ih1, ih2, ih3⟩ := ih
    have hg := Mem_Alloc_globals L fuel size st p st1 ha
    by_cases hs : size ≤ 0
    · simp only [Mem_Alloc, hs, if_true, Option.some.injEq, Prod.mk.injEq] at ha
      obtain ⟨rfl, rfl⟩ := ha
      exact ⟨ih1, ih2, by simpa using ih3⟩
    · have hr := roundSize_even size (by omega)
      rcases Mem_Alloc_outcome L fuel size st p st1 ha with ⟨rfl, rfl⟩ | ⟨c, hc, hp, hst⟩
      · exact ⟨ih1, ih2, by simpa using ih3⟩
      · have hce := OnChain_even st _ c ih1 ih2 hc
        have hpe : p % 2 = 0 := by omega
        refine ⟨by rw [hg.2.1]; exact ih1, ?_, ?_⟩
        · rcases hst with ⟨v, rfl⟩ | rfl
          · exact ih2
          · exact splitBlock_next_even L st c _ ih2 hce hr
        · intro q hq
          split at hq
          · exact ih3 q hq
          · rcases List.mem_cons.mp hq with rfl | hq
            · exact hpe
            · exact ih3 q hq
  | @free st st1 out fuel p r _ hp hf ih =>
    obtain ⟨ih1, ih2, ih3⟩ := ih
    have hg := Mem_Free_globals L fuel p st r st1 hf
    refine ⟨by rw [hg.2.1]; exact ih1, ?_, fun q hq => ih3 q (List.mem_of_mem_erase hq)⟩
    rcases Mem_Free_outcome L fuel p st r st1 hf with h1 | ⟨_, _, _, _, _, np, prev, _, _, h1⟩
    · rw [h1.2]; exact ih2
    · rw [h1]
      intro a
      split
      · simp only [State.setNext, State.setSize]
        split
        · exact ih2 np
        · exact ih2 a
      · exact ih2 a

/-- The walk of inList depends on the next fields only. -/
theorem lastLoop_congr (st1 st2 : State) (h : ∀ a, st1.next a = st2.next a) :
    ∀ (fuel : Nat) (a : Int), lastLoop st1 fuel a = lastLoop st2 fuel a := by
  intro fuel
  induction fuel with
  | zero => intro a; rfl
  | succ f ih => intro a; simp only [lastLoop, h, ih]

/-- A walk that ends still ends with one more step allowed. -/
theorem lastLoop_succ (st : State) :
    ∀ (fuel : Nat) (a l : Int), lastLoop st fuel a = some l →
      lastLoop st (fuel + 1) a = some l := by
  intro fuel
  induction fuel with
  | zero => intro a l h; exact absurd h (by simp [lastLoop])
  | succ f ih =>
    intro a l h
    rw [lastLoop] at h ⊢
    split at h
    · rename_i hn
      rw [if_pos hn]
      exact ih _ l h
    · rename_i hn
      rw [if_neg hn]
      exact h

/-- A walk that ends still ends with more steps allowed. -/
theorem lastLoop_mono (st : State) (fuel fuel2 : Nat) (a l : Int) (hle : fuel ≤ fuel2)
    (h : lastLoop st fuel a = some l) : lastLoop st fuel2 a = some l := by
  induction hle with
  | refl => exact h
  | step _ ih => exact lastLoop_succ st _ a l ih

/-- No chain leads from NULL to a header. -/
theorem Seg_from_null (st : State) (bs : List Int) (e : Int) (he : e ≠ 0) :
    ¬ Seg st 0 bs e := by
  intro h
  cases bs with
  | nil => exact he h.symm
  | cons c cs => exact h.2.1 h.1.symm

/-- A walk that ends also ends when started further along the chain. -/
theorem lastLoop_seg (st : State) (e : Int) (he : e ≠ 0) :
    ∀ (bs : List Int) (x l : Int) (fuel : Nat), Seg st x bs e →
      lastLoop st fuel x = some l → lastLoop st fuel e = some l := by
  intro bs
  induction bs with
  | nil => intro x l fuel hseg h; rw [← (show x = e from hseg)]; exact h
  | cons b bs ih =>
    intro x l fuel hseg h
    obtain ⟨rfl, _, hrest⟩ := hseg
    cases fuel with
    | zero => exact absurd h (by simp [lastLoop])
    | succ f =>
      have hnz : st.next x ≠ 0 := fun h0 => Seg_from_null st bs e he (h0 ▸ hrest)
      rw [lastLoop, if_pos hnz] at h
      exact ih _ l (f + 1) hrest (lastLoop_succ st f _ l h)

/-- Started at least one header further along, the walk ends one step earlier. -/
theorem lastLoop_seg_dec (st : State) (e : Int) (he : e ≠ 0) (b : Int) (bs : List Int)
    (x l : Int) (fuel : Nat) (hseg : Seg st x (b :: bs) e)
    (h : lastLoop st (fuel + 1) x = some l) : lastLoop st fuel e = some l := by
  obtain ⟨rfl, _, hrest⟩ := hseg
  have hnz : st.next x ≠ 0 := fun h0 => Seg_from_null st bs e he (h0 ▸ hrest)
  rw [lastLoop, if_pos hnz] at h
  exact lastLoop_seg st e he bs _ l fuel hrest h

/-- Redirecting the next field of a header to a header further along its own chain
keeps every terminating walk terminating within the same number of steps. -/
theorem lastLoop_shortcut (st st1 : State) (prev e b : Int) (bs : List Int)
    (hseg : Seg st prev (b :: bs) e)
    (hnext : ∀ a, st1.next a = if a = prev then e else st.next a) :
    ∀ (fuel : Nat) (a l : Int), lastLoop st fuel a = some l →
      ∃ l1, lastLoop st1 fuel a = some l1 := by
  intro fuel
  induction fuel with
  | zero => intro a l h; exact absurd h (by simp [lastLoop])
  | succ f ih =>
    intro a l h
    rw [lastLoop]
    by_cases ha : a = prev
    · subst ha
      have h1 : st1.next a = e := by rw [hnext, if_pos rfl]
      rw [h1]
      by_cases he : e = 0
      · rw [if_neg (not_not.mpr he)]; exact ⟨a, rfl⟩
      · rw [if_pos he]
        exact ih e l (lastLoop_seg_dec st e he b bs a l f hseg h)
    · have h1 : st1.next a = st.next a := by rw [hnext, if_neg ha]
      rw [h1]
      rw [lastLoop] at h
      split at h
      · rename_i hn
        rw [if_pos hn]
        exact ih _ l h
      · rename_i hn
        rw [if_neg hn]
        exact ⟨a, rfl⟩

/-- The right expansion loop ends on a free header reached through next fields. -/
theorem rightLoop_path (st : State) :
    ∀ (fuel : Nat) (t n np : Int), rightLoop st fuel t n = some np →
      np = n ∨ ∃ bs, Seg st t bs np ∧ np ≠ 0 ∧ st.size_status np % 2 = 0 := by
  intro fuel
  induction fuel with
  | zero => intro t n np h; exact absurd h (by simp [rightLoop])
  | succ f ih =>
    intro t n np h
    rw [rightLoop] at h
    split at h
    · exact Or.inl (Option.some.inj h).symm
    · rename_i ht
      split at h
      · rename_i hev
        rcases ih _ _ np h with h1 | ⟨bs, h1, h2, h3⟩
        · subst h1
          exact Or.inr ⟨[], rfl, ht, hev⟩
        · exact Or.inr ⟨t :: bs, ⟨rfl, ht, h1⟩, h2, h3⟩
      · exact Or.inl (Option.some.inj h).symm

/-- A non-null result of the search loop of getPrevious precedes the node. -/
theorem previousLoop_next (st : State) (node : Int) :
    ∀ (fuel : Nat) (find q : Int), previousLoop st node fuel find = some q → q ≠ 0 →
      st.next q = node := by
  intro fuel
  induction fuel with
  | zero => intro find q h; exact absurd h (by simp [previousLoop])
  | succ f ih =>
    intro find q h hq
    rw [previousLoop] at h
    split at h
    · split at h
      · rename_i h2
        rw [← Option.some.inj h]; exact h2
      · exact ih _ q h hq
    · exact absurd (Option.some.inj h).symm hq

/-- A non-null result of getPrevious precedes the node. -/
theorem getPrevious_next (inner : Nat) (st : State) (node q : Int)
    (h : getPrevious inner st node = some q) (hq : q ≠ 0) : st.next q = node := by
  unfold getPrevious at h
  split at h
  · exact absurd (Option.some.inj h).symm hq
  · exact previousLoop_next st node inner _ q h hq

/-- The left expansion loop ends on a header from which the tracker is reached. -/
theorem leftLoop_path (inner : Nat) (st : State) :
    ∀ (fuel : Nat) (t p prev : Int), leftLoop inner st fuel t p = some prev →
      prev = p ∨ (t ≠ 0 ∧ ∃ bs, Seg st prev bs t ∧ prev ≠ 0) := by
  intro fuel
  induction fuel with
  | zero => intro t p prev h; exact absurd h (by simp [leftLoop])
  | succ f ih =>
    intro t p prev h
    rw [leftLoop] at h
    split at h
    · exact Or.inl (Option.some.inj h).symm
    · rename_i ht
      split at h
      · simp only [Option.bind_eq_some] at h
        obtain ⟨q, hq, hrec⟩ := h
        rcases ih _ _ prev hrec with h1 | ⟨hq0, bs, h1, h2⟩
        · subst h1
          exact Or.inr ⟨ht, [], rfl, ht⟩
        · have hnq := getPrevious_next inner st t q hq hq0
          refine Or.inr ⟨ht, bs ++ [q], ?_, h2⟩
          exact (Seg_append st bs prev [q] t).mpr ⟨q, h1, rfl, hq0, hnq⟩
      · exact Or.inl (Option.some.inj h).symm

/-- A chain from an even address through even next fields ends at an even address. -/
theorem Seg_end_even (st : State) (hn : ∀ a, st.next a % 2 = 0) :
    ∀ (bs : List Int) (x e : Int), x % 2 = 0 → Seg st x bs e → e % 2 = 0 := by
  intro bs
  induction bs with
  | nil => intro x e hx h; rw [← (show x = e from h)]; exact hx
  | cons b bs ih => intro x e _ h; exact ih _ e (hn b) h.2.2

/-- C18: in every state reached by Mem_Alloc and Mem_Free calls from a successful first
Mem_Init (any size, page size and policy, the region at an even address), for every
outstanding pointer p returned by Mem_Alloc: if Mem_Free(p) returns 0, then a second
Mem_Free(p) right after it returns -1 and leaves the state as the first call left it,
whether or not the first call merged the block with a neighbour.  The second call returns
within the number of loop iterations that sufficed for the first. -/
theorem second_release_of_same_pointer_fails (L : Layout) (pagesize fd : Int)
    (mmap : Int → Option Int) (sizeOfRegion policy : Int) (st0 st : State)
    (out : List Int) (p : Int) (fuel : Nat) (st1 : State)
    (hinit : Mem_Init L pagesize fd mmap sizeOfRegion policy State.initial = (0, st0))
    (hbase : st0.list_head % 2 = 0)
    (hreach : Reachable L st0 st out) (hp : p ∈ out)
    (hfree : Mem_Free L fuel p st = some (0, st1)) :
    ∀ fuel2, fuel ≤ fuel2 → Mem_Free L fuel2 p st1 = some (-1, st1) := by
  have hH := sizeofHeader_cases L
  have hnext0 := Mem_Init_first_next L pagesize fd mmap sizeOfRegion policy st0 hinit
  obtain ⟨he1, he2, he3⟩ := Reachable_even L st0 st out
    ⟨hbase, fun a => by rw [hnext0 a]; rfl⟩ hreach
  have hpe := he3 p hp
  rcases Mem_Free_outcome L fuel p st 0 st1 hfree with h | h
  · exact absurd h.1 (by decide)
  obtain ⟨_, hp0, ⟨ok, hin, _⟩, hreq0, hodd, np, prev, hright, hleft, hst1⟩ := h
  -- abbreviations
  obtain ⟨req, hreq⟩ : ∃ req, req = p - L.sizeofHeader := ⟨_, rfl⟩
  rw [← hreq] at hreq0 hodd hright hleft hst1
  obtain ⟨stm, hstm⟩ : ∃ stm, stm = st.setSize req (toInt (st.size_status req - 1)) :=
    ⟨_, rfl⟩
  rw [← hstm] at hright hleft hst1
  have hmn : ∀ a, stm.next a = st.next a := by intro a; rw [hstm]; rfl
  have hmh : stm.list_head = st.list_head := by rw [hstm]; rfl
  have hms : stm.size_status req % 2 = 0 := by
    rw [hstm]
    simp only [State.setSize, if_true, toInt_emod_two]
    omega
  have hme : ∀ a, stm.next a % 2 = 0 := fun a => by rw [hmn]; exact he2 a
  have hreqe : req % 2 = 0 := by omega
  -- the walk of `inList` ended in the first call
  obtain ⟨l, hl⟩ : ∃ l, lastLoop stm fuel stm.list_head = some l := by
    simp only [inList, Option.map_eq_some'] at hin
    obtain ⟨l, hl, _⟩ := hin
    exact ⟨l, by rw [lastLoop_congr stm st hmn, hmh]; exact hl⟩
  -- the merged run of blocks
  obtain ⟨bsr, hsr, hnp0, hnpe⟩ : ∃ bs, Seg stm req bs np ∧ np ≠ 0 ∧
      stm.size_status np % 2 = 0 := by
    rcases rightLoop_path stm fuel req req np hright with h | h
    · subst h; exact ⟨[], rfl, hreq0, hms⟩
    · exact h
  obtain ⟨bsl, hsl, hprev0⟩ : ∃ bs, Seg stm prev bs req ∧ prev ≠ 0 := by
    rcases leftLoop_path fuel stm fuel req req prev hleft with h | h
    · subst h; exact ⟨[], rfl, hreq0⟩
    · exact h.2
  have hnpa : np % 2 = 0 := Seg_end_even stm hme bsr req np hreqe hsr
  -- the state after the first call
  have hfacts : st1.list_head = stm.list_head ∧ st1.size_status req % 2 = 0 ∧
      ∃ l1, lastLoop st1 fuel st1.list_head = some l1 := by
    by_cases hpn : prev = np
    · rw [if_neg (not_not.mpr hpn)] at hst1
      subst hst1
      exact ⟨rfl, hms, l, hl⟩
    · rw [if_pos hpn] at hst1
      have hpath : Seg stm prev ((bsl ++ bsr) ++ [np]) (stm.next np) :=
        (Seg_append stm (bsl ++ bsr) prev [np] _).mpr
          ⟨np, (Seg_append stm bsl prev bsr np).mpr ⟨req, hsl, hsr⟩, rfl, hnp0, rfl⟩
      have hnext : ∀ a, st1.next a = if a = prev then stm.next np else stm.next a := by
        intro a; rw [hst1]; rfl
      have hhead : st1.list_head = stm.list_head := by rw [hst1]; rfl
      refine ⟨hhead, ?_, ?_⟩
      · rw [hst1]
        simp only [State.setSize, State.setNext]
        split
        · rename_i hrp
          rw [toInt_emod_two]
          omega
        · exact hms
      · rw [hhead]
        cases hb : (bsl ++ bsr) ++ [np] with
        | nil => exact absurd hb (by simp)
        | cons b bs =>
          rw [hb] at hpath
          exact lastLoop_shortcut stm st1 prev _ b bs hpath hnext fuel _ l hl
  obtain ⟨_, hev, l1, hl1⟩ := hfacts
  intro fuel2 hle
  have hl2 := lastLoop_mono st1 fuel fuel2 _ l1 hle hl1
  simp only [Mem_Free, hp0, if_false, inList, hl2, Option.map_some', Option.some_bind,
    ← hreq, hev, if_true, ite_self]

/-- Witness for C18: p = Mem_Alloc(100); Mem_Alloc(8); Mem_Free(p); Mem_Free(p). -/
theorem second_release_of_same_pointer_fails_witness :
    Mem_Init .lp64 4096 3 (fun _ => some 65536) 4096 1 State.initial = (0, fresh .lp64 1) ∧
    (fresh .lp64 1).list_head % 2 = 0 ∧
    ∃ st out st1, Reachable .lp64 (fresh .lp64 1) st out ∧ (65552 : Int) ∈ out ∧
      Mem_Free .lp64 4 65552 st = some (0, st1) ∧
      Mem_Free .lp64 4 65552 st1 = some (-1, st1) := by
  have h : ∃ s, run .lp64 4 [.alloc 100, .alloc 8] (fresh .lp64 1, []) = some s ∧
      (65552 : Int) ∈ s.2 ∧ ∃ st1, Mem_Free .lp64 4 65552 s.1 = some (0, st1) :=
    ⟨_, rfl, by decide, _, rfl⟩
  obtain ⟨s, hrun, hmem, st1, hfree⟩ := h
  have hreach := run_reachable .lp64 _ 4 _ (fresh .lp64 1, []) s Reachable.fresh hrun
  exact ⟨rfl, rfl, s.1, s.2, st1, hreach, hmem, hfree,
    second_release_of_same_pointer_fails .lp64 4096 3 (fun _ => some 65536) 4096 1
      (fresh .lp64 1) s.1 s.2 65552 4 st1 rfl rfl hreach hmem hfree 4 (le_refl 4)⟩

end MemAlloc
